import Mathlib

/-!
Verification development for the hexe schema compiler
(`github.com/hexe-dev/hexe`).

The definitions below are a shallow embedding, in Lean 4, of the parts of
the compiler that the verified properties speak about:

* the token model (`internal/compiler/token`),
* the AST and its pretty-printer (`internal/compiler/ast`),
* the recursive-descent parser (`internal/compiler/parser/parser.go`),
* the whole-document validator (`internal/compiler/parser`, `Validate`),
* the record (Go) back-end of the generator (`internal/compiler/gen`).

Go machine integers (`int64`) are modelled as `Int` together with an
explicit two's-complement reduction `wrap64` applied exactly where the Go
code performs arithmetic that can overflow.  Go slices become `List`s, Go
interface hierarchies become inductive types, in-place mutation becomes
explicit state passing, and fallible code returns `Except`/`Option`.
Loops of the Go code that are not structurally terminating are given an
explicit fuel parameter; exhausting the fuel is reported by a dedicated
result (`.spin`), so that genuine non-termination of the Go original is
expressible as "spins for every fuel".

Two helper packages of the repository are not part of the provided
sources (only their callers and tests are): the scanner package (the
lexer) and the `strcase` package.  Definitions for those are modelled
from the specification and are marked `Modelled from the spec:` in their
doc comments.  Everything else is translated from the Go sources.
-/

namespace Hexe

/-- Two's-complement reduction of an integer into the `int64` range,
modelling overflow of Go's 64-bit integer arithmetic. -/
def wrap64 (z : Int) : Int :=
  (z + 2 ^ 63) % 2 ^ 64 - 2 ^ 63

/-- Token kinds of the compiler, mirroring the closed `token.Type`
enumeration (the constants are referenced throughout
`internal/compiler/parser` and the scanner tests). -/
inductive TokType where
  | eof
  | err
  | comment
  | identifier
  | constKw
  | enumKw
  | modelKw
  | serviceKw
  | customError
  | openCurly
  | closeCurly
  | openParen
  | closeParen
  | openAngle
  | closeAngle
  | comma
  | colon
  | optional
  | extend
  | ret
  | assign
  | array
  | mapKw
  | anyKw
  | byteKw
  | boolKw
  | int8 | int16 | int32 | int64
  | uint8 | uint16 | uint32 | uint64
  | float32 | float64
  | timestamp
  | stringKw
  | streamKw
  | constInt
  | constFloat
  | constDuration
  | constBytes
  | constBool
  | constNull
  | constStringSingleQuote
  | constStringDoubleQuote
  | constStringBacktickQoute
  deriving DecidableEq, Repr

/-- Token carrying its kind and raw text, mirroring `token.Token`
(the byte positions and filename, used only for diagnostics, are not
modelled; no verified property inspects them). -/
structure Token where
  type : TokType
  value : String
  deriving DecidableEq, Repr

/-- Comment position, mirroring `ast.CommentPosition`. -/
inductive CommentPos where
  | top
  | bottom
  deriving DecidableEq, Repr

/-- Comment node, mirroring `ast.Comment` (the token's raw text plus the
attachment position). -/
structure Comment where
  value : String
  position : CommentPos
  deriving DecidableEq, Repr

/-- Duration scales, mirroring the `ast.DurationScale` constants. -/
inductive DurationScale where
  | ns | us | ms | s | m | h
  deriving DecidableEq, Repr

/-- Numeric value of a duration scale in nanoseconds, as defined by the
constants in `ast/value.go`. -/
def DurationScale.val : DurationScale → Int
  | .ns => 1
  | .us => 1000
  | .ms => 1000 * 1000
  | .s => 1000 * 1000 * 1000
  | .m => 60 * (1000 * 1000 * 1000)
  | .h => 60 * (60 * (1000 * 1000 * 1000))

/-- Byte-size scales, mirroring the `ast.ByteSize` constants. -/
inductive ByteSizeScale where
  | b | kb | mb | gb | tb | pb | eb
  deriving DecidableEq, Repr

/-- Numeric value of a byte-size scale in bytes, as defined by the
constants in `ast/value.go`. -/
def ByteSizeScale.val : ByteSizeScale → Int
  | .b => 1
  | .kb => 1024
  | .mb => 1024 * 1024
  | .gb => 1024 * 1024 * 1024
  | .tb => 1024 * 1024 * 1024 * 1024
  | .pb => 1024 * 1024 * 1024 * 1024 * 1024
  | .eb => 1024 * 1024 * 1024 * 1024 * 1024 * 1024

/-- String literal payload of `ast.ValueString`: the quote kind of the
original token (single, double or backtick) plus the raw inner text. -/
structure StrLit where
  qkind : TokType
  value : String
  deriving DecidableEq, Repr

/-- Integer value node, mirroring `ast.ValueInt`.  The token is optional
exactly as the Go field `Token *token.Token` is nilable; `defined`
records whether the user wrote the value explicitly. -/
structure ValueInt where
  tok : Option Token
  value : Int
  size : Int
  defined : Bool
  deriving DecidableEq, Repr

/-- Values of the IDL, mirroring the `ast.Value` interface and its
implementations in `ast/value.go`.  The `float64` payload of
`ast.ValueFloat` is not modelled (floating point); only the raw token
text, which is all the pretty-printer and generator read, is kept.
`ast.ValueUint` is never produced by the parser and is omitted. -/
inductive Value where
  | bool (tok : Option Token) (value : Bool) (userDefined : Bool)
  | str (s : StrLit)
  | float (raw : String)
  | int (v : ValueInt)
  | duration (raw : String) (value : Int) (scale : DurationScale)
  | byteSize (raw : String) (value : Int) (scale : ByteSizeScale)
  | null
  | var (name : String)
  deriving DecidableEq, Repr

/-- Types of the IDL, mirroring the `ast.Type` interface and its
implementations in `ast/type.go`. -/
inductive HType where
  | custom (name : String)
  | byte
  | uint (size : Int)
  | int (size : Int)
  | float (size : Int)
  | string
  | bool
  | any
  | array (t : HType)
  | map (key : HType) (value : HType)
  | timestamp
  deriving DecidableEq, Repr

/-- Option node, mirroring `ast.Option` (named `HOption` because `Option`
is taken by the Lean prelude). -/
structure HOption where
  name : String
  value : Value
  comments : List Comment
  deriving DecidableEq, Repr

/-- Option collection with its trailing comments, mirroring
`ast.Options`. -/
structure Options where
  list : List HOption
  comments : List Comment
  deriving DecidableEq, Repr

/-- Model field, mirroring `ast.Field`. -/
structure Field where
  name : String
  type : HType
  isOptional : Bool
  options : Options
  comments : List Comment
  deriving DecidableEq, Repr

/-- Extend entry (spread-style inclusion), mirroring `ast.Extend`. -/
structure Extend where
  name : String
  comments : List Comment
  deriving DecidableEq, Repr

/-- Model declaration, mirroring `ast.Model`. -/
structure Model where
  name : String
  extends_ : List Extend
  fields : List Field
  comments : List Comment
  deriving DecidableEq, Repr

/-- Enum member, mirroring `ast.EnumSet`.  The value is optional exactly
as the Go field `Value *ValueInt` is nilable. -/
structure EnumSet where
  name : String
  value : Option ValueInt
  defined : Bool
  comments : List Comment
  deriving DecidableEq, Repr

/-- Enum declaration, mirroring `ast.Enum`. -/
structure Enum where
  name : String
  size : Int
  sets : List EnumSet
  comments : List Comment
  deriving DecidableEq, Repr

/-- Method argument, mirroring `ast.Arg`. -/
structure Arg where
  name : String
  type : HType
  stream : Bool
  deriving DecidableEq, Repr

/-- Method return, mirroring `ast.Return`. -/
structure Ret where
  name : String
  type : HType
  stream : Bool
  deriving DecidableEq, Repr

/-- Service method, mirroring `ast.Method`. -/
structure Method where
  name : String
  args : List Arg
  returns : List Ret
  options : Options
  comments : List Comment
  deriving DecidableEq, Repr

/-- Service classification, mirroring `ast.ServiceType`. -/
inductive ServiceType where
  | rpc
  | http
  deriving DecidableEq, Repr

/-- Service declaration, mirroring `ast.Service`. -/
structure Service where
  name : String
  type : ServiceType
  methods : List Method
  comments : List Comment
  deriving DecidableEq, Repr

/-- Custom error declaration, mirroring `ast.CustomError`.  `msg` is
optional exactly as the Go field `Msg *ValueString` is nilable. -/
structure CustomError where
  name : String
  code : Int
  msg : Option StrLit
  comments : List Comment
  deriving DecidableEq, Repr

/-- Constant declaration, mirroring `ast.Const`. -/
structure Const where
  name : String
  value : Value
  comments : List Comment
  deriving DecidableEq, Repr

/-- Document, mirroring `ast.Document`. -/
structure Document where
  comments : List Comment
  consts : List Const
  enums : List Enum
  models : List Model
  services : List Service
  errors : List CustomError
  deriving DecidableEq, Repr

/-! ## Pretty-printer

Each `format` function below is the translation of the corresponding Go
`Format(sb *strings.Builder)` method from `internal/compiler/ast`; the
builder is replaced by string concatenation in emission order. -/

/-- Concatenation of a list of strings in order (the writes a Go loop
performs on a `strings.Builder`). -/
def writeAll (l : List String) : String :=
  l.foldl (· ++ ·) ""

/-- Whitespace trimming on both ends, modelling `strings.TrimSpace`
(ASCII whitespace; defined over the character list so that it reduces
definitionally). -/
def trimAscii (s : String) : String :=
  String.mk
    (((s.toList.dropWhile Char.isWhitespace).reverse.dropWhile
      Char.isWhitespace).reverse)

/-- Lowercasing, modelling `strings.ToLower` (ASCII; defined over the
character list so that it reduces definitionally). -/
def toLowerAscii (s : String) : String :=
  String.mk (s.toList.map Char.toLower)

/-- Check that `pre` is a prefix of `s`, modelling
`strings.HasPrefix`. -/
def strStartsWith (s pre : String) : Bool :=
  pre.toList.isPrefixOf s.toList

/-- Translation of `ast.Comment.Format`: a `# ` prefix followed by the
trimmed raw comment text. -/
def Comment.format (c : Comment) : String :=
  "# " ++ trimAscii c.value

/-- Translation of `ast.ValueString.Format` (re-wraps the raw inner text
in the original quote kind). -/
def StrLit.format (s : StrLit) : String :=
  match s.qkind with
  | .constStringSingleQuote => "'" ++ s.value ++ "'"
  | .constStringDoubleQuote => "\"" ++ s.value ++ "\""
  | .constStringBacktickQoute => "`" ++ s.value ++ "`"
  | _ => ""

/-- Translation of `ast.ValueInt.Format`: prints the raw token text.
The Go code dereferences the token unconditionally; callers guard the
nil case, which is rendered here as the empty string. -/
def ValueInt.format (v : ValueInt) : String :=
  (v.tok.map (·.value)).getD ""

/-- Translation of the `Format` methods of the `ast.Value`
implementations in `ast/value.go`. -/
def Value.format : Value → String
  | .bool _ value _ => if value then "true" else "false"
  | .str s => s.format
  | .float raw => raw
  | .int v => v.format
  | .duration raw _ _ => raw
  | .byteSize raw _ _ => raw
  | .null => "null"
  | .var name => name

/-- Translation of the `Format` methods of the `ast.Type`
implementations in `ast/type.go`. -/
def HType.format : HType → String
  | .custom name => name
  | .byte => "byte"
  | .uint size => "uint" ++ toString size
  | .int size => "int" ++ toString size
  | .float size => "float" ++ toString size
  | .string => "string"
  | .bool => "bool"
  | .any => "any"
  | .array t => "[]" ++ t.format
  | .map k v => "map<" ++ k.format ++ ", " ++ v.format ++ ">"
  | .timestamp => "timestamp"

/-- Translation of `ast.Option.Format`: comments, then the name, then
`= value` unless the value is the implicit boolean `true` (a bare flag,
recognised by its nil token). -/
def HOption.format (o : HOption) : String :=
  writeAll (o.comments.map (fun c => "\n        " ++ c.format))
    ++ "\n        " ++ o.name
    ++ (match o.value with
        | .bool none _ _ => ""
        | v => " = " ++ v.format)

/-- Translation of `ast.Options.Format`. -/
def Options.format (o : Options) : String :=
  " \x7b"
    ++ writeAll (o.list.map HOption.format)
    ++ writeAll (o.comments.map (fun c => "\n        " ++ c.format))
    ++ "\n    \x7d"

/-- Translation of `ast.Field.Format`. -/
def Field.format (f : Field) : String :=
  String.intercalate "\n" (f.comments.map (fun c => "    " ++ c.format))
    ++ (if f.comments.isEmpty then "" else "\n")
    ++ "    " ++ f.name
    ++ (if f.isOptional then "?" else "")
    ++ ": " ++ f.type.format
    ++ (if f.options.list.isEmpty && f.options.comments.isEmpty then ""
        else f.options.format)

/-- Translation of `ast.Extend.Format`.  Note that the comments are
printed with no newline separating them from the `...` that follows. -/
def Extend.format (e : Extend) : String :=
  writeAll (e.comments.map (fun c => "\n    " ++ c.format))
    ++ "    ..." ++ e.name

/-- Translation of `ast.Model.Format`. -/
def Model.format (m : Model) : String :=
  writeAll ((m.comments.filter (·.position = .top)).map
      (fun c => c.format ++ "\n"))
    ++ "model " ++ m.name ++ " \x7b"
    ++ writeAll (m.extends_.map (fun e => "\n" ++ e.format))
    ++ writeAll (m.fields.map (fun f => "\n" ++ f.format))
    ++ writeAll ((m.comments.filter (·.position = .bottom)).map
      (fun c => "\n    " ++ c.format))
    ++ "\n\x7d"

/-- Translation of `ast.EnumSet.Format`: comments, the member name, and
`= value` exactly when the value's token is present (the Go code
dereferences `e.Value` unconditionally; the nil case, which the parser
never produces, is rendered without a value). -/
def EnumSet.format (e : EnumSet) : String :=
  writeAll (e.comments.map (fun c => "    " ++ c.format ++ "\n"))
    ++ "    " ++ e.name
    ++ (match e.value with
        | some v => if v.tok.isSome then " = " ++ v.format else ""
        | none => "")

/-- Translation of `ast.Enum.Format`. -/
def Enum.format (e : Enum) : String :=
  writeAll ((e.comments.filter (·.position = .top)).map
      (fun c => c.format ++ "\n"))
    ++ "enum " ++ e.name ++ " \x7b\n"
    ++ String.intercalate "\n" (e.sets.map EnumSet.format)
    ++ writeAll ((e.comments.filter (·.position = .bottom)).map
      (fun c => "\n" ++ "    " ++ c.format))
    ++ "\n\x7d"

/-- Translation of `ast.Arg.Format`. -/
def Arg.format (a : Arg) : String :=
  a.name ++ ": " ++ (if a.stream then "stream " else "") ++ a.type.format

/-- Translation of `ast.Return.Format`. -/
def Ret.format (r : Ret) : String :=
  r.name ++ ": " ++ (if r.stream then "stream " else "") ++ r.type.format

/-- Translation of `ast.Method.Format`. -/
def Method.format (m : Method) : String :=
  writeAll (m.comments.map (fun c => "\n    " ++ c.format))
    ++ "\n    " ++ m.name ++ " ("
    ++ String.intercalate ", " (m.args.map Arg.format)
    ++ ")"
    ++ (if m.returns.isEmpty then ""
        else " => (" ++ String.intercalate ", " (m.returns.map Ret.format) ++ ")")
    ++ (if m.options.list.isEmpty && m.options.comments.isEmpty then ""
        else m.options.format)

/-- Translation of `ast.Service.Format`. -/
def Service.format (s : Service) : String :=
  writeAll ((s.comments.filter (·.position = .top)).map
      (fun c => c.format ++ "\n"))
    ++ "service " ++ s.name ++ " \x7b"
    ++ writeAll (s.methods.map Method.format)
    ++ writeAll ((s.comments.filter (·.position = .bottom)).map
      (fun c => "\n    " ++ c.format))
    ++ "\n\x7d"

/-- Translation of `ast.CustomError.Format`. -/
def CustomError.format (c : CustomError) : String :=
  writeAll (c.comments.map (fun cm => "\n" ++ cm.format))
    ++ (if c.comments.isEmpty then "" else "\n")
    ++ "error " ++ c.name ++ " \x7b "
    ++ (if c.code ≠ 0 then "Code = " ++ toString c.code ++ " " else "")
    ++ "Msg = " ++ ((c.msg.map StrLit.format).getD "")
    ++ " \x7d"

/-- Translation of `ast.Const.Format`. -/
def Const.format (c : Const) : String :=
  writeAll (c.comments.map (fun cm => cm.format ++ "\n"))
    ++ "const " ++ c.name ++ " = " ++ c.value.format

/-- Translation of `ast.Document.Format`, including its exact group
separator logic (note that the final `neededNewline` condition of the Go
code omits the models group). -/
def Document.format (d : Document) : String :=
  String.intercalate "\n" (d.consts.map Const.format)
    ++ (if d.consts.length > 0 &&
          (d.enums.length > 0 || d.models.length > 0 ||
           d.services.length > 0 || d.errors.length > 0)
        then "\n\n" else "")
    ++ String.intercalate "\n\n" (d.enums.map Enum.format)
    ++ (if d.enums.length > 0 &&
          (d.models.length > 0 || d.services.length > 0 || d.errors.length > 0)
        then "\n\n" else "")
    ++ String.intercalate "\n\n" (d.models.map Model.format)
    ++ (if d.models.length > 0 && (d.services.length > 0 || d.errors.length > 0)
        then "\n\n" else "")
    ++ String.intercalate "\n\n" (d.services.map Service.format)
    ++ (if d.services.length > 0 && d.errors.length > 0 then "\n\n" else "")
    ++ String.intercalate "\n" (d.errors.map CustomError.format)
    ++ (if (d.consts.length > 0 || d.enums.length > 0 ||
            d.services.length > 0 || d.errors.length > 0) &&
           d.comments.length > 0
        then "\n" else "")
    ++ String.intercalate "\n" (d.comments.map Comment.format)

/-! ## Case helpers (`internal/strcase`)

The `strcase` package is not among the provided sources; the following
definitions are modelled from the specification's glossary:
PascalCase is `[A-Z][A-Za-z0-9]*`, camelCase is `[a-z][A-Za-z0-9]*`,
and the camelCase form of a PascalCase name lowercases its first
character. -/

/-- Modelled from the spec: `strcase.IsPascal`, the check for
`[A-Z][A-Za-z0-9]*` (ASCII only). -/
def isPascal (s : String) : Bool :=
  match s.toList with
  | [] => false
  | c :: rest => c.isUpper && rest.all Char.isAlphanum

/-- Modelled from the spec: `strcase.IsCamel`, the check for
`[a-z][A-Za-z0-9]*` (ASCII only). -/
def isCamel (s : String) : Bool :=
  match s.toList with
  | [] => false
  | c :: rest => c.isLower && rest.all Char.isAlphanum

/-- Modelled from the spec: `strcase.ToCamel`, producing the camelCase
form of a name by lowercasing its first character. -/
def toCamel (s : String) : String :=
  match s.toList with
  | [] => ""
  | c :: rest => String.mk (c.toLower :: rest)

/-! ## Lexer

The scanner package is not among the provided sources (only its tests
and its callers are).  The lexer below is modelled from the
specification, section 4.1: a state machine dispatching on the first
non-whitespace character — letter to identifier (with a fixed keyword
table), digit to number (underscore rules, optional fraction, duration
and byte-size unit suffixes), three string states keyed by the opening
delimiter with no escape processing, `#` to comment, `.` verifying
`...`, `[]` emitted as a single Array token, and direct punctuation;
any unrecognised character yields an Error token that aborts the
stream. -/

/-- Double-quote character. -/
def quoteDouble : Char := Char.ofNat 34

/-- Single-quote character. -/
def quoteSingle : Char := Char.ofNat 39

/-- Backtick character. -/
def quoteBacktick : Char := Char.ofNat 96

/-- Opening curly brace character. -/
def curlyOpen : Char := Char.ofNat 123

/-- Closing curly brace character. -/
def curlyClose : Char := Char.ofNat 125

/-- Characters allowed inside an identifier (`[A-Za-z0-9_]`). -/
def identChar (c : Char) : Bool :=
  c.isAlphanum || c = '_'

/-- Modelled from the spec: the keyword table of the lexer (section 3's
keyword list, plus the boolean and null literals). -/
def keywordType (s : String) : TokType :=
  match s with
  | "const" => .constKw
  | "enum" => .enumKw
  | "model" => .modelKw
  | "service" => .serviceKw
  | "error" => .customError
  | "byte" => .byteKw
  | "bool" => .boolKw
  | "int8" => .int8
  | "int16" => .int16
  | "int32" => .int32
  | "int64" => .int64
  | "uint8" => .uint8
  | "uint16" => .uint16
  | "uint32" => .uint32
  | "uint64" => .uint64
  | "float32" => .float32
  | "float64" => .float64
  | "timestamp" => .timestamp
  | "string" => .stringKw
  | "map" => .mapKw
  | "array" => .array
  | "any" => .anyKw
  | "stream" => .streamKw
  | "true" => .constBool
  | "false" => .constBool
  | "null" => .constNull
  | _ => .identifier

/-- Check of the spec's underscore rules inside a digit run: no two
consecutive underscores and no trailing underscore. -/
def digitsUnderscoreOk : List Char → Bool
  | [] => true
  | [c] => c ≠ '_'
  | c1 :: c2 :: rest =>
    !(c1 = '_' && c2 = '_') && digitsUnderscoreOk (c2 :: rest)

/-- Duration unit suffixes (section 6). -/
def durationSuffixes : List String := ["ns", "us", "ms", "s", "m", "h"]

/-- Byte-size unit suffixes (section 6). -/
def byteSizeSuffixes : List String := ["b", "kb", "mb", "gb", "tb", "pb", "eb"]

/-- Modelled from the spec: the Number state of the lexer (section 4.2):
digits with underscores, an optional fraction introduced by a decimal
point that must be followed by a digit, and a trailing unit suffix that
reclassifies the token as a duration or a byte size. -/
def lexNumber (l : List Char) : Token × List Char :=
  let ds := l.takeWhile (fun c => c.isDigit || c = '_')
  let rest1 := l.drop ds.length
  if !digitsUnderscoreOk ds then
    (⟨.err, "expected digit after each underscore"⟩, [])
  else
    match rest1 with
    | '.' :: r2 =>
      let fds := r2.takeWhile (fun c => c.isDigit || c = '_')
      if fds.isEmpty || !(fds.headD ' ').isDigit then
        (⟨.err, "expected digit after decimal point"⟩, [])
      else if !digitsUnderscoreOk fds then
        (⟨.err, "expected digit after each underscore"⟩, [])
      else
        let rest2 := r2.drop fds.length
        if (rest2.headD ' ') = '.' || (rest2.headD ' ').isAlpha then
          (⟨.err, "unexpected character after number"⟩, [])
        else
          (⟨.constFloat, String.mk (ds ++ '.' :: fds)⟩, rest2)
    | _ =>
      let su := rest1.takeWhile Char.isLower
      let suStr := String.mk su
      if su.isEmpty then
        (⟨.constInt, String.mk ds⟩, rest1)
      else if durationSuffixes.contains suStr then
        (⟨.constDuration, String.mk (ds ++ su)⟩, rest1.drop su.length)
      else if byteSizeSuffixes.contains suStr then
        (⟨.constBytes, String.mk (ds ++ su)⟩, rest1.drop su.length)
      else
        (⟨.err, "unexpected character after number"⟩, [])

/-- Modelled from the spec: one string state (section 4.1): the raw
inner bytes up to the closing delimiter become the token value, with no
escape processing. -/
def lexString (qkind : TokType) (delim : Char) (l : List Char) :
    Token × List Char :=
  let inner := l.takeWhile (· ≠ delim)
  if inner.length = l.length then
    (⟨.err, "unterminated string"⟩, [])
  else
    (⟨qkind, String.mk inner⟩, l.drop (inner.length + 1))

/-- Modelled from the spec: the top-level `Lex` state, iterated over the
whole input.  Each step consumes at least one character, so a fuel of
the input length suffices; an Error token terminates the stream. -/
def lexRun : Nat → List Char → List Token
  | 0, _ => [⟨.err, "fuel exhausted"⟩]
  | _ + 1, [] => [⟨.eof, ""⟩]
  | n + 1, c :: rest =>
    let emit : Token × List Char → List Token := fun (tok, r) =>
      if tok.type = .err then [tok] else tok :: lexRun n r
    if c = ' ' || c = '\t' || c = '\n' || c = '\r' then
      lexRun n rest
    else if c.isAlpha || c = '_' then
      let run := (c :: rest).takeWhile identChar
      let s := String.mk run
      ⟨keywordType s, s⟩ :: lexRun n ((c :: rest).drop run.length)
    else if c.isDigit then
      emit (lexNumber (c :: rest))
    else if c = quoteSingle then
      emit (lexString .constStringSingleQuote quoteSingle rest)
    else if c = quoteDouble then
      emit (lexString .constStringDoubleQuote quoteDouble rest)
    else if c = quoteBacktick then
      emit (lexString .constStringBacktickQoute quoteBacktick rest)
    else if c = '#' then
      let inner := rest.takeWhile (· ≠ '\n')
      ⟨.comment, String.mk inner⟩ :: lexRun n (rest.drop inner.length)
    else if c = '.' then
      match rest with
      | '.' :: '.' :: r => ⟨.extend, "..."⟩ :: lexRun n r
      | _ => [⟨.err, "unexpected character"⟩]
    else if c = '=' then
      match rest with
      | '>' :: r => ⟨.ret, "=>"⟩ :: lexRun n r
      | _ => ⟨.assign, "="⟩ :: lexRun n rest
    else if c = '[' then
      match rest with
      | ']' :: r => ⟨.array, "[]"⟩ :: lexRun n r
      | _ => [⟨.err, "unexpected character"⟩]
    else if c = curlyOpen then ⟨.openCurly, "\x7b"⟩ :: lexRun n rest
    else if c = curlyClose then ⟨.closeCurly, "\x7d"⟩ :: lexRun n rest
    else if c = '(' then ⟨.openParen, "("⟩ :: lexRun n rest
    else if c = ')' then ⟨.closeParen, ")"⟩ :: lexRun n rest
    else if c = '<' then ⟨.openAngle, "<"⟩ :: lexRun n rest
    else if c = '>' then ⟨.closeAngle, ">"⟩ :: lexRun n rest
    else if c = ',' then ⟨.comma, ","⟩ :: lexRun n rest
    else if c = ':' then ⟨.colon, ":"⟩ :: lexRun n rest
    else if c = '?' then ⟨.optional, "?"⟩ :: lexRun n rest
    else
      [⟨.err, "unexpected character"⟩]

/-- Modelled from the spec: the full lexer over a source string. -/
def lex (s : String) : List Token :=
  lexRun (s.length + 1) s.toList

/-! ## Parser

Translation of `internal/compiler/parser/parser.go`.  The parser state
is the remaining token stream plus the floating pending-comments list
(`p.comments`); an exhausted stream keeps yielding the EOF token, as
`token.EmitterIterator.NextToken` does.  Loops of the Go code become
fuel-indexed recursion; a loop iteration that the Go code performs
without consuming a token is modelled by a recursive call on the same
state, so that the Go code's non-termination shows up as `.spin` for
every fuel. -/

/-- Parser state: remaining tokens and pending comments. -/
structure PState where
  toks : List Token
  comments : List Comment
  deriving DecidableEq, Repr

/-- Translation of `Parser.Peek`: the next token, or EOF forever once
the stream is exhausted. -/
def PState.peek (s : PState) : Token :=
  s.toks.headD ⟨.eof, ""⟩

/-- Translation of `Parser.Next`: consume one token. -/
def PState.adv (s : PState) : PState :=
  { s with toks := s.toks.tail }

/-- Result of a parsing function: success with the produced node and the
new state, a positioned error (only the message is modelled), or
`.spin` when the fuel ran out — the marker for a diverging loop of the
Go code. -/
inductive PRes (α : Type) where
  | ok (a : α) (s : PState)
  | err (msg : String)
  | spin
  deriving DecidableEq, Repr

/-- Sequencing helper for `PRes`, propagating errors and spins. -/
def PRes.andThen {α β : Type} (r : PRes α) (f : α → PState → PRes β) : PRes β :=
  match r with
  | .ok a s => f a s
  | .err m => .err m
  | .spin => .spin

/-- Translation of `ParseComment`. -/
def ParseComment (s : PState) : PRes Comment :=
  if s.peek.type = .comment then .ok ⟨s.peek.value, .top⟩ s.adv
  else .err "expected comment"

/-- Translation of `getIntSize`: the smallest signed bit width holding
both bounds. -/
def getIntSize (mi ma : Int) : Int :=
  if mi ≥ -128 ∧ ma ≤ 127 then 8
  else if mi ≥ -32768 ∧ ma ≤ 32767 then 16
  else if mi ≥ -2147483648 ∧ ma ≤ 2147483647 then 32
  else 64

/-- Underscore stripping applied by the parser before numeric
conversion (`strings.ReplaceAll(value, "_", "")`). -/
def stripUnderscores (s : String) : String :=
  String.mk (s.toList.filter (· ≠ '_'))

/-- Base-10 `strconv.ParseInt(_, 10, 64)` on a sign-less digit string:
fails on an empty or non-digit string and on `int64` overflow. -/
def parseIntGo (s : String) : Option Int :=
  let cs := s.toList
  if cs.isEmpty || !cs.all Char.isDigit then none
  else
    let v : Nat := cs.foldl (fun acc c => acc * 10 + (c.toNat - 48)) 0
    if (v : Int) ≤ 2 ^ 63 - 1 then some (v : Int) else none

/-- Translation of `parseBytesNumber`: peel the 1- or 2-character unit
suffix and classify the scale. -/
def parseBytesNumber (v : String) : String × ByteSizeScale :=
  let cs := v.toList
  let penult := cs.getD (cs.length - 2) '0'
  if penult = 'k' then (String.mk (cs.take (cs.length - 2)), .kb)
  else if penult = 'm' then (String.mk (cs.take (cs.length - 2)), .mb)
  else if penult = 'g' then (String.mk (cs.take (cs.length - 2)), .gb)
  else if penult = 't' then (String.mk (cs.take (cs.length - 2)), .tb)
  else if penult = 'p' then (String.mk (cs.take (cs.length - 2)), .pb)
  else if penult = 'e' then (String.mk (cs.take (cs.length - 2)), .eb)
  else (String.mk (cs.take (cs.length - 1)), .b)

/-- Translation of `parseDurationNumber`.  The Go code leaves the scale
at its zero value for an unrecognised last character, which the lexer
never produces; that dead branch is mapped to nanoseconds. -/
def parseDurationNumber (v : String) : String × DurationScale :=
  let cs := v.toList
  let penult := cs.getD (cs.length - 2) '0'
  if penult = 'n' then (String.mk (cs.take (cs.length - 2)), .ns)
  else if penult = 'u' then (String.mk (cs.take (cs.length - 2)), .us)
  else if penult = 'm' then (String.mk (cs.take (cs.length - 2)), .ms)
  else
    let last := cs.getD (cs.length - 1) '0'
    let scale : DurationScale :=
      if last = 's' then .s else if last = 'm' then .m
      else if last = 'h' then .h else .ns
    (String.mk (cs.take (cs.length - 1)), scale)

/-- Translation of `ParseValue`. -/
def ParseValue (s : PState) : PRes Value :=
  let tk := s.peek
  match tk.type with
  | .constBytes =>
    let (num, scale) := parseBytesNumber (stripUnderscores tk.value)
    match parseIntGo num with
    | some i => .ok (.byteSize tk.value i scale) s.adv
    | none => .err "failed to parse int value for bytes size"
  | .constDuration =>
    let (num, scale) := parseDurationNumber (stripUnderscores tk.value)
    match parseIntGo num with
    | some i => .ok (.duration tk.value i scale) s.adv
    | none => .err "failed to parse int value for duration size"
  | .constFloat => .ok (.float tk.value) s.adv
  | .constInt =>
    match parseIntGo (stripUnderscores tk.value) with
    | some i => .ok (.int ⟨some tk, i, getIntSize i i, true⟩) s.adv
    | none => .err "failed to parse int value"
  | .constBool => .ok (.bool (some tk) (tk.value = "true") true) s.adv
  | .constNull => .ok .null s.adv
  | .constStringSingleQuote => .ok (.str ⟨tk.type, tk.value⟩) s.adv
  | .constStringDoubleQuote => .ok (.str ⟨tk.type, tk.value⟩) s.adv
  | .constStringBacktickQoute => .ok (.str ⟨tk.type, tk.value⟩) s.adv
  | .identifier => .ok (.var tk.value) s.adv
  | _ => .err "expected value"

/-- Translation of `ParseConst`. -/
def ParseConst (s : PState) : PRes Const :=
  if s.peek.type ≠ .constKw then .err "expected const" else
  let s := s.adv
  if s.peek.type ≠ .identifier then .err "expected identifier after const keyword" else
  let name := s.peek.value
  let s := s.adv
  if s.peek.type ≠ .assign then .err "expected = after identifier" else
  (ParseValue s.adv).andThen fun v s' => .ok ⟨name, v, []⟩ s'

mutual

/-- Translation of `ParseType`. -/
def ParseType : Nat → PState → PRes HType
  | 0, _ => .spin
  | fuel + 1, s =>
    match s.peek.type with
    | .mapKw => ParseMapType fuel s
    | .array => ParseArrayType fuel s
    | .boolKw => .ok .bool s.adv
    | .byteKw => .ok .byte s.adv
    | .int8 => .ok (.int 8) s.adv
    | .int16 => .ok (.int 16) s.adv
    | .int32 => .ok (.int 32) s.adv
    | .int64 => .ok (.int 64) s.adv
    | .uint8 => .ok (.uint 8) s.adv
    | .uint16 => .ok (.uint 16) s.adv
    | .uint32 => .ok (.uint 32) s.adv
    | .uint64 => .ok (.uint 64) s.adv
    | .float32 => .ok (.float 32) s.adv
    | .float64 => .ok (.float 64) s.adv
    | .timestamp => .ok .timestamp s.adv
    | .stringKw => .ok .string s.adv
    | .anyKw => .ok .any s.adv
    | .identifier =>
      if !isPascal s.peek.value then
        .err "custom type name must be in PascalCase format"
      else .ok (.custom s.peek.value) s.adv
    | _ => .err "expected type"

/-- Translation of `ParseMapType`. -/
def ParseMapType : Nat → PState → PRes HType
  | 0, _ => .spin
  | fuel + 1, s =>
    if s.peek.type ≠ .mapKw then .err "expected 'map' keyword" else
    let s := s.adv
    if s.peek.type ≠ .openAngle then .err "expected '<' after 'map' keyword" else
    (ParseMapKeyType fuel s.adv).andThen fun k s1 =>
      if s1.peek.type ≠ .comma then .err "expected ',' after map key type" else
      (ParseType fuel s1.adv).andThen fun v s2 =>
        if s2.peek.type ≠ .closeAngle then .err "expected '>' after map value type" else
        .ok (.map k v) s2.adv

/-- Translation of `ParseMapKeyType`. -/
def ParseMapKeyType : Nat → PState → PRes HType
  | 0, _ => .spin
  | fuel + 1, s =>
    match s.peek.type with
    | .int8 | .int16 | .int32 | .int64 => ParseType fuel s
    | .uint8 | .uint16 | .uint32 | .uint64 => ParseType fuel s
    | .stringKw => ParseType fuel s
    | .byteKw => ParseType fuel s
    | _ => .err "expected map key type to be comparable"

/-- Translation of `ParseArrayType`. -/
def ParseArrayType : Nat → PState → PRes HType
  | 0, _ => .spin
  | fuel + 1, s =>
    if s.peek.type ≠ .array then .err "expected 'array' keyword" else
    (ParseType fuel s.adv).andThen fun t s' => .ok (.array t) s'

end

/-- Translation of the `EnumSet` parsing function of `parser.go` (named
`parseEnumSet` here because `EnumSet` is the node type). -/
def parseEnumSet (s : PState) : PRes EnumSet :=
  if s.peek.type ≠ .identifier then
    .err "expected identifier for defining an enum constant" else
  let nameTok := s.peek
  let s := s.adv
  if nameTok.value ≠ "_" ∧ ¬ isPascal nameTok.value then
    .err "enum's set name must be in Pascal Case format" else
  if s.peek.type ≠ .assign then
    .ok ⟨nameTok.value, some ⟨none, 0, 0, false⟩, false, []⟩ s
  else
  let s := s.adv
  if s.peek.type ≠ .constInt then
    .err "expected constant integer value for defining an enum set value" else
  let valueTok := s.peek
  match parseIntGo (stripUnderscores valueTok.value) with
  | none => .err "invalid integer value for defining an enum constant value"
  | some v => .ok ⟨nameTok.value, some ⟨some valueTok, v, 0, true⟩, true, []⟩ s.adv

/-- Translation of the member loop of `ParseEnum`.  A token that is
neither a member identifier, a comment, nor the closing brace leaves
the loop body without consuming anything — exactly the Go code, whose
loop then spins forever; here the same state recurs on smaller fuel. -/
def parseEnumBody : Nat → PState → List EnumSet → PRes (List EnumSet)
  | 0, _, _ => .spin
  | fuel + 1, s, sets =>
    let pk := s.peek
    if pk.type = .closeCurly then .ok sets s
    else if pk.type = .identifier then
      (parseEnumSet s).andThen fun set s' =>
        let set := { set with comments := set.comments ++ s'.comments }
        parseEnumBody fuel { s' with comments := [] } (sets ++ [set])
    else if pk.type = .comment then
      (ParseComment s).andThen fun c s' =>
        parseEnumBody fuel
          { s' with comments := s'.comments ++ [{ c with position := .bottom }] } sets
    else
      parseEnumBody fuel s sets

/-- Translation of the value-correction loop at the end of `ParseEnum`:
explicit members reset the implicit counter to `value + 1` and are
skipped by the min/max bookkeeping; implicit members receive the
counter and feed min/max.  Counter arithmetic is `int64`. -/
def normalizeSetsLoop : List EnumSet → Int → Int → Int →
    List EnumSet × Int × Int × Int
  | [], next, minV, maxV => ([], next, minV, maxV)
  | set :: rest, next, minV, maxV =>
    if set.defined then
      let next' := wrap64 (((set.value.map (·.value)).getD 0) + 1)
      let (l, a, b, c) := normalizeSetsLoop rest next' minV maxV
      (set :: l, a, b, c)
    else
      let minV' := min minV next
      let maxV' := max maxV next
      let next' := wrap64 (next + 1)
      let (l, a, b, c) := normalizeSetsLoop rest next' minV' maxV'
      ({ set with value := some ⟨none, next, 0, false⟩ } :: l, a, b, c)

/-- Translation of `ParseEnum`. -/
def ParseEnum (fuel : Nat) (s : PState) : PRes Enum :=
  if s.peek.type ≠ .enumKw then .err "expected 'enum' keyword" else
  let s := s.adv
  if s.peek.type ≠ .identifier then .err "expected identifier for defining an enum" else
  let nameTok := s.peek
  let s := s.adv
  if ¬ isPascal nameTok.value then .err "enum name must be in Pascal Case format" else
  if s.peek.type ≠ .openCurly then .err "expected '\x7b' after enum declaration" else
  (parseEnumBody fuel s.adv []).andThen fun sets s' =>
    let s' := s'.adv
    let (sets1, _, minV, maxV) := normalizeSetsLoop sets 0 0 0
    let size := getIntSize minV maxV
    let sets2 := sets1.map fun set =>
      { set with value := set.value.map fun v => { v with size := size } }
    .ok ⟨nameTok.value, size, sets2, s'.comments⟩ { s' with comments := [] }

/-- Translation of `ParseOption`. -/
def ParseOption (s : PState) : PRes HOption :=
  if s.peek.type ≠ .identifier then
    .err "expected identifier for defining a message field option" else
  let nameTok := s.peek
  let s := s.adv
  if s.peek.type ≠ .assign then .ok ⟨nameTok.value, .bool none true false, []⟩ s
  else (ParseValue s.adv).andThen fun v s' => .ok ⟨nameTok.value, v, []⟩ s'

/-- Translation of the option loop of `ParseOptions`. -/
def parseOptionsBody : Nat → PState → List HOption → PRes (List HOption)
  | 0, _, _ => .spin
  | fuel + 1, s, acc =>
    let pk := s.peek
    if pk.type = .closeCurly then .ok acc s
    else if pk.type = .comment then
      (ParseComment s).andThen fun c s' =>
        parseOptionsBody fuel { s' with comments := s'.comments ++ [c] } acc
    else
      (ParseOption s).andThen fun o s' =>
        let o := { o with comments := o.comments ++ s'.comments }
        parseOptionsBody fuel { s' with comments := [] } (acc ++ [o])

/-- Translation of `ParseOptions` (entered with the opening brace as
the next token, which it consumes unconditionally). -/
def ParseOptions (fuel : Nat) (s : PState) : PRes Options :=
  (parseOptionsBody fuel s.adv []).andThen fun list s' =>
    let s' := s'.adv
    if s'.comments.isEmpty then .ok ⟨list, []⟩ s'
    else
      .ok ⟨list, s'.comments.map (fun c => { c with position := .bottom })⟩
        { s' with comments := [] }

/-- Translation of `ParseExtend`. -/
def ParseExtend (s : PState) : PRes Extend :=
  if s.peek.type ≠ .extend then .err "expected '...' keyword" else
  let s := s.adv
  if s.peek.type ≠ .identifier then .err "expected identifier for extending a message" else
  let nameTok := s.peek
  if ¬ isPascal nameTok.value then
    .err "extend message name must be in PascalCase format" else
  .ok ⟨nameTok.value, []⟩ s.adv

/-- Translation of `ParseModelField`. -/
def ParseModelField (fuel : Nat) (s : PState) : PRes Field :=
  if s.peek.type ≠ .identifier then
    .err "expected identifier for defining a message field" else
  let nameTok := s.peek
  let s := s.adv
  if ¬ isPascal nameTok.value then
    .err "message field name must be in PascalCase format" else
  let optRes : PRes Bool :=
    match s.peek.type with
    | .optional =>
      let s := s.adv
      if s.peek.type ≠ .colon then .err "expected ':' after '?'"
      else .ok true s.adv
    | .colon => .ok false s.adv
    | _ => .err "expected ':' or '?' after message field name"
  optRes.andThen fun isOpt s1 =>
  (ParseType fuel s1).andThen fun t s2 =>
    let fieldComments := s2.comments
    let s2 := { s2 with comments := [] }
    if s2.peek.type ≠ .openCurly then
      .ok ⟨nameTok.value, t, isOpt, ⟨[], []⟩, fieldComments⟩ s2
    else
      (ParseOptions fuel s2).andThen fun opts s3 =>
        .ok ⟨nameTok.value, t, isOpt, opts, fieldComments⟩ s3

/-- Translation of the body loop of `ParseModel`. -/
def parseModelBody : Nat → PState → List Extend → List Field →
    PRes (List Extend × List Field)
  | 0, _, _, _ => .spin
  | fuel + 1, s, exts, fields =>
    let pk := s.peek
    if pk.type = .closeCurly then .ok (exts, fields) s
    else if pk.type = .comment then
      (ParseComment s).andThen fun c s' =>
        parseModelBody fuel { s' with comments := s'.comments ++ [c] } exts fields
    else if pk.type = .extend then
      (ParseExtend s).andThen fun e s' =>
        let e := { e with comments := e.comments ++ s'.comments }
        parseModelBody fuel { s' with comments := [] } (exts ++ [e]) fields
    else
      (ParseModelField fuel s).andThen fun f s' =>
        parseModelBody fuel s' exts (fields ++ [f])

/-- Translation of `ParseModel`. -/
def ParseModel (fuel : Nat) (s : PState) : PRes Model :=
  if s.peek.type ≠ .modelKw then .err "expected 'model' keyword" else
  let s := s.adv
  if s.peek.type ≠ .identifier then .err "expected identifier for defining a model" else
  let nameTok := s.peek
  let s := s.adv
  if ¬ isPascal nameTok.value then .err "model name must be in PascalCase format" else
  if s.peek.type ≠ .openCurly then .err "expected '\x7b' after model declaration" else
  let topComments := s.comments
  let s := { s.adv with comments := [] }
  (parseModelBody fuel s [] []).andThen fun (exts, fields) s' =>
    let s' := s'.adv
    let bottomComments := s'.comments.map (fun c => { c with position := .bottom })
    .ok ⟨nameTok.value, exts, fields, topComments ++ bottomComments⟩
      { s' with comments := [] }

/-- Translation of `ParseServiceMethodArgument`. -/
def ParseServiceMethodArgument (fuel : Nat) (s : PState) : PRes Arg :=
  if s.peek.type ≠ .identifier then
    .err "expected identifier for defining a service method argument" else
  let nameTok := s.peek
  let s := s.adv
  if ¬ isCamel nameTok.value then
    .err "service method argument name must be in camelCase format" else
  if s.peek.type ≠ .colon then
    .err "expected ':' after service method argument name" else
  let s := s.adv
  let (isStream, s) := if s.peek.type = .streamKw then (true, s.adv) else (false, s)
  (ParseType fuel s).andThen fun t s' =>
    let s' := if s'.peek.type = .comma then s'.adv else s'
    .ok ⟨nameTok.value, t, isStream⟩ s'

/-- Translation of `ParseServiceMethodReturnArg`. -/
def ParseServiceMethodReturnArg (fuel : Nat) (s : PState) : PRes Ret :=
  if s.peek.type ≠ .identifier then
    .err "expected identifier for defining a service method argument" else
  let nameTok := s.peek
  let s := s.adv
  if ¬ isCamel nameTok.value then
    .err "service method argument name must be in camelCase format" else
  if s.peek.type ≠ .colon then
    .err "expected ':' after service method argument name" else
  let s := s.adv
  let (isStream, s) := if s.peek.type = .streamKw then (true, s.adv) else (false, s)
  (ParseType fuel s).andThen fun t s' =>
    let s' := if s'.peek.type = .comma then s'.adv else s'
    .ok ⟨nameTok.value, t, isStream⟩ s'

/-- Translation of the argument loop of `ParseServiceMethod`. -/
def parseArgsLoop : Nat → PState → List Arg → PRes (List Arg)
  | 0, _, _ => .spin
  | fuel + 1, s, acc =>
    if s.peek.type = .closeParen then .ok acc s
    else
      (ParseServiceMethodArgument fuel s).andThen fun a s' =>
        parseArgsLoop fuel s' (acc ++ [a])

/-- Translation of the return loop of `ParseServiceMethod`. -/
def parseRetsLoop : Nat → PState → List Ret → PRes (List Ret)
  | 0, _, _ => .spin
  | fuel + 1, s, acc =>
    if s.peek.type = .closeParen then .ok acc s
    else
      (ParseServiceMethodReturnArg fuel s).andThen fun r s' =>
        parseRetsLoop fuel s' (acc ++ [r])

/-- Translation of `ParseServiceMethod`. -/
def ParseServiceMethod (fuel : Nat) (s : PState) : PRes Method :=
  if s.peek.type ≠ .identifier then
    .err "expected identifier for defining a service method" else
  let nameTok := s.peek
  let s := s.adv
  if ¬ isPascal nameTok.value then
    .err "service method name must be in PascalCase format" else
  if s.peek.type ≠ .openParen then .err "expected '(' after service method name" else
  (parseArgsLoop fuel s.adv []).andThen fun args s1 =>
    let s1 := s1.adv
    let retsRes : PRes (List Ret) :=
      if s1.peek.type = .ret then
        let s2 := s1.adv
        if s2.peek.type ≠ .openParen then .err "expected '(' after '=>'"
        else
          (parseRetsLoop fuel s2.adv []).andThen fun rets s3 => .ok rets s3.adv
      else .ok [] s1
    retsRes.andThen fun rets s4 =>
      let methodComments := s4.comments
      let s4 := { s4 with comments := [] }
      if s4.peek.type = .openCurly then
        (ParseOptions fuel s4).andThen fun opts s5 =>
          .ok ⟨nameTok.value, args, rets, opts, methodComments⟩ s5
      else
        .ok ⟨nameTok.value, args, rets, ⟨[], []⟩, methodComments⟩ s4

/-- Translation of the method loop of `ParseService`. -/
def parseServiceBody : Nat → PState → List Method → PRes (List Method)
  | 0, _, _ => .spin
  | fuel + 1, s, acc =>
    let pk := s.peek
    if pk.type = .closeCurly then .ok acc s
    else if pk.type = .comment then
      (ParseComment s).andThen fun c s' =>
        parseServiceBody fuel { s' with comments := s'.comments ++ [c] } acc
    else
      (ParseServiceMethod fuel s).andThen fun m s' =>
        parseServiceBody fuel s' (acc ++ [m])

/-- Translation of `ParseService`.  Note that pending comments are
attached before the body is parsed, and comments left at the end of the
body are deliberately left pending (the Go code never attaches them; a
following construct or the document picks them up). -/
def ParseService (fuel : Nat) (s : PState) : PRes Service :=
  if s.peek.type ≠ .serviceKw then .err "expected service keyword" else
  let s := s.adv
  if s.peek.type ≠ .identifier then .err "expected identifier for defining a service" else
  let nameTok := s.peek
  let s := s.adv
  if ¬ isPascal nameTok.value then .err "service name must be in PascalCase format" else
  let styRes : PRes ServiceType :=
    if strStartsWith nameTok.value "Http" then .ok ServiceType.http s
    else if strStartsWith nameTok.value "Rpc" then .ok ServiceType.rpc s
    else .err "service name must start with 'Http' or 'Rpc'"
  styRes.andThen fun sty s =>
    if s.peek.type ≠ .openCurly then .err "expected '\x7b' after service declaration" else
    let svcComments := s.comments
    let s := { s.adv with comments := [] }
    (parseServiceBody fuel s []).andThen fun methods s' =>
      .ok ⟨nameTok.value, sty, methods, svcComments⟩ s'.adv

/-- Translation of `parseCustomErrorCode` (the field accumulator stands
for the in-place mutation of the node). -/
def parseCustomErrorCode (s : PState) (code : Int) : PRes Int :=
  if code ≠ 0 then .err "code is already defined in custom error" else
  let s := s.adv
  if s.peek.type ≠ .assign then .err "expected '=' after 'Code'" else
  let s := s.adv
  if s.peek.type ≠ .constInt then .err "expected integer value for 'Code'" else
  (ParseValue s).andThen fun v s' =>
    match v with
    | .int vi => .ok vi.value s'
    | _ => .err "expected integer value for 'Code'"

/-- Translation of `parseCustomErrorMsg`. -/
def parseCustomErrorMsg (s : PState) (msg : Option StrLit) : PRes StrLit :=
  if msg.isSome then .err "Msg is already defined in custom error" else
  let s := s.adv
  if s.peek.type ≠ .assign then .err "expected '=' after 'Msg'" else
  (ParseValue s.adv).andThen fun v s' =>
    match v with
    | .str sl => .ok sl s'
    | _ => .err "expected string value for 'Msg'"

/-- Translation of the body loop of `ParseCustomError` together with
`parseCustomErrorValues`. -/
def parseCustomErrorBody : Nat → PState → Int → Option StrLit →
    PRes (Int × Option StrLit)
  | 0, _, _, _ => .spin
  | fuel + 1, s, code, msg =>
    let pk := s.peek
    if pk.type = .closeCurly then .ok (code, msg) s
    else if pk.type = .comment then
      (ParseComment s).andThen fun c s' =>
        parseCustomErrorBody fuel { s' with comments := s'.comments ++ [c] } code msg
    else if pk.type ≠ .identifier then
      .err "expected identifier for defining a custom error value"
    else if pk.value = "Code" then
      (parseCustomErrorCode s code).andThen fun code' s' =>
        parseCustomErrorBody fuel s' code' msg
    else if pk.value = "Msg" then
      (parseCustomErrorMsg s msg).andThen fun m s' =>
        parseCustomErrorBody fuel s' code (some m)
    else
      .err "unexpected field name in custom error"

/-- Translation of `ParseCustomError`. -/
def ParseCustomError (fuel : Nat) (s : PState) : PRes CustomError :=
  if s.peek.type ≠ .customError then .err "expected 'error' keyword" else
  let s := s.adv
  if s.peek.type ≠ .identifier then
    .err "expected identifier for defining a custom error" else
  let nameTok := s.peek
  let s := s.adv
  if ¬ isPascal nameTok.value then
    .err "custom error name must be in Pascal Case format" else
  if s.peek.type ≠ .openCurly then .err "expected '\x7b' after custom error declaration" else
  (parseCustomErrorBody fuel s.adv 0 none).andThen fun (code, msg) s' =>
    let s' := s'.adv
    match msg with
    | none => .err "message is not defined in custom error"
    | some m =>
      .ok ⟨nameTok.value, code, some m, s'.comments⟩ { s' with comments := [] }

/-- Translation of the dispatch loop of `ParseDocument`. -/
def parseDocumentBody : Nat → PState → Document → PRes Document
  | 0, _, _ => .spin
  | fuel + 1, s, doc =>
    if s.peek.type = .eof then
      .ok { doc with comments := doc.comments ++ s.comments } { s with comments := [] }
    else
      match s.peek.type with
      | .comment =>
        (ParseComment s).andThen fun c s' =>
          parseDocumentBody fuel { s' with comments := s'.comments ++ [c] } doc
      | .constKw =>
        (ParseConst s).andThen fun c s' =>
          let c := { c with comments := c.comments ++ s'.comments }
          parseDocumentBody fuel { s' with comments := [] }
            { doc with consts := doc.consts ++ [c] }
      | .enumKw =>
        (ParseEnum fuel s).andThen fun e s' =>
          parseDocumentBody fuel s' { doc with enums := doc.enums ++ [e] }
      | .modelKw =>
        (ParseModel fuel s).andThen fun m s' =>
          parseDocumentBody fuel s' { doc with models := doc.models ++ [m] }
      | .serviceKw =>
        (ParseService fuel s).andThen fun sv s' =>
          parseDocumentBody fuel s' { doc with services := doc.services ++ [sv] }
      | .customError =>
        (ParseCustomError fuel s).andThen fun ce s' =>
          parseDocumentBody fuel s' { doc with errors := doc.errors ++ [ce] }
      | _ => .err "unexpected token"

/-- Translation of `ParseDocument`, starting from a fresh parser over a
token stream. -/
def ParseDocument (fuel : Nat) (toks : List Token) : PRes Document :=
  parseDocumentBody fuel ⟨toks, []⟩ ⟨[], [], [], [], [], []⟩

/-! ## Validator

Translation of `Validate` (the whole-document semantic validator).  Its
first step flattens the documents into one bag of constants, enums,
models, services and custom errors and every later step works on those
flattened slices, mutating the shared nodes in place; the bag is
therefore the natural state here, and validation returns the updated
bag.  `findConstValue` is the one function of the validator with
unbounded recursion; it receives a fuel parameter, and `.spin` for
every fuel witnesses the divergence of the Go original. -/

/-- Flattened document bag: the five slices that `Validate` collects
from its arguments before checking anything. -/
structure Bag where
  consts : List Const
  enums : List Enum
  models : List Model
  services : List Service
  errors : List CustomError
  deriving DecidableEq, Repr

/-- Translation of the flattening loops at the top of `Validate`. -/
def mergeDocs (docs : List Document) : Bag :=
  ⟨docs.flatMap (·.consts), docs.flatMap (·.enums), docs.flatMap (·.models),
   docs.flatMap (·.services), docs.flatMap (·.errors)⟩

/-- Result of a validator phase: the updated data, a validation error
(only the message is modelled), or fuel exhaustion standing for a
diverging recursion of the Go code. -/
inductive VRes (α : Type) where
  | ok (a : α)
  | err (msg : String)
  | spin
  deriving DecidableEq, Repr

/-- Sequencing helper for `VRes`. -/
def VRes.andThen {α β : Type} (r : VRes α) (f : α → VRes β) : VRes β :=
  match r with
  | .ok a => f a
  | .err m => .err m
  | .spin => .spin

/-- Effectful map over a list in `VRes`, used to model loops that
mutate each element in place and abort on the first error. -/
def mapVRes {α β : Type} (f : α → VRes β) : List α → VRes (List β)
  | [] => .ok []
  | a :: rest => (f a).andThen fun b => (mapVRes f rest).andThen fun l => .ok (b :: l)

/-- Translation of the casing-check section of `Validate` (first error
in the Go iteration order: consts, enums and their keys, models with
fields and field options, services with methods, args, returns and
method options). -/
def checkCasing (b : Bag) : Option String :=
  (b.consts.findSome? fun c =>
    if ¬ isPascal c.name then some "name should be PascalCase" else none)
  <|> (b.enums.findSome? fun e =>
    (if ¬ isPascal e.name then some "name should be PascalCase" else none)
    <|> (e.sets.findSome? fun k =>
      if k.name = "_" then none
      else if ¬ isPascal k.name then some "name should be PascalCase" else none))
  <|> (b.models.findSome? fun m =>
    (if ¬ isPascal m.name then some "name should be PascalCase" else none)
    <|> (m.fields.findSome? fun f =>
      (if ¬ isPascal f.name then some "name should be PascalCase" else none)
      <|> (f.options.list.findSome? fun o =>
        if ¬ isPascal o.name then some "name should be PascalCase" else none)))
  <|> (b.services.findSome? fun s =>
    (if ¬ isPascal s.name then some "name should be PascalCase" else none)
    <|> (s.methods.findSome? fun m =>
      (if ¬ isPascal m.name then some "name should be PascalCase" else none)
      <|> (m.args.findSome? fun a =>
        if ¬ isCamel a.name then some "name should be camelCase" else none)
      <|> (m.returns.findSome? fun r =>
        if ¬ isCamel r.name then some "name should be camelCase" else none)
      <|> (m.options.list.findSome? fun o =>
        if ¬ isPascal o.name then some "name should be PascalCase" else none)))

/-- Duplicate scan over one name list with an accumulated seen-set,
modelling a Go `map[string]struct\x7b\x7d` duplicate check. -/
def dupScan (msg : String) : List String → List String → Except String (List String)
  | [], seen => .ok seen
  | n :: rest, seen =>
    if seen.contains n then .error msg else dupScan msg rest (n :: seen)

/-- Translation of the per-method argument duplicate loop, including the
reserved-name check; returns the set of argument names for the return
check. -/
def dupArgsScan : List Arg → List String → Except String (List String)
  | [], seen => .ok seen
  | a :: rest, seen =>
    if seen.contains a.name then
      .error "argument name is already used in the same method"
    else if a.name = "err" then .error "err is a reserved name"
    else dupArgsScan rest (a.name :: seen)

/-- Translation of the per-method return duplicate loop, including the
reserved-name check and the disjointness check against arguments. -/
def dupRetsScan (argNames : List String) : List Ret → List String →
    Except String Unit
  | [], _ => .ok ()
  | r :: rest, seen =>
    if seen.contains r.name then
      .error "return name is already used in the same method"
    else if r.name = "err" then .error "err is a reserved name"
    else if argNames.contains r.name then
      .error "return name is already used in the same method as argument"
    else dupRetsScan argNames rest (r.name :: seen)

/-- Translation of the duplicate-names section of `Validate`: one
global seen-set threaded through consts, enums, models and services,
with the nested per-entity uniqueness checks. -/
def checkDuplicates (b : Bag) : Except String Unit := do
  let seen ← dupScan "name is already used" (b.consts.map (·.name)) []
  let seen ← b.enums.foldlM (fun seen e => do
    let seen ← dupScan "name is already used" [e.name] seen
    let _ ← dupScan "key is already used in the same enum"
      ((e.sets.filter (fun k => k.name ≠ "_")).map (·.name)) []
    pure seen) seen
  let seen ← b.models.foldlM (fun seen m => do
    let seen ← dupScan "name is already used" [m.name] seen
    let _ ← m.fields.foldlM (fun fseen f => do
      let fseen ← dupScan "field name is already used in the same model" [f.name] fseen
      let _ ← dupScan "option name is already used in the same field"
        (f.options.list.map (·.name)) []
      pure fseen) ([] : List String)
    pure seen) seen
  let _ ← b.services.foldlM (fun seen s => do
    let seen ← dupScan "name is already used" [s.name] seen
    let _ ← s.methods.foldlM (fun mseen m => do
      let mseen ← dupScan "method name is already used in the same service" [m.name] mseen
      let argNames ← dupArgsScan m.args []
      let _ ← dupRetsScan argNames m.returns []
      let _ ← dupScan "option name is already used in the same method"
        (m.options.list.map (·.name)) []
      pure mseen) ([] : List String)
    pure seen) seen
  pure ()

/-- Translation of `findConstValue`: follow `Variable` values through
the constant map until a non-variable value (or a missing name,
returned as `some none`) is reached.  The Go recursion has no depth
bound; the fuel makes that observable, `none` meaning the recursion has
not finished within the given depth. -/
def findConstValueF : Nat → List Const → String → Option (Option Value)
  | 0, _, _ => none
  | fuel + 1, consts, name =>
    match consts.find? (fun c => c.name = name) with
    | none => some none
    | some c =>
      match c.value with
      | .var n2 => findConstValueF fuel consts n2
      | v => some (some v)

/-- Resolution of one value slot: a `Variable` is substituted by its
transitive constant value, anything else is left alone (the in-place
assignment `c.Value = value` of the Go code). -/
def resolveValue (fuel : Nat) (cm : List Const) (v : Value) : VRes Value :=
  match v with
  | .var name =>
    match findConstValueF fuel cm name with
    | none => .spin
    | some none => .err "unknown constant is not defined"
    | some (some v') => .ok v'
  | v => .ok v

/-- Resolution of a constant. -/
def resolveConst (fuel : Nat) (cm : List Const) (c : Const) : VRes Const :=
  (resolveValue fuel cm c.value).andThen fun v => .ok { c with value := v }

/-- Resolution of an option. -/
def resolveOpt (fuel : Nat) (cm : List Const) (o : HOption) : VRes HOption :=
  (resolveValue fuel cm o.value).andThen fun v => .ok { o with value := v }

/-- Resolution of a model field's options. -/
def resolveField (fuel : Nat) (cm : List Const) (f : Field) : VRes Field :=
  (mapVRes (resolveOpt fuel cm) f.options.list).andThen fun l =>
    .ok { f with options := ⟨l, f.options.comments⟩ }

/-- Resolution of a model. -/
def resolveModel (fuel : Nat) (cm : List Const) (m : Model) : VRes Model :=
  (mapVRes (resolveField fuel cm) m.fields).andThen fun fs =>
    .ok { m with fields := fs }

/-- Resolution of a method's options. -/
def resolveMethod (fuel : Nat) (cm : List Const) (m : Method) : VRes Method :=
  (mapVRes (resolveOpt fuel cm) m.options.list).andThen fun l =>
    .ok { m with options := ⟨l, m.options.comments⟩ }

/-- Resolution of a service. -/
def resolveService (fuel : Nat) (cm : List Const) (s : Service) : VRes Service :=
  (mapVRes (resolveMethod fuel cm) s.methods).andThen fun ms =>
    .ok { s with methods := ms }

/-- Translation of `checkTypeExists` (note that for maps only the value
type is followed, exactly as in the Go code). -/
def checkTypeExists (tm : List String) : HType → Option String
  | .map _ v => checkTypeExists tm v
  | .array t => checkTypeExists tm t
  | .custom n => if tm.contains n then none else some "type is not defined"
  | _ => none

/-- Translation of the custom-type presence section of `Validate`. -/
def checkTypes (tm : List String) (models : List Model)
    (services : List Service) : Option String :=
  (models.findSome? fun m => m.fields.findSome? fun f => checkTypeExists tm f.type)
  <|> (services.findSome? fun s => s.methods.findSome? fun m =>
    (m.args.findSome? fun a => checkTypeExists tm a.type)
    <|> (m.returns.findSome? fun r => checkTypeExists tm r.type))

/-- Lexicographic strict order on character lists by code point,
modelling Go's byte-wise `<` on (ASCII) strings. -/
def charListLt : List Char → List Char → Bool
  | [], [] => false
  | [], _ :: _ => true
  | _ :: _, [] => false
  | a :: as, b :: bs =>
    if a.toNat < b.toNat then true
    else if b.toNat < a.toNat then false
    else charListLt as bs

/-- Strict string order (Go's `<` on strings). -/
def strLtB (a b : String) : Bool :=
  charListLt a.toList b.toList

/-- Non-strict string order derived from the strict one. -/
def strLeB (a b : String) : Bool :=
  ! strLtB b a

/-- Sorted insertion with a boolean comparator (the building block of
the name sort that models `sort.Slice`). -/
def orderedInsertBy {α : Type} (le : α → α → Bool) (a : α) : List α → List α
  | [] => [a]
  | b :: l => if le a b then a :: b :: l else b :: orderedInsertBy le a l

/-- Insertion sort with a boolean comparator, modelling the
`sort.Slice(customErrors, by name)` call (any correct sort is an
admissible refinement of the unspecified sort algorithm). -/
def insertionSortBy {α : Type} (le : α → α → Bool) : List α → List α
  | [] => []
  | a :: l => orderedInsertBy le a (insertionSortBy le l)

/-- First pass of the custom-error section: iterate the name-sorted
errors, rejecting duplicate codes and computing the maximal explicit
code (zero codes are skipped by the reservation). -/
def errCodesScan : List CustomError → List Int → Int → Except String Int
  | [], _, maxCode => .ok maxCode
  | e :: rest, reserved, maxCode =>
    if reserved.contains e.code then .error "code is already used"
    else if e.code ≠ 0 then
      errCodesScan rest (e.code :: reserved) (max maxCode e.code)
    else errCodesScan rest reserved maxCode

/-- Second pass of the custom-error section: walk the name-sorted
errors and assign `maxCode+1, maxCode+2, …` (with `int64` wrap) to the
zero-coded ones; the result maps each error's original position to its
assigned code. -/
def errCodesAssign : List (Nat × CustomError) → Int → List (Nat × Int)
  | [], _ => []
  | (i, e) :: rest, maxCode =>
    if e.code = 0 then
      let newCode := wrap64 (maxCode + 1)
      (i, newCode) :: errCodesAssign rest newCode
    else errCodesAssign rest maxCode

/-- Association lookup for the index-to-code assignment (the Go code
reaches each node through its pointer; here the original position
serves as the identity of a node). -/
def lookupIdx : List (Nat × Int) → Nat → Option Int
  | [], _ => none
  | (k, v) :: rest, i => if i = k then some v else lookupIdx rest i

/-- Translation of the custom-error section of `Validate`: sort the
errors by name (the in-place `sort.Slice`), reject duplicate explicit
codes, then assign increasing codes to zero-coded errors in sorted
order.  The returned list is in the original order, as the Go code
mutates the shared nodes through the sorted slice of pointers. -/
def assignErrorCodes (errs : List CustomError) : Except String (List CustomError) := do
  let indexed := errs.enum
  let sorted := insertionSortBy (fun a b => strLeB a.2.name b.2.name) indexed
  let maxCode ← errCodesScan (sorted.map (·.2)) [] 0
  let assignment := errCodesAssign sorted maxCode
  pure (errs.enum.map (fun (i, e) =>
    match lookupIdx assignment i with
    | some c => { e with code := c }
    | none => e))

/-- Translation of the RPC-stream check of `Validate`. -/
def checkRpcStream (services : List Service) : Option String :=
  services.findSome? fun s =>
    if s.type = .rpc then
      s.methods.findSome? fun m =>
        (m.args.findSome? fun a =>
          if a.stream then some "stream is not allowed in rpc service" else none)
        <|> (m.returns.findSome? fun r =>
          if r.stream then some "stream is not allowed in rpc service" else none)
    else none

/-- Translation of `isTypeArrayBytes`: whether an array type contains a
byte array at any nesting depth (only the presence is modelled; the Go
function returns the offending token for the diagnostic). -/
def isTypeArrayBytes : HType → Bool
  | .array inner =>
    (match inner with
     | .byte => true
     | _ => isTypeArrayBytes inner)
  | _ => false

/-- Translation of the model byte-array check of `Validate`. -/
def checkModelByteArrays (models : List Model) : Option String :=
  models.findSome? fun m => m.fields.findSome? fun f =>
    match f.type with
    | .array _ =>
      if isTypeArrayBytes f.type then
        some "byte array is not allowed in model fields"
      else none
    | _ => none

/-- Translation of the HTTP argument scan: a stream argument must be
last. -/
def argsStreamOk : List Arg → Bool → Option String
  | [], _ => none
  | a :: rest, hasStream =>
    if a.stream then
      if hasStream then some "stream should be the last argument"
      else argsStreamOk rest true
    else if hasStream then some "stream should be the last argument"
    else argsStreamOk rest false

/-- Translation of the HTTP return scan: a stream return must be the
only return. -/
def retsStreamOk : List Ret → Bool → Option String
  | [], _ => none
  | r :: rest, hasStream =>
    if r.stream then
      if hasStream then some "stream should be the only return type"
      else retsStreamOk rest true
    else if hasStream then some "stream should be the only return type"
    else retsStreamOk rest false

/-- Translation of the HTTP stream-placement check of `Validate`. -/
def checkHttpStreams (services : List Service) : Option String :=
  services.findSome? fun s =>
    if s.type ≠ .http then none
    else s.methods.findSome? fun m =>
      argsStreamOk m.args false <|> retsStreamOk m.returns false

/-- Translation of `Validate` on a flattened bag: the check and
mutation phases in their exact order.  The constant map used during
resolution is built from the original constants; the Go code resolves
through the shared (mutated) nodes, which yields the same transitive
values, since resolution only ever replaces a variable chain by its
final value. -/
def ValidateBag (fuel : Nat) (b : Bag) : VRes Bag :=
  match checkCasing b with
  | some e => .err e
  | none =>
  match checkDuplicates b with
  | .error e => .err e
  | .ok _ =>
  let cm := b.consts
  (mapVRes (resolveConst fuel cm) b.consts).andThen fun consts' =>
  (mapVRes (resolveModel fuel cm) b.models).andThen fun models' =>
  (mapVRes (resolveService fuel cm) b.services).andThen fun services' =>
  match checkTypes (models'.map (·.name) ++ b.enums.map (·.name)) models' services' with
  | some e => .err e
  | none =>
  match assignErrorCodes b.errors with
  | .error e => .err e
  | .ok errors' =>
  match checkRpcStream services' with
  | some e => .err e
  | none =>
  match checkModelByteArrays models' with
  | some e => .err e
  | none =>
  match checkHttpStreams services' with
  | some e => .err e
  | none => .ok ⟨consts', b.enums, models', services', errors'⟩

/-- Translation of `Validate` itself: flatten the documents, then run
the bag validation. -/
def Validate (fuel : Nat) (docs : List Document) : VRes Bag :=
  ValidateBag fuel (mergeDocs docs)

/-! ## Generator (record/Go back-end)

Translation of the pieces of `generateGo` and its helpers that the
verified properties are about: the Go type projection, the literal
rendering, the model field tags, the method classification, and the
handler-helper selection. -/

/-- Translation of `getGolangType`. -/
def getGolangType (isModelType : String → Bool) : HType → String
  | .custom name => if isModelType name then "*" ++ name else name
  | .any => "any"
  | .int size => "int" ++ toString size
  | .uint size => "uint" ++ toString size
  | .byte => "byte"
  | .float size => "float" ++ toString size
  | .string => "string"
  | .bool => "bool"
  | .timestamp => "time.Time"
  | .map k v =>
    "map[" ++ getGolangType isModelType k ++ "]" ++ getGolangType isModelType v
  | .array t => "[]" ++ getGolangType isModelType t

/-- Translation of `createIsModelTypeFunc` (membership in the set of
model names). -/
def isModelTypeOf (models : List Model) : String → Bool :=
  fun name => (models.map (·.name)).contains name

/-- Translation of `getGolangValue`: the native rendering of a literal.
Durations and byte sizes materialise as `value × scale` computed in
64-bit two's-complement arithmetic (`v.Value * int64(v.Scale)`). -/
def getGolangValue (v : Value) : String :=
  match v with
  | .str s =>
    if s.qkind = .constStringSingleQuote then
      "\"" ++ String.mk (s.value.toList.flatMap fun c =>
        if c = quoteDouble then ['\\', quoteDouble] else [c]) ++ "\""
    else v.format
  | .int vi => toString vi.value
  | .byteSize _ value scale => toString (wrap64 (value * scale.val))
  | .duration _ value scale => toString (wrap64 (value * scale.val))
  | v => v.format

/-- Method classification, mirroring the local `MethodType` constants
of `generateGo` (`MethodBinaryToJson` is the upload shape of the
specification, and so on). -/
inductive MethodType where
  | jsonToJson
  | jsonToSSE
  | jsonToBinary
  | binaryToJson
  | binaryToSSE
  | binaryToBinary
  deriving DecidableEq, Repr

/-- View-model argument, mirroring the local `GoMethodArg`. -/
structure GoMethodArg where
  name : String
  type : String
  stream : Bool
  deriving DecidableEq, Repr

/-- View-model return, mirroring the local `GoMethodReturn`. -/
structure GoMethodReturn where
  name : String
  type : String
  stream : Bool
  deriving DecidableEq, Repr

/-- View-model method, mirroring the fields of the local `GoMethod`
that the classification and handler selection read. -/
structure GoMethod where
  name : String
  serviceName : String
  args : List GoMethodArg
  returns : List GoMethodReturn
  type : MethodType
  deriving DecidableEq, Repr

/-- Translation of the classification chain of `generateGo`: the Go
type string of the first stream argument and of the first stream
return (empty when absent) are mapped through the six-way `if` chain;
the final fall-through keeps the zero value `MethodJsonToJson`, exactly
as the Go chain without a final `else` does. -/
def classifyMethod (argStreamType retStreamType : String) : MethodType :=
  if argStreamType = "" ∧ retStreamType = "" then .jsonToJson
  else if argStreamType = "" ∧ retStreamType = "[]byte" then .jsonToBinary
  else if argStreamType = "" ∧ retStreamType ≠ "" then .jsonToSSE
  else if argStreamType ≠ "" ∧ retStreamType = "" then .binaryToJson
  else if argStreamType ≠ "" ∧ retStreamType = "[]byte" then .binaryToBinary
  else if argStreamType ≠ "" ∧ retStreamType ≠ "" then .binaryToSSE
  else .jsonToJson

/-- Translation of the per-method view-model construction of
`generateGo`: camelCased argument and return names, projected Go types,
and the computed method classification. -/
def goMethodOf (isModelType : String → Bool) (serviceName : String)
    (m : Method) : GoMethod :=
  let args := m.args.map fun a =>
    GoMethodArg.mk (toCamel a.name) (getGolangType isModelType a.type) a.stream
  let returns := m.returns.map fun r =>
    GoMethodReturn.mk (toCamel r.name) (getGolangType isModelType r.type) r.stream
  let argStreamType := ((args.find? (·.stream)).map (·.type)).getD ""
  let retStreamType := ((returns.find? (·.stream)).map (·.type)).getD ""
  ⟨m.name, serviceName, args, returns, classifyMethod argStreamType retStreamType⟩

/-- Translation of the `GetHandleMethodName` template helper. -/
def GetHandleMethodName (m : GoMethod) : String :=
  match m.type with
  | .jsonToJson => "handleJsonToJson" ++ toString m.returns.length
  | .jsonToSSE => "handleJsonToSSE"
  | .jsonToBinary => "handleJsonToBinary"
  | .binaryToJson => "handleBinaryToJson" ++ toString m.returns.length
  | .binaryToSSE => "handleBinaryToSSE"
  | .binaryToBinary => "handleBinaryToBinary"

/-- Lookup in the lowercased option map built by
`getGolangModelFieldTag`: the Go map is filled in list order with
lowercased names as keys, so the last option whose lowercased name
matches wins. -/
def lookupOptionCI (opts : List HOption) (key : String) : Option Value :=
  ((opts.filter (fun o => toLowerAscii o.name = key)).getLast?).map (·.value)

/-- Translation of `getGolangModelFieldTag`. -/
def getGolangModelFieldTag (f : Field) : String :=
  let tag0 := toCamel f.name
  let tag1 :=
    match lookupOptionCI f.options.list "json" with
    | some (.str s) => s.value
    | some (.bool _ b _) => if ¬ b then "-" else tag0
    | _ => tag0
  let joe := lookupOptionCI f.options.list "jsonomitempty"
  let tag2 :=
    if joe.isSome ∧ tag1 ≠ "-" then
      match joe with
      | some (.bool _ b _) => if b then tag1 ++ ",omitempty" else tag1
      | _ => tag1
    else tag1
  let tag3 :=
    if f.isOptional then
      (if joe.isSome then tag2 else tag2 ++ ",omitempty") ++ ",omitzero"
    else tag2
  "json:\"" ++ tag3 ++ "\""

/-! ## Pipelines and spec-side restatements used by the theorems -/

/-- Full format-of-parse pipeline (what the `fmt` command applies to a
source file): lex, parse, pretty-print.  The fuel is ample for every
concrete input considered below, and parse failure or divergence yields
`none`. -/
def formatOfParse (s : String) : Option String :=
  match ParseDocument 1000 (lex s) with
  | .ok d _ => some d.format
  | _ => none

/-- Specification-side shape table of claim C6: the six-way mapping
from (has a stream argument, has a stream return, the stream return is
a byte array) to the method shape. -/
def shapeOfSpec (hasStreamArg hasStreamRet retIsBytes : Bool) : MethodType :=
  match hasStreamArg, hasStreamRet, retIsBytes with
  | false, false, _ => .jsonToJson
  | false, true, true => .jsonToBinary
  | false, true, false => .jsonToSSE
  | true, false, _ => .binaryToJson
  | true, true, true => .binaryToBinary
  | true, true, false => .binaryToSSE

/-- Whether a method's (first) stream return is a byte array — the
semantic reading of "stream return is a byte array" in claim C6. -/
def retStreamIsBytes (m : Method) : Bool :=
  match m.returns.find? (·.stream) with
  | some r => r.type = .array .byte
  | none => false

/-- Specification-side restatement of the amended field-tag rule of
claim C7: the key (camelCase default, overridden by the last
case-insensitive `Json` option: a string replaces it, `false` makes it
the sentinel `-`), then one optional `,omitempty` (driven by a
`JsonOmitEmpty = true` option when one is present — except on a dropped
field — and otherwise by the `?` optional marker), then `,omitzero`
exactly for optional fields. -/
def goFieldTagSpec (f : Field) : String :=
  let jsonOpt := lookupOptionCI f.options.list "json"
  let key :=
    match jsonOpt with
    | some (.str s) => s.value
    | some (.bool _ b _) => if b then toCamel f.name else "-"
    | _ => toCamel f.name
  let joe := lookupOptionCI f.options.list "jsonomitempty"
  let joeTrue : Bool :=
    match joe with
    | some (.bool _ b _) => b
    | _ => false
  let omitEmpty : Bool :=
    if joe.isSome then joeTrue && key ≠ "-" else f.isOptional
  "json:\"" ++ key ++ (if omitEmpty then ",omitempty" else "")
    ++ (if f.isOptional then ",omitzero" else "") ++ "\""

/-- Document whose two constants reference each other — the classic
constant cycle `const A = B`, `const B = A`. -/
def cyclicDoc : Document :=
  ⟨[], [⟨"A", .var "B", []⟩, ⟨"B", .var "A", []⟩], [], [], [], []⟩

/-- Custom-type names inside a type are PascalCase — a parser guarantee
(`ParseType` rejects non-Pascal custom names), used as the hypothesis
separating the Go type strings of distinct types. -/
def typeNamesPascal : HType → Bool
  | .custom n => isPascal n
  | .array t => typeNamesPascal t
  | .map k v => typeNamesPascal k && typeNamesPascal v
  | _ => true

/-- Shape of an enum member as produced by `parseEnumSet`: an explicit
member carries its value token and the `defined` marks, an implicit
member carries the placeholder zero value with no token. -/
def rawSetInv (set : EnumSet) : Prop :=
  (set.defined = true → ∃ t v0, set.value = some ⟨some t, v0, 0, true⟩) ∧
  (set.defined = false → set.value = some ⟨none, 0, 0, false⟩)

/-- Invariant after normalization: every member holds a value whose
token presence equals the explicit marker. -/
def normSetInv (set : EnumSet) : Prop :=
  ∃ v, set.value = some v ∧ v.tok.isSome = set.defined

/-- Spec-side characterisation of the maximal explicitly declared
error code of a list of custom errors (`0` when there is none),
independent of the sort order used by the code. -/
def maxExplicitCode (errs : List CustomError) : Int :=
  errs.foldl (fun m e => if e.code = 0 then m else max m e.code) 0

/-- Index-aware map used to describe the assignment pass in closed form. -/
def mapIdxI {α β : Type} (f : Nat → α → β) : List α → List β
  | [] => []
  | a :: l => f 0 a :: mapIdxI (fun k => f (k + 1)) l

/-- Whether a value is still an unresolved constant reference. -/
def isVarValue : Value → Bool
  | .var _ => true
  | _ => false

/-! ## Theorems for the claims -/

/-- C1.  Format idempotence fails on the code: for the document
`model M { # c ...B F: int8 }` (a comment line directly above an
extend), `Extend.Format` prints the comment and the `...B` on one line
with no separating newline, so the re-parse folds the extend into the
comment text; the third format then drops the blank line the vanished
extend had produced, and
`format(parse(format(parse(D)))) ≠ format(parse(D))`. -/
theorem format_parse_not_idempotent :
    formatOfParse "model M \x7b\n# c\n...B\nF: int8\n\x7d"
        = some "model M \x7b\n\n    # c    ...B\n    F: int8\n\x7d"
      ∧ formatOfParse "model M \x7b\n\n    # c    ...B\n    F: int8\n\x7d"
        = some "model M \x7b\n    # c    ...B\n    F: int8\n\x7d"
      ∧ ("model M \x7b\n    # c    ...B\n    F: int8\n\x7d" : String)
        ≠ "model M \x7b\n\n    # c    ...B\n    F: int8\n\x7d" := by
  refine ⟨by decide, by decide, by decide⟩

/-- C3.  Constant resolution does not terminate on a reference cycle:
`findConstValue` has no depth bound, so for `const A = B`,
`const B = A` the validation never completes, whatever recursion depth
(fuel) it is granted. -/
theorem validate_spins_on_const_cycle :
    ∀ fuel, Validate fuel [cyclicDoc] = .spin := by
  have key : ∀ f,
      findConstValueF f [(⟨"A", .var "B", []⟩ : Const), ⟨"B", .var "A", []⟩] "A"
          = none ∧
      findConstValueF f [(⟨"A", .var "B", []⟩ : Const), ⟨"B", .var "A", []⟩] "B"
          = none := by
    intro f
    induction f with
    | zero => exact ⟨rfl, rfl⟩
    | succ n ih => exact ⟨ih.2, ih.1⟩
  intro fuel
  have hmerge : mergeDocs [cyclicDoc] =
      ⟨[⟨"A", .var "B", []⟩, ⟨"B", .var "A", []⟩], [], [], [], []⟩ := rfl
  have hres :
      mapVRes (resolveConst fuel [(⟨"A", .var "B", []⟩ : Const), ⟨"B", .var "A", []⟩])
        [(⟨"A", .var "B", []⟩ : Const), ⟨"B", .var "A", []⟩] = .spin := by
    simp only [mapVRes, resolveConst, resolveValue, VRes.andThen, (key fuel).2]
  show ValidateBag fuel (mergeDocs [cyclicDoc]) = .spin
  rw [hmerge]
  simp only [ValidateBag, hres, VRes.andThen,
    show checkCasing ⟨[⟨"A", .var "B", []⟩, ⟨"B", .var "A", []⟩], [], [], [], []⟩
        = none from rfl,
    show checkDuplicates ⟨[⟨"A", .var "B", []⟩, ⟨"B", .var "A", []⟩], [], [], [], []⟩
        = .ok () from rfl]

/-- C4.  The enum bit width ignores explicit member values: parsing
`enum E { A = 1000 }` yields size 8 (the min/max bookkeeping of
`ParseEnum` skips explicit members), although the smallest signed width
fitting the resulting value 1000 is 16. -/
theorem enum_size_ignores_explicit_values :
    ParseEnum 100 ⟨lex "enum E \x7b A = 1000 \x7d", []⟩
        = .ok ⟨"E", 8,
            [⟨"A", some ⟨some ⟨.constInt, "1000"⟩, 1000, 8, true⟩, true, []⟩], []⟩
          ⟨[⟨.eof, ""⟩], []⟩
      ∧ getIntSize 1000 1000 = 16 := by
  exact ⟨by decide, by decide⟩

/-- C5.  The parser can diverge: the member loop of `ParseEnum` has no
branch for a token that is neither a member identifier, a comment, nor
the closing brace, and never consumes it — on `enum E { const` the loop
spins forever, for every recursion budget. -/
theorem parse_enum_spins_on_unexpected_token :
    ∀ fuel, ParseEnum fuel ⟨lex "enum E \x7b const", []⟩ = .spin := by
  have toks : lex "enum E \x7b const" =
      [⟨.enumKw, "enum"⟩, ⟨.identifier, "E"⟩, ⟨.openCurly, "\x7b"⟩,
       ⟨.constKw, "const"⟩, ⟨.eof, ""⟩] := by decide
  have body : ∀ f sets,
      parseEnumBody f ⟨[⟨.constKw, "const"⟩, ⟨.eof, ""⟩], []⟩ sets = .spin := by
    intro f
    induction f with
    | zero => intro sets; rfl
    | succ n ih =>
      intro sets
      simpa [parseEnumBody, PState.peek] using ih sets
  intro fuel
  rw [toks]
  simp [ParseEnum, PState.peek, PState.adv, isPascal, body fuel, PRes.andThen]

/-- C9 counterexample.  The duration expansion is 64-bit wrap-around,
not the exact product: the parseable constant
`9223372036854775807h` renders as `-3600000000000`, not as the exact
product in nanoseconds. -/
theorem duration_render_wraps_counterexample :
    ParseValue ⟨[⟨.constDuration, "9223372036854775807h"⟩], []⟩
        = .ok (.duration "9223372036854775807h" 9223372036854775807 .h) ⟨[], []⟩
      ∧ getGolangValue (.duration "9223372036854775807h" 9223372036854775807 .h)
        = "-3600000000000"
      ∧ toString ((9223372036854775807 : Int) * DurationScale.h.val)
        = "33204139332677192905200000000000"
      ∧ ("-3600000000000" : String) ≠ "33204139332677192905200000000000" := by
  exact ⟨by decide, by decide, by decide, by decide⟩

/-- Reduction of `wrap64` to the identity inside the `int64` range. -/
theorem wrap64_eq_self {z : Int} (h1 : -(2 ^ 63) ≤ z) (h2 : z < 2 ^ 63) :
    wrap64 z = z := by
  unfold wrap64
  have h3 : (0 : Int) ≤ z + 2 ^ 63 := by omega
  have h4 : z + 2 ^ 63 < 2 ^ 64 := by omega
  rw [Int.emod_eq_of_lt h3 h4]
  omega

/-- C9 (amended).  The record back-end renders a duration or byte-size
constant as `value × scale` computed in 64-bit two's-complement
arithmetic; whenever that product does not overflow `int64` it is the
exact product in the smallest unit, and in particular `1h` renders as
3600000000000 nanoseconds, `1mb` as 1048576 bytes and `10gb` as
10737418240 bytes. -/
theorem golang_duration_bytesize_render :
    (∀ (raw : String) (v : Int) (sc : DurationScale), 0 ≤ v →
        v * sc.val < 2 ^ 63 →
        getGolangValue (.duration raw v sc) = toString (v * sc.val))
    ∧ (∀ (raw : String) (v : Int) (sc : ByteSizeScale), 0 ≤ v →
        v * sc.val < 2 ^ 63 →
        getGolangValue (.byteSize raw v sc) = toString (v * sc.val))
    ∧ getGolangValue (.duration "1h" 1 .h) = "3600000000000"
    ∧ getGolangValue (.byteSize "1mb" 1 .mb) = "1048576"
    ∧ getGolangValue (.byteSize "10gb" 10 .gb) = "10737418240" := by
  refine ⟨?_, ?_, by decide, by decide, by decide⟩
  · intro raw v sc h0 hlt
    have hscale : (0 : Int) ≤ sc.val := by cases sc <;> decide
    have hnn : (0 : Int) ≤ v * sc.val := mul_nonneg h0 hscale
    show toString (wrap64 (v * sc.val)) = toString (v * sc.val)
    rw [wrap64_eq_self (by omega) hlt]
  · intro raw v sc h0 hlt
    have hscale : (0 : Int) ≤ sc.val := by cases sc <;> decide
    have hnn : (0 : Int) ≤ v * sc.val := mul_nonneg h0 hscale
    show toString (wrap64 (v * sc.val)) = toString (v * sc.val)
    rw [wrap64_eq_self (by omega) hlt]

/-- Witness for the amended C9 theorem at a concrete input. -/
theorem golang_duration_bytesize_render_witness :
    (0 : Int) ≤ 2 ∧ (2 : Int) * DurationScale.h.val < 2 ^ 63 ∧
    getGolangValue (.duration "2h" 2 .h) = toString ((2 : Int) * DurationScale.h.val) := by
  exact ⟨by decide, by decide,
    golang_duration_bytesize_render.1 "2h" 2 .h (by decide) (by decide)⟩

/-- C7 counterexample.  For a field that is both optional and dropped
via `Json = false`, the emitted tag is `-,omitempty,omitzero`, not the
bare sentinel `-` the claim requires. -/
theorem field_tag_json_false_optional_counterexample :
    getGolangModelFieldTag
        ⟨"F", .string, true,
         ⟨[⟨"Json", .bool (some ⟨.constBool, "false"⟩) false true, []⟩], []⟩, []⟩
      = "json:\"-,omitempty,omitzero\""
    ∧ ("json:\"-,omitempty,omitzero\"" : String) ≠ "json:\"-\"" := by
  exact ⟨by decide, by decide⟩

set_option maxHeartbeats 1000000 in
/-- C7 (amended).  The emitted tag is exactly the key (camelCase
default; the last case-insensitively matching `Json` option replaces it
by its string value, or by the sentinel `-` when it is `false`),
followed by `,omitempty` when a `JsonOmitEmpty` option is present and
true and the field is not dropped — or, when no `JsonOmitEmpty` option
is present at all, when the field is optional — and by `,omitzero`
exactly for optional fields. -/
theorem field_tag_matches_spec : ∀ f : Field,
    getGolangModelFieldTag f = goFieldTagSpec f := by
  intro f
  rcases hj : lookupOptionCI f.options.list "json" with _ | v <;>
    rcases hjoe : lookupOptionCI f.options.list "jsonomitempty" with _ | w <;>
    cases hopt : f.isOptional
  all_goals try cases v
  all_goals try cases w
  all_goals simp [getGolangModelFieldTag, goFieldTagSpec, hj, hjoe, hopt,
    String.append_assoc]
  all_goals split_ifs <;> simp_all [String.append_assoc]
  all_goals rfl

/-- C2 counterexample.  The auto-assignment increments in `int64`
arithmetic, which wraps: with the parseable explicit code
9223372036854775807 (`int64` max) on error `A` and a zero code on
error `B`, validation succeeds and assigns `B` the code
-9223372036854775808, which is not strictly greater than the explicit
code. -/
theorem error_code_overflow_counterexample :
    ValidateBag 1
        ⟨[], [], [], [],
          [⟨"A", 9223372036854775807, some ⟨.constStringDoubleQuote, "a"⟩, []⟩,
           ⟨"B", 0, some ⟨.constStringDoubleQuote, "b"⟩, []⟩]⟩
      = .ok ⟨[], [], [], [],
          [⟨"A", 9223372036854775807, some ⟨.constStringDoubleQuote, "a"⟩, []⟩,
           ⟨"B", -9223372036854775808, some ⟨.constStringDoubleQuote, "b"⟩, []⟩]⟩
    ∧ ¬ ((-9223372036854775808 : Int) > 9223372036854775807) := by
  exact ⟨by decide, by decide⟩

/-! ## Method classification (claim C6) -/

/-- Strings with distinct first characters are distinct. -/
theorem ne_of_head {x y : String} {c d : Char} {cs ds : List Char}
    (hx : x.data = c :: cs) (hy : y.data = d :: ds) (hcd : c ≠ d) : x ≠ y := by
  intro h
  rw [h, hy] at hx
  injection hx with h1 _
  exact hcd h1.symm

/-- A string whose data starts with a character is nonempty. -/
theorem ne_empty_of_head {x : String} {c : Char} {cs : List Char}
    (hx : x.data = c :: cs) : x ≠ "" := by
  intro h
  rw [h] at hx
  exact List.noConfusion hx

/-- Head of an appended string with known head of the left part. -/
theorem data_append_head (pre s : String) {c : Char} {cs : List Char}
    (h : pre.data = c :: cs) : (pre ++ s).data = c :: (cs ++ s.data) := by
  show pre.data ++ s.data = _
  rw [h]
  rfl

/-- A PascalCase name starts with an uppercase character. -/
theorem isPascal_head {n : String} (h : isPascal n = true) :
    ∃ c cs, n.data = c :: cs ∧ c.isUpper = true := by
  unfold isPascal at h
  rcases hn : n.toList with _ | ⟨c, cs⟩
  · rw [hn] at h; exact absurd h (by decide)
  · rw [hn] at h
    simp only [Bool.and_eq_true] at h
    exact ⟨c, cs, hn, h.1⟩

/-- An uppercase character is distinct from any non-uppercase one. -/
theorem upper_ne {c : Char} (h : c.isUpper = true) (d : Char)
    (hd : d.isUpper = false) : c ≠ d := by
  intro he
  rw [he, hd] at h
  exact Bool.noConfusion h

/-- The Go type string of a custom type (with a PascalCase name) starts
with the name's uppercase head or with `*`. -/
theorem golangType_custom_head (im : String → Bool) {n : String}
    (h : isPascal n = true) :
    ∃ c cs, (getGolangType im (.custom n)).data = c :: cs ∧
      (c.isUpper = true ∨ c = '*') := by
  obtain ⟨c, cs, hn, hup⟩ := isPascal_head h
  by_cases him : im n = true
  · refine ⟨'*', n.data, ?_, Or.inr rfl⟩
    have hg : getGolangType im (.custom n) = "*" ++ n := by
      simp [getGolangType, him]
    rw [hg]
    simp [data_append_head "*" n rfl]
  · refine ⟨c, cs, ?_, Or.inl hup⟩
    have hg : getGolangType im (.custom n) = n := by
      simp [getGolangType, him]
    rw [hg]
    exact hn

/-- Characterisation of the Go type string `"byte"`: among types with
PascalCase custom names, only `byte` itself renders as `"byte"`. -/
theorem golangType_eq_byte_iff (im : String → Bool) (t : HType)
    (h : typeNamesPascal t = true) :
    (getGolangType im t = "byte" ↔ t = .byte) := by
  constructor
  · intro he
    cases t with
    | custom n =>
      obtain ⟨c, cs, hd, hcase⟩ := golangType_custom_head im (by simpa [typeNamesPascal] using h)
      exact absurd he (ne_of_head hd rfl (by
        rcases hcase with hup | hstar
        · exact upper_ne hup 'b' (by decide)
        · rw [hstar]; decide))
    | byte => rfl
    | uint size => exact absurd he (ne_of_head (data_append_head "uint" _ rfl) rfl (by decide))
    | int size => exact absurd he (ne_of_head (data_append_head "int" _ rfl) rfl (by decide))
    | float size => exact absurd he (ne_of_head (data_append_head "float" _ rfl) rfl (by decide))
    | string => exact absurd he (show ("string" : String) ≠ "byte" by decide)
    | bool => exact absurd he (show ("bool" : String) ≠ "byte" by decide)
    | any => exact absurd he (show ("any" : String) ≠ "byte" by decide)
    | timestamp => exact absurd he (show ("time.Time" : String) ≠ "byte" by decide)
    | map k v => exact absurd he (ne_of_head (data_append_head "map[" _ rfl) rfl (by decide))
    | array t' => exact absurd he (ne_of_head (data_append_head "[]" _ rfl) rfl (by decide))
  · intro ht
    rw [ht]
    rfl

/-- Characterisation of the Go type string `"[]byte"`: among types with
PascalCase custom names, only `[]byte` itself renders as `"[]byte"`. -/
theorem golangType_eq_bytes_iff (im : String → Bool) (t : HType)
    (h : typeNamesPascal t = true) :
    (getGolangType im t = "[]byte" ↔ t = .array .byte) := by
  constructor
  · intro he
    cases t with
    | custom n =>
      obtain ⟨c, cs, hd, hcase⟩ := golangType_custom_head im (by simpa [typeNamesPascal] using h)
      exact absurd he (ne_of_head hd rfl (by
        rcases hcase with hup | hstar
        · exact upper_ne hup '[' (by decide)
        · rw [hstar]; decide))
    | byte => exact absurd he (show ("byte" : String) ≠ "[]byte" by decide)
    | uint size => exact absurd he (ne_of_head (data_append_head "uint" _ rfl) rfl (by decide))
    | int size => exact absurd he (ne_of_head (data_append_head "int" _ rfl) rfl (by decide))
    | float size => exact absurd he (ne_of_head (data_append_head "float" _ rfl) rfl (by decide))
    | string => exact absurd he (show ("string" : String) ≠ "[]byte" by decide)
    | bool => exact absurd he (show ("bool" : String) ≠ "[]byte" by decide)
    | any => exact absurd he (show ("any" : String) ≠ "[]byte" by decide)
    | timestamp => exact absurd he (show ("time.Time" : String) ≠ "[]byte" by decide)
    | map k v => exact absurd he (ne_of_head (data_append_head "map[" _ rfl) rfl (by decide))
    | array t' =>
      have h2 : ("[]" ++ getGolangType im t').data = "[]byte".data :=
        congrArg String.data he
      rw [data_append_head "[]" _ rfl] at h2
      injection h2 with _ h2
      injection h2 with _ h2
      have h4 : getGolangType im t' = "byte" := String.ext (by simpa using h2)
      rw [(golangType_eq_byte_iff im t' (by simpa [typeNamesPascal] using h)).mp h4]
  · intro ht
    rw [ht]
    rfl

/-- The Go type string of a type with PascalCase custom names is never
empty. -/
theorem golangType_ne_empty (im : String → Bool) (t : HType)
    (h : typeNamesPascal t = true) : getGolangType im t ≠ "" := by
  cases t with
  | custom n =>
    obtain ⟨c, cs, hd, _⟩ := golangType_custom_head im (by simpa [typeNamesPascal] using h)
    exact ne_empty_of_head hd
  | byte => exact (show ("byte" : String) ≠ "" by decide)
  | uint size => exact ne_empty_of_head (data_append_head "uint" _ rfl)
  | int size => exact ne_empty_of_head (data_append_head "int" _ rfl)
  | float size => exact ne_empty_of_head (data_append_head "float" _ rfl)
  | string => exact (show ("string" : String) ≠ "" by decide)
  | bool => exact (show ("bool" : String) ≠ "" by decide)
  | any => exact (show ("any" : String) ≠ "" by decide)
  | timestamp => exact (show ("time.Time" : String) ≠ "" by decide)
  | map k v => exact ne_empty_of_head (data_append_head "map[" _ rfl)
  | array t' => exact ne_empty_of_head (data_append_head "[]" _ rfl)

/-- Auxiliary: `find?` over a mapped list, for a predicate that factors
through the mapping. -/
theorem find?_map_factor {α β : Type} (f : α → β) (p : β → Bool) (q : α → Bool)
    (hpq : ∀ a, p (f a) = q a) (l : List α) :
    (l.map f).find? p = (l.find? q).map f := by
  induction l with
  | nil => rfl
  | cons a l ih =>
    simp only [List.map_cons, List.find?]
    rw [hpq a]
    cases q a
    · simpa using ih
    · rfl

/-- C6.  Method classification: the generator maps the triple (has a
stream argument, has a stream return, the stream return is a byte
array) to exactly the six-shape table of the specification — under the
parser-guaranteed hypothesis that custom type names are PascalCase.  In
particular `M() => (r: stream any)` in an Http service is classified
JSON→SSE and selects the `handleJsonToSSE` helper. -/
theorem method_classification_table :
    (∀ (isModelType : String → Bool) (svc : String) (m : Method),
      (∀ a ∈ m.args, typeNamesPascal a.type = true) →
      (∀ r ∈ m.returns, typeNamesPascal r.type = true) →
      (goMethodOf isModelType svc m).type
        = shapeOfSpec (m.args.any (·.stream)) (m.returns.any (·.stream))
            (retStreamIsBytes m))
    ∧ (goMethodOf (fun _ => false) "HttpS"
        ⟨"M", [], [⟨"r", .any, true⟩], ⟨[], []⟩, []⟩).type = .jsonToSSE
    ∧ GetHandleMethodName
        (goMethodOf (fun _ => false) "HttpS"
          ⟨"M", [], [⟨"r", .any, true⟩], ⟨[], []⟩, []⟩) = "handleJsonToSSE" := by
  refine ⟨?_, by decide, by decide⟩
  intro im svc m hargs hrets
  have hfa' := find?_map_factor
    (fun a => GoMethodArg.mk (toCamel a.name) (getGolangType im a.type) a.stream)
    (fun x => x.stream) (fun a => a.stream) (fun _ => rfl) m.args
  have hfr' := find?_map_factor
    (fun r => GoMethodReturn.mk (toCamel r.name) (getGolangType im r.type) r.stream)
    (fun x => x.stream) (fun r => r.stream) (fun _ => rfl) m.returns
  show classifyMethod _ _ = _
  rw [hfa', hfr']
  rcases hfa : m.args.find? (fun a => a.stream) with _ | a <;>
    rcases hfr : m.returns.find? (fun r => r.stream) with _ | r
  · have hA : m.args.any (·.stream) = false := by
      simp only [List.any_eq_false]
      intro a ha
      simpa using List.find?_eq_none.mp hfa a ha
    have hR : m.returns.any (·.stream) = false := by
      simp only [List.any_eq_false]
      intro r hr
      simpa using List.find?_eq_none.mp hfr r hr
    simp [retStreamIsBytes, hfa, hfr, hA, hR, classifyMethod, shapeOfSpec]
  · have hA : m.args.any (·.stream) = false := by
      simp only [List.any_eq_false]
      intro a ha
      simpa using List.find?_eq_none.mp hfa a ha
    have hR : m.returns.any (·.stream) = true :=
      List.any_eq_true.mpr ⟨r, List.mem_of_find?_eq_some hfr, List.find?_some hfr⟩
    have hrP : typeNamesPascal r.type = true :=
      hrets r (List.mem_of_find?_eq_some hfr)
    by_cases hb : getGolangType im r.type = "[]byte"
    · have hbt : r.type = .array .byte := (golangType_eq_bytes_iff im r.type hrP).mp hb
      have hgb : getGolangType im (.array .byte) = "[]byte" := rfl
      simp [retStreamIsBytes, hfa, hfr, hA, hR, hb, hbt, hgb, classifyMethod, shapeOfSpec]
    · have hbt : r.type ≠ .array .byte := fun h =>
        hb ((golangType_eq_bytes_iff im r.type hrP).mpr h)
      have hne : getGolangType im r.type ≠ "" := golangType_ne_empty im r.type hrP
      simp [retStreamIsBytes, hfa, hfr, hA, hR, hb, hbt, hne, classifyMethod, shapeOfSpec]
  · have hA : m.args.any (·.stream) = true :=
      List.any_eq_true.mpr ⟨a, List.mem_of_find?_eq_some hfa, List.find?_some hfa⟩
    have hR : m.returns.any (·.stream) = false := by
      simp only [List.any_eq_false]
      intro r hr
      simpa using List.find?_eq_none.mp hfr r hr
    have haP : typeNamesPascal a.type = true :=
      hargs a (List.mem_of_find?_eq_some hfa)
    have hne : getGolangType im a.type ≠ "" := golangType_ne_empty im a.type haP
    simp [retStreamIsBytes, hfa, hfr, hA, hR, hne, classifyMethod, shapeOfSpec]
  · have hA : m.args.any (·.stream) = true :=
      List.any_eq_true.mpr ⟨a, List.mem_of_find?_eq_some hfa, List.find?_some hfa⟩
    have hR : m.returns.any (·.stream) = true :=
      List.any_eq_true.mpr ⟨r, List.mem_of_find?_eq_some hfr, List.find?_some hfr⟩
    have haP : typeNamesPascal a.type = true :=
      hargs a (List.mem_of_find?_eq_some hfa)
    have hrP : typeNamesPascal r.type = true :=
      hrets r (List.mem_of_find?_eq_some hfr)
    have hneA : getGolangType im a.type ≠ "" := golangType_ne_empty im a.type haP
    by_cases hb : getGolangType im r.type = "[]byte"
    · have hbt : r.type = .array .byte := (golangType_eq_bytes_iff im r.type hrP).mp hb
      have hgb : getGolangType im (.array .byte) = "[]byte" := rfl
      simp [retStreamIsBytes, hfa, hfr, hA, hR, hb, hbt, hgb, hneA, classifyMethod, shapeOfSpec]
    · have hbt : r.type ≠ .array .byte := fun h =>
        hb ((golangType_eq_bytes_iff im r.type hrP).mpr h)
      have hne : getGolangType im r.type ≠ "" := golangType_ne_empty im r.type hrP
      simp [retStreamIsBytes, hfa, hfr, hA, hR, hb, hbt, hne, hneA, classifyMethod, shapeOfSpec]

/-- Witness for the classification theorem at the SSE example method. -/
theorem method_classification_table_witness :
    (goMethodOf (fun _ => false) "HttpS"
        ⟨"M", [], [⟨"r", .any, true⟩], ⟨[], []⟩, []⟩).type
      = shapeOfSpec
          ((⟨"M", [], [⟨"r", .any, true⟩], ⟨[], []⟩, []⟩ : Method).args.any (·.stream))
          ((⟨"M", [], [⟨"r", .any, true⟩], ⟨[], []⟩, []⟩ : Method).returns.any (·.stream))
          (retStreamIsBytes ⟨"M", [], [⟨"r", .any, true⟩], ⟨[], []⟩, []⟩) :=
  method_classification_table.1 (fun _ => false) "HttpS"
    ⟨"M", [], [⟨"r", .any, true⟩], ⟨[], []⟩, []⟩ (by decide) (by decide)

theorem parseEnumSet_inv {s : PState} {set : EnumSet} {s' : PState}
    (h : parseEnumSet s = .ok set s') : rawSetInv set := by
  unfold parseEnumSet at h
  dsimp only at h
  split at h
  · exact absurd h (by simp)
  · split at h
    · exact absurd h (by simp)
    · split at h
      · injection h with h1 h2
        subst h1
        exact ⟨fun hc => by simp at hc, fun _ => rfl⟩
      · split at h
        · exact absurd h (by simp)
        · split at h
          · exact absurd h (by simp)
          · injection h with h1 h2
            subst h1
            exact ⟨fun _ => ⟨_, _, rfl⟩, fun hc => by simp at hc⟩

theorem parseEnumBody_inv :
    ∀ (fuel : Nat) (st : PState) (acc : List EnumSet) (sets : List EnumSet)
      (st' : PState),
      parseEnumBody fuel st acc = .ok sets st' →
      (∀ set ∈ acc, rawSetInv set) → ∀ set ∈ sets, rawSetInv set := by
  intro fuel
  induction fuel with
  | zero => intro st acc sets st' h; exact absurd h (by simp [parseEnumBody])
  | succ n ih =>
    intro st acc sets st' h hacc
    rw [parseEnumBody] at h
    dsimp only at h
    by_cases h1 : st.peek.type = .closeCurly
    · rw [if_pos h1] at h
      injection h with h2 h3
      subst h2
      exact hacc
    · rw [if_neg h1] at h
      by_cases h2 : st.peek.type = .identifier
      · rw [if_pos h2] at h
        rcases hes : parseEnumSet st with ⟨set0, s1⟩ | m | _
        · rw [hes] at h
          refine ih _ _ _ _ h ?_
          intro set hset
          rcases List.mem_append.mp hset with hin | hin
          · exact hacc set hin
          · have hinv := parseEnumSet_inv hes
            rcases List.mem_singleton.mp hin with rfl
            exact ⟨hinv.1, hinv.2⟩
        · rw [hes] at h; exact absurd h (by simp [PRes.andThen])
        · rw [hes] at h; exact absurd h (by simp [PRes.andThen])
      · rw [if_neg h2] at h
        by_cases h3 : st.peek.type = .comment
        · rw [if_pos h3] at h
          rcases hc : ParseComment st with ⟨c, s1⟩ | m | _
          · rw [hc] at h
            exact ih _ _ _ _ h hacc
          · rw [hc] at h; exact absurd h (by simp [PRes.andThen])
          · rw [hc] at h; exact absurd h (by simp [PRes.andThen])
        · rw [if_neg h3] at h
          exact ih _ _ _ _ h hacc

theorem normalizeSetsLoop_inv :
    ∀ (sets : List EnumSet) (next minV maxV : Int),
      (∀ set ∈ sets, rawSetInv set) →
      ∀ set ∈ (normalizeSetsLoop sets next minV maxV).1, normSetInv set := by
  intro sets
  induction sets with
  | nil => intro next minV maxV _ set hset; simp [normalizeSetsLoop] at hset
  | cons s0 rest ih =>
    intro next minV maxV hall set hset
    rw [normalizeSetsLoop] at hset
    by_cases hd : s0.defined = true
    · rw [if_pos hd] at hset
      dsimp only at hset
      rcases hrec : normalizeSetsLoop rest
          (wrap64 ((Option.map (fun v => v.value) s0.value).getD 0 + 1)) minV maxV
        with ⟨l, a, b, c⟩
      rw [hrec] at hset
      dsimp only at hset
      rcases List.mem_cons.mp hset with heq | hin
      · rw [heq]
        obtain ⟨t, v0, hv⟩ := (hall s0 (by simp)).1 hd
        exact ⟨_, hv, by simp [hd]⟩
      · have hrest := ih (wrap64 ((Option.map (fun v => v.value) s0.value).getD 0 + 1))
          minV maxV (fun x hx => hall x (by simp [hx]))
        rw [hrec] at hrest
        exact hrest set hin
    · rw [if_neg hd] at hset
      dsimp only at hset
      rcases hrec : normalizeSetsLoop rest (wrap64 (next + 1)) (min minV next)
          (max maxV next) with ⟨l, a, b, c⟩
      rw [hrec] at hset
      dsimp only at hset
      rcases List.mem_cons.mp hset with heq | hin
      · rw [heq]
        have hs0 : s0.defined = false := by
          cases hcase : s0.defined
          · rfl
          · exact absurd hcase hd
        exact ⟨⟨none, next, 0, false⟩, rfl, by simp [hs0]⟩
      · have hrest := ih (wrap64 (next + 1)) (min minV next) (max maxV next)
          (fun x hx => hall x (by simp [hx]))
        rw [hrec] at hrest
        exact hrest set hin

/-- C10.  Already after parsing, every enum member carries a concrete
integer value stamped with the enum's computed size, and the
pretty-printer prints `= value` exactly for the members the user wrote
explicitly (the value token is present iff the member is explicit). -/
theorem enum_members_carry_value_and_size :
    ∀ (fuel : Nat) (s : PState) (e : Enum) (s' : PState),
      ParseEnum fuel s = .ok e s' →
      ∀ set ∈ e.sets,
        ∃ v, set.value = some v ∧ v.size = e.size ∧ v.tok.isSome = set.defined
          ∧ set.format
            = writeAll (set.comments.map (fun c => "    " ++ c.format ++ "\n"))
              ++ "    " ++ set.name
              ++ (if set.defined then " = " ++ v.format else "") := by
  intro fuel s e s' h set hset
  unfold ParseEnum at h
  dsimp only at h
  split at h
  · exact absurd h (by simp)
  · split at h
    · exact absurd h (by simp)
    · split at h
      · exact absurd h (by simp)
      · split at h
        · exact absurd h (by simp)
        · rcases hb : parseEnumBody fuel s.adv.adv.adv [] with ⟨sets0, st0⟩ | m | _
          · rw [hb] at h
            simp only [PRes.andThen] at h
            rcases hnorm : normalizeSetsLoop sets0 0 0 0 with ⟨sets1, nx, mV, MV⟩
            rw [hnorm] at h
            dsimp only at h
            injection h with h1 h2
            subst h1
            simp only at hset
            obtain ⟨set0, hset0, hmap⟩ := List.mem_map.mp hset
            have hraw : ∀ x ∈ sets0, rawSetInv x :=
              parseEnumBody_inv fuel s.adv.adv.adv [] sets0 st0 hb (by simp)
            have hnorm1 : ∀ x ∈ sets1, normSetInv x := by
              have hh := normalizeSetsLoop_inv sets0 0 0 0 hraw
              rw [hnorm] at hh
              exact hh
            obtain ⟨v, hv, htok⟩ := hnorm1 set0 hset0
            refine ⟨{ v with size := getIntSize mV MV }, ?_, rfl, ?_, ?_⟩
            · rw [← hmap]
              simp [hv]
            · rw [← hmap]
              simpa using htok
            · rw [← hmap]
              simp only [EnumSet.format, hv]
              rcases hvt : v.tok with _ | t
              · rw [hvt] at htok
                simp only [Option.isSome_none] at htok
                simp [← htok, ValueInt.format, hvt]
              · rw [hvt] at htok
                simp only [Option.isSome_some] at htok
                simp [← htok, ValueInt.format, hvt]
          · rw [hb] at h; exact absurd h (by simp [PRes.andThen])
          · rw [hb] at h; exact absurd h (by simp [PRes.andThen])

/-- Witness for the enum-member theorem at a concrete enum with one
explicit and one implicit member. -/
theorem enum_members_carry_value_and_size_witness :
    ∃ v, (⟨"B", some ⟨none, 1001, 16, false⟩, false, []⟩ : EnumSet).value = some v
      ∧ v.size = 16 ∧ v.tok.isSome = false
      ∧ (⟨"B", some ⟨none, 1001, 16, false⟩, false, []⟩ : EnumSet).format = "    B" :=
  enum_members_carry_value_and_size 100 ⟨lex "enum E \x7b A = 1000 B \x7d", []⟩
    ⟨"E", 16,
      [⟨"A", some ⟨some ⟨.constInt, "1000"⟩, 1000, 16, true⟩, true, []⟩,
       ⟨"B", some ⟨none, 1001, 16, false⟩, false, []⟩], []⟩
    ⟨[⟨.eof, ""⟩], []⟩ (by decide)
    ⟨"B", some ⟨none, 1001, 16, false⟩, false, []⟩ (by decide)

/-! ## Error-code assignment (claim C2) -/

theorem charListLt_irrefl : ∀ x, charListLt x x = false
  | [] => rfl
  | a :: as => by simp [charListLt, charListLt_irrefl as]

theorem charListLt_asymm : ∀ x y, charListLt x y = true → charListLt y x = false
  | [], [], h => by simp [charListLt] at h
  | [], _ :: _, _ => rfl
  | _ :: _, [], h => by simp [charListLt] at h
  | a :: as, b :: bs, h => by
    simp only [charListLt] at h ⊢
    rcases Nat.lt_trichotomy a.toNat b.toNat with hlt | heq | hgt
    · simp [hlt, Nat.lt_asymm hlt]
    · simp only [heq, Nat.lt_irrefl, if_false] at h ⊢
      exact charListLt_asymm as bs h
    · simp [hgt, Nat.lt_asymm hgt] at h

theorem charListLt_trans :
    ∀ x y z, charListLt x y = true → charListLt y z = true → charListLt x z = true
  | [], [], _, hxy, _ => by simp [charListLt] at hxy
  | [], _ :: _, [], _, hyz => by simp [charListLt] at hyz
  | [], _ :: _, _ :: _, _, _ => rfl
  | _ :: _, [], _, hxy, _ => by simp [charListLt] at hxy
  | _ :: _, _ :: _, [], _, hyz => by simp [charListLt] at hyz
  | a :: as, b :: bs, c :: cs, hxy, hyz => by
    simp only [charListLt] at hxy hyz ⊢
    rcases Nat.lt_trichotomy a.toNat b.toNat with hab | hab | hab
    · rcases Nat.lt_trichotomy b.toNat c.toNat with hbc | hbc | hbc
      · simp [hab.trans hbc]
      · simp [hbc ▸ hab]
      · simp [Nat.lt_asymm hbc, hbc] at hyz
    · rcases Nat.lt_trichotomy b.toNat c.toNat with hbc | hbc | hbc
      · simp [hab ▸ hbc]
      · simp only [hab, Nat.lt_irrefl, if_false] at hxy
        simp only [hbc, Nat.lt_irrefl, if_false] at hyz
        simp only [hab, hbc, Nat.lt_irrefl, if_false]
        exact charListLt_trans as bs cs hxy hyz
      · simp [Nat.lt_asymm hbc, hbc] at hyz
    · simp [Nat.lt_asymm hab, hab] at hxy

theorem charListLt_connex :
    ∀ x y, charListLt x y = false → charListLt y x = false → x = y
  | [], [], _, _ => rfl
  | [], _ :: _, hxy, _ => by simp [charListLt] at hxy
  | _ :: _, [], _, hyx => by simp [charListLt] at hyx
  | a :: as, b :: bs, hxy, hyx => by
    rcases Nat.lt_trichotomy a.toNat b.toNat with hab | hab | hab
    · simp [charListLt, hab] at hxy
    · have hc : a = b := by
        rw [← Char.ofNat_toNat a, ← Char.ofNat_toNat b, hab]
      subst hc
      simp only [charListLt, Nat.lt_irrefl, if_false] at hxy hyx
      rw [charListLt_connex as bs hxy hyx]
    · simp [charListLt, hab] at hyx

theorem strLeB_total : ∀ a b : String, strLeB a b = true ∨ strLeB b a = true := by
  intro a b
  cases hba : strLtB b a
  · exact Or.inl (by simp [strLeB, hba])
  · have hab : strLtB a b = false := charListLt_asymm _ _ hba
    exact Or.inr (by simp [strLeB, hab])

theorem strLeB_trans :
    ∀ a b c : String, strLeB a b = true → strLeB b c = true → strLeB a c = true := by
  intro a b c hab hbc
  simp only [strLeB, strLtB, Bool.not_eq_true'] at hab hbc ⊢
  cases hca : charListLt c.toList a.toList
  · rfl
  · exfalso
    cases hbc2 : charListLt b.toList c.toList
    · have hbceq : b.toList = c.toList := charListLt_connex _ _ hbc2 hbc
      rw [hbceq] at hab
      rw [hab] at hca
      exact Bool.false_ne_true hca
    · have := charListLt_trans _ _ _ hbc2 hca
      rw [hab] at this
      exact Bool.false_ne_true this

theorem strLtB_irrefl (a : String) : strLtB a a = false :=
  charListLt_irrefl _

theorem perm_orderedInsertBy {α : Type} (le : α → α → Bool) (a : α) :
    ∀ l, (orderedInsertBy le a l).Perm (a :: l)
  | [] => List.Perm.refl _
  | b :: l => by
    by_cases h : le a b = true
    · simp [orderedInsertBy, h]
    · simp only [orderedInsertBy, h, if_false]
      exact ((perm_orderedInsertBy le a l).cons b).trans (List.Perm.swap a b l)

theorem perm_insertionSortBy {α : Type} (le : α → α → Bool) :
    ∀ l, (insertionSortBy le l).Perm l
  | [] => List.Perm.refl _
  | a :: l =>
    (perm_orderedInsertBy le a (insertionSortBy le l)).trans
      ((perm_insertionSortBy le l).cons a)

theorem pairwise_orderedInsertBy {α : Type} (le : α → α → Bool)
    (htot : ∀ a b, le a b = true ∨ le b a = true)
    (htrans : ∀ a b c, le a b = true → le b c = true → le a c = true) (a : α) :
    ∀ l, l.Pairwise (fun x y => le x y = true) →
      (orderedInsertBy le a l).Pairwise (fun x y => le x y = true)
  | [], _ => by simp [orderedInsertBy]
  | b :: l, hp => by
    rcases List.pairwise_cons.mp hp with ⟨hb, hl⟩
    by_cases h : le a b = true
    · simp only [orderedInsertBy, h, if_true]
      refine List.pairwise_cons.mpr ⟨?_, hp⟩
      intro x hx
      rcases List.mem_cons.mp hx with hx | hx
      · exact hx ▸ h
      · exact htrans a b x h (hb x hx)
    · simp only [orderedInsertBy, h, if_false]
      refine List.pairwise_cons.mpr ⟨?_, pairwise_orderedInsertBy le htot htrans a l hl⟩
      intro x hx
      rcases List.mem_cons.mp ((perm_orderedInsertBy le a l).mem_iff.mp hx) with hx | hx
      · subst hx
        rcases htot x b with hab | hba
        · exact absurd hab h
        · exact hba
      · exact hb x hx

theorem pairwise_insertionSortBy {α : Type} (le : α → α → Bool)
    (htot : ∀ a b, le a b = true ∨ le b a = true)
    (htrans : ∀ a b c, le a b = true → le b c = true → le a c = true) :
    ∀ l, (insertionSortBy le l).Pairwise (fun x y => le x y = true)
  | [] => List.Pairwise.nil
  | a :: l =>
    pairwise_orderedInsertBy le htot htrans a _ (pairwise_insertionSortBy le htot htrans l)

theorem length_mapIdxI {α β : Type} :
    ∀ (l : List α) (f : Nat → α → β), (mapIdxI f l).length = l.length
  | [], _ => rfl
  | _ :: l, f => by simp [mapIdxI, length_mapIdxI l]

theorem get_mapIdxI {α β : Type} :
    ∀ (l : List α) (f : Nat → α → β) (k : Nat) (h1 : k < (mapIdxI f l).length)
      (h2 : k < l.length), (mapIdxI f l).get ⟨k, h1⟩ = f k (l.get ⟨k, h2⟩)
  | a :: l, f, 0, _, _ => rfl
  | a :: l, f, k + 1, h1, h2 => by
    simpa [mapIdxI] using
      get_mapIdxI l (fun k => f (k + 1)) k (by simpa [mapIdxI, length_mapIdxI] using h1)
        (Nat.lt_of_succ_lt_succ h2)

theorem mapIdxI_congr {α β : Type} :
    ∀ (l : List α) (f g : Nat → α → β), (∀ k a, f k a = g k a) →
      mapIdxI f l = mapIdxI g l
  | [], _, _, _ => rfl
  | a :: l, f, g, h => by
    simp only [mapIdxI, h]
    rw [mapIdxI_congr l (fun k => f (k + 1)) (fun k => g (k + 1)) (fun k a => h (k + 1) a)]

theorem mem_mapIdxI {α β : Type} {l : List α} {f : Nat → α → β} {x : β}
    (hx : x ∈ mapIdxI f l) : ∃ k : Nat, ∃ h : k < l.length, x = f k (l.get ⟨k, h⟩) := by
  rcases List.mem_iff_get.mp hx with ⟨⟨k, hk⟩, hget⟩
  have hk2 : k < l.length := by
    have hk' := hk
    rwa [length_mapIdxI] at hk'
  exact ⟨k, hk2, by rw [← hget, get_mapIdxI l f k hk hk2]⟩

theorem map_fst_mapIdxI :
    ∀ (l : List (Nat × CustomError)) (F : Nat → Nat × CustomError → Nat × Int),
      (∀ k p, (F k p).1 = p.1) →
      (mapIdxI F l).map Prod.fst = l.map Prod.fst
  | [], _, _ => rfl
  | p :: l, F, hF => by
    simp only [mapIdxI, List.map_cons, hF]
    rw [map_fst_mapIdxI l (fun k => F (k + 1)) (fun k p => hF (k + 1) p)]

theorem lookupIdx_eq_none {R : List (Nat × Int)} {i : Nat} :
    (∀ p ∈ R, p.1 ≠ i) → lookupIdx R i = none := by
  induction R with
  | nil => intro _; rfl
  | cons p R ih =>
    intro h
    have hi : ¬ i = p.1 := fun hc => h p (List.mem_cons_self p R) (hc ▸ rfl)
    cases p with
    | mk k v =>
      simp only [lookupIdx, if_neg hi]
      exact ih fun q hq => h q (List.mem_cons_of_mem _ hq)

theorem lookupIdx_eq_some {R : List (Nat × Int)} {i : Nat} {c : Int} :
    (R.map Prod.fst).Nodup → (i, c) ∈ R → lookupIdx R i = some c := by
  induction R with
  | nil => intro _ h; cases h
  | cons p R ih =>
    intro hnd hm
    cases p with
    | mk k v =>
      rw [List.map_cons] at hnd
      rcases List.nodup_cons.mp hnd with ⟨hp, hR⟩
      rcases List.mem_cons.mp hm with hm1 | hm1
      · cases hm1
        simp [lookupIdx]
      · have hik : ¬ i = k := by
          intro hik
          subst hik
          exact hp (List.mem_map.mpr ⟨(i, c), hm1, rfl⟩)
        simp only [lookupIdx, if_neg hik]
        exact ih hR hm1

theorem errCodesScan_ok_bounds :
    ∀ (l : List CustomError) (res : List Int) (m0 M : Int),
      errCodesScan l res m0 = .ok M →
        m0 ≤ M ∧ (∀ e ∈ l, e.code ≠ 0 → e.code ≤ M) ∧
          (M = m0 ∨ ∃ e ∈ l, e.code ≠ 0 ∧ e.code = M) := by
  intro l
  induction l with
  | nil =>
    intro res m0 M h
    cases h
    exact ⟨le_refl _, by simp, Or.inl rfl⟩
  | cons e rest ih =>
    intro res m0 M h
    simp only [errCodesScan] at h
    by_cases hcont : res.contains e.code = true
    · rw [if_pos hcont] at h
      exact Except.noConfusion h
    · rw [if_neg hcont] at h
      by_cases hz : e.code = 0
      · rw [if_neg (not_not_intro hz)] at h
        rcases ih res m0 M h with ⟨h1, h2, h3⟩
        refine ⟨h1, ?_, ?_⟩
        · intro x hx hxz
          rcases List.mem_cons.mp hx with hx | hx
          · exact absurd (hx ▸ hz) hxz
          · exact h2 x hx hxz
        · rcases h3 with h3 | ⟨x, hx, hxz, hxe⟩
          · exact Or.inl h3
          · exact Or.inr ⟨x, List.mem_cons_of_mem _ hx, hxz, hxe⟩
      · rw [if_pos hz] at h
        rcases ih _ _ _ h with ⟨h1, h2, h3⟩
        refine ⟨le_trans (le_max_left _ _) h1, ?_, ?_⟩
        · intro x hx hxz
          rcases List.mem_cons.mp hx with hx | hx
          · exact hx ▸ le_trans (le_max_right _ _) h1
          · exact h2 x hx hxz
        · rcases h3 with h3 | ⟨x, hx, hxz, hxe⟩
          · rcases max_choice m0 e.code with hc | hc
            · exact Or.inl (h3.trans hc)
            · exact Or.inr ⟨e, List.mem_cons_self e rest, hz, by rw [← hc, ← h3]⟩
          · exact Or.inr ⟨x, List.mem_cons_of_mem _ hx, hxz, hxe⟩

theorem errCodesScan_ok_res :
    ∀ (l : List CustomError) (res : List Int) (m0 M : Int),
      errCodesScan l res m0 = .ok M →
        ∀ c ∈ res, ∀ e ∈ l, e.code ≠ 0 → e.code ≠ c := by
  intro l
  induction l with
  | nil => intro res m0 M _ c _ e he; cases he
  | cons e rest ih =>
    intro res m0 M h c hc x hx hxz
    simp only [errCodesScan] at h
    by_cases hcont : res.contains e.code = true
    · rw [if_pos hcont] at h
      exact Except.noConfusion h
    · rw [if_neg hcont] at h
      have hcf : res.contains e.code = false := by simpa using hcont
      have hmem : e.code ∉ res := by simpa using hcf
      rcases List.mem_cons.mp hx with hx | hx
      · subst hx
        intro hec
        rw [hec] at hmem
        exact hmem hc
      · by_cases hz : x.code = 0
        · by_cases hez : e.code = 0
          · rw [if_neg (not_not_intro hez)] at h
            exact ih res m0 M h c hc x hx hxz
          · rw [if_pos hez] at h
            exact ih _ _ _ h c (List.mem_cons_of_mem _ hc) x hx hxz
        · by_cases hez : e.code = 0
          · rw [if_neg (not_not_intro hez)] at h
            exact ih res m0 M h c hc x hx hxz
          · rw [if_pos hez] at h
            exact ih _ _ _ h c (List.mem_cons_of_mem _ hc) x hx hxz

theorem errCodesScan_ok_get_ne :
    ∀ (l : List CustomError) (res : List Int) (m0 M : Int),
      errCodesScan l res m0 = .ok M →
        ∀ (p q : Nat) (hp : p < l.length) (hq : q < l.length), p ≠ q →
          (l.get ⟨p, hp⟩).code ≠ 0 → (l.get ⟨q, hq⟩).code ≠ 0 →
          (l.get ⟨p, hp⟩).code ≠ (l.get ⟨q, hq⟩).code := by
  intro l
  induction l with
  | nil => intro res m0 M _ p q hp; cases hp
  | cons e rest ih =>
    intro res m0 M h p q hp hq hpq hpz hqz
    simp only [errCodesScan] at h
    by_cases hcont : res.contains e.code = true
    · rw [if_pos hcont] at h
      exact Except.noConfusion h
    · rw [if_neg hcont] at h
      cases p with
      | zero =>
        cases q with
        | zero => exact absurd rfl hpq
        | succ q =>
          have hpz0 : e.code ≠ 0 := hpz
          rw [if_pos hpz0] at h
          have hne := errCodesScan_ok_res rest _ _ _ h e.code
            (List.mem_cons_self _ _) (rest.get ⟨q, Nat.lt_of_succ_lt_succ hq⟩)
            (List.get_mem _ _ _) hqz
          exact fun hc => hne hc.symm
      | succ p =>
        cases q with
        | zero =>
          have hqz0 : e.code ≠ 0 := hqz
          rw [if_pos hqz0] at h
          exact errCodesScan_ok_res rest _ _ _ h e.code
            (List.mem_cons_self _ _) (rest.get ⟨p, Nat.lt_of_succ_lt_succ hp⟩)
            (List.get_mem _ _ _) hpz
        | succ q =>
          by_cases hz : e.code = 0
          · rw [if_neg (not_not_intro hz)] at h
            exact ih res m0 M h p q (Nat.lt_of_succ_lt_succ hp)
              (Nat.lt_of_succ_lt_succ hq) (fun hc => hpq (by rw [hc])) hpz hqz
          · rw [if_pos hz] at h
            exact ih _ _ _ h p q (Nat.lt_of_succ_lt_succ hp)
              (Nat.lt_of_succ_lt_succ hq) (fun hc => hpq (by rw [hc])) hpz hqz

theorem maxExplicitCode_foldl_le :
    ∀ (l : List CustomError) (m0 : Int),
      m0 ≤ l.foldl (fun m e => if e.code = 0 then m else max m e.code) m0 := by
  intro l
  induction l with
  | nil => intro m0; exact le_refl _
  | cons e rest ih =>
    intro m0
    simp only [List.foldl_cons]
    by_cases hz : e.code = 0
    · rw [if_pos hz]; exact ih m0
    · rw [if_neg hz]; exact le_trans (le_max_left _ _) (ih _)

theorem maxExplicitCode_mem_le :
    ∀ (l : List CustomError) (m0 : Int) (e : CustomError), e ∈ l → e.code ≠ 0 →
      e.code ≤ l.foldl (fun m e => if e.code = 0 then m else max m e.code) m0 := by
  intro l
  induction l with
  | nil => intro m0 e he; cases he
  | cons x rest ih =>
    intro m0 e he hez
    simp only [List.foldl_cons]
    rcases List.mem_cons.mp he with he | he
    · subst he
      rw [if_neg hez]
      exact le_trans (le_max_right _ _) (maxExplicitCode_foldl_le rest _)
    · by_cases hz : x.code = 0
      · rw [if_pos hz]; exact ih _ e he hez
      · rw [if_neg hz]; exact ih _ e he hez

theorem maxExplicitCode_cases :
    ∀ (l : List CustomError) (m0 : Int),
      l.foldl (fun m e => if e.code = 0 then m else max m e.code) m0 = m0 ∨
        ∃ e ∈ l, e.code ≠ 0 ∧
          l.foldl (fun m e => if e.code = 0 then m else max m e.code) m0 = e.code := by
  intro l
  induction l with
  | nil => intro m0; exact Or.inl rfl
  | cons x rest ih =>
    intro m0
    simp only [List.foldl_cons]
    by_cases hz : x.code = 0
    · rw [if_pos hz]
      rcases ih m0 with h | ⟨e, he, hez, heq⟩
      · exact Or.inl h
      · exact Or.inr ⟨e, List.mem_cons_of_mem _ he, hez, heq⟩
    · rw [if_neg hz]
      rcases ih (max m0 x.code) with h | ⟨e, he, hez, heq⟩
      · rcases max_choice m0 x.code with hc | hc
        · exact Or.inl (h.trans hc)
        · exact Or.inr ⟨x, List.mem_cons_self x rest, hz, h.trans hc⟩
      · exact Or.inr ⟨e, List.mem_cons_of_mem _ he, hez, heq⟩

theorem maxExplicitCode_nonneg (errs : List CustomError) : 0 ≤ maxExplicitCode errs :=
  maxExplicitCode_foldl_le errs 0

theorem errCodesAssign_eq :
    ∀ (L : List (Nat × CustomError)) (m : Int), 0 ≤ m →
      m + (L.filter (fun p => p.2.code = 0)).length < 2 ^ 63 →
      errCodesAssign L m =
        mapIdxI (fun k p => (p.1, m + (k : Int) + 1))
          (L.filter (fun p => p.2.code = 0)) := by
  intro L
  induction L with
  | nil => intro m _ _; rfl
  | cons p rest ih =>
    intro m hm hov
    cases p with
    | mk i e =>
      by_cases hz : e.code = 0
      · have hfil :
            ((i, e) :: rest).filter (fun p => p.2.code = 0) =
              (i, e) :: rest.filter (fun p => p.2.code = 0) := by
          simp [List.filter_cons, hz]
        rw [hfil] at hov ⊢
        simp only [List.length_cons] at hov
        have hm1 : m + 1 < 2 ^ 63 := by
          push_cast at hov
          omega
        have hwrap : wrap64 (m + 1) = m + 1 :=
          wrap64_eq_self (by omega) hm1
        simp only [errCodesAssign, if_pos hz, hwrap, mapIdxI]
        refine List.cons_eq_cons.mpr ⟨by simp, ?_⟩
        rw [ih (m + 1) (by omega) (by push_cast at hov ⊢; omega)]
        refine mapIdxI_congr _ _ _ fun k p => ?_
        simp only [Prod.mk.injEq, true_and]
        push_cast
        ring
      · have hfil :
            ((i, e) :: rest).filter (fun p => p.2.code = 0) =
              rest.filter (fun p => p.2.code = 0) := by
          simp [List.filter_cons, hz]
        rw [hfil] at hov ⊢
        simp only [errCodesAssign, if_neg hz]
        exact ih m hm hov

theorem assignErrorCodes_error (errs : List CustomError) {msg : String}
    (h : errCodesScan
        ((insertionSortBy (fun a b => strLeB a.2.name b.2.name) errs.enum).map
          (fun p => p.2)) [] 0 = .error msg) :
    assignErrorCodes errs = .error msg := by
  unfold assignErrorCodes
  dsimp only
  rw [h]
  rfl

theorem assignErrorCodes_ok (errs : List CustomError) {M : Int}
    (h : errCodesScan
        ((insertionSortBy (fun a b => strLeB a.2.name b.2.name) errs.enum).map
          (fun p => p.2)) [] 0 = .ok M) :
    assignErrorCodes errs =
      .ok (errs.enum.map (fun p =>
        match lookupIdx
            (errCodesAssign
              (insertionSortBy (fun a b => strLeB a.2.name b.2.name) errs.enum) M)
            p.1 with
        | some c => { p.2 with code := c }
        | none => p.2)) := by
  unfold assignErrorCodes
  dsimp only
  rw [h]
  rfl

theorem errCodesScan_ok_map_ne {L : List (Nat × CustomError)} {M : Int}
    (h : errCodesScan (L.map (fun r => r.2)) [] 0 = .ok M)
    (u v : Nat) (hu : u < L.length) (hv : v < L.length) (huv : u ≠ v)
    (hupz : (L.get ⟨u, hu⟩).2.code ≠ 0) (hvz : (L.get ⟨v, hv⟩).2.code ≠ 0) :
    (L.get ⟨u, hu⟩).2.code ≠ (L.get ⟨v, hv⟩).2.code := by
  have hlu : u < (L.map (fun r => r.2)).length := by
    rw [List.length_map]; exact hu
  have hlv : v < (L.map (fun r => r.2)).length := by
    rw [List.length_map]; exact hv
  have hgu : (L.map (fun r => r.2)).get ⟨u, hlu⟩ = (L.get ⟨u, hu⟩).2 := by
    simp [List.get_eq_getElem, List.getElem_map]
  have hgv : (L.map (fun r => r.2)).get ⟨v, hlv⟩ = (L.get ⟨v, hv⟩).2 := by
    simp [List.get_eq_getElem, List.getElem_map]
  have hne := errCodesScan_ok_get_ne _ _ _ _ h u v hlu hlv huv
  rw [hgu, hgv] at hne
  exact hne hupz hvz

theorem sorted_entry_exists (errs : List CustomError) (i : Nat) (hi : i < errs.length) :
    ∃ u : Fin (insertionSortBy (fun a b => strLeB a.2.name b.2.name) errs.enum).length,
      (insertionSortBy (fun a b => strLeB a.2.name b.2.name) errs.enum).get u
        = (i, errs.get ⟨i, hi⟩) := by
  have hmem : (i, errs.get ⟨i, hi⟩) ∈ errs.enum :=
    List.mk_mem_enum_iff_getElem?.mpr (by simp [List.getElem?_eq_getElem hi])
  exact List.mem_iff_get.mp
    ((perm_insertionSortBy (fun a b => strLeB a.2.name b.2.name) errs.enum).mem_iff.mpr hmem)

/-- **C2 (amended).** Provided the maximal explicit code plus the number of
zero-coded errors stays below `2^63` (so the `int64` increments do not wrap), a
successful `assignErrorCodes` keeps every explicitly coded error unchanged,
gives every zero-coded error a code strictly greater than every explicit
code (all of which are bounded by `maxExplicitCode`), makes all resulting
codes pairwise distinct, and hands out the fresh codes in strictly
ascending order of the errors' names; and whenever two distinct positions
carry the same explicit nonzero code, the pass fails with an error. -/
theorem error_codes_assignment_correct :
    (∀ (errs errs' : List CustomError),
      assignErrorCodes errs = .ok errs' →
      maxExplicitCode errs + (errs.filter (fun e => e.code = 0)).length < 2 ^ 63 →
        (∀ e ∈ errs, e.code ≠ 0 → e.code ≤ maxExplicitCode errs)
        ∧ List.Forall₂ (fun e e' : CustomError =>
            e'.name = e.name ∧ e'.msg = e.msg ∧ e'.comments = e.comments ∧
            (e.code ≠ 0 → e' = e) ∧
            (e.code = 0 → maxExplicitCode errs < e'.code)) errs errs'
        ∧ (errs'.map (fun e => e.code)).Nodup
        ∧ (∀ (p q : Nat) (hp : p < errs.length) (hq : q < errs.length)
              (hp' : p < errs'.length) (hq' : q < errs'.length),
            (errs.get ⟨p, hp⟩).code = 0 → (errs.get ⟨q, hq⟩).code = 0 →
            strLtB (errs.get ⟨p, hp⟩).name (errs.get ⟨q, hq⟩).name = true →
            (errs'.get ⟨p, hp'⟩).code < (errs'.get ⟨q, hq'⟩).code))
    ∧ (∀ (errs : List CustomError) (p q : Nat) (hp : p < errs.length)
          (hq : q < errs.length),
        p ≠ q →
        (errs.get ⟨p, hp⟩).code ≠ 0 →
        (errs.get ⟨p, hp⟩).code = (errs.get ⟨q, hq⟩).code →
        ∃ msg, assignErrorCodes errs = .error msg) := by
  constructor
  · intro errs errs' hok hov
    rcases hscan : errCodesScan
        ((insertionSortBy (fun a b => strLeB a.2.name b.2.name) errs.enum).map
          (fun p => p.2)) [] 0 with msg | M
    · rw [assignErrorCodes_error errs hscan] at hok
      exact Except.noConfusion hok
    rw [assignErrorCodes_ok errs hscan] at hok
    replace hok := (Except.ok.inj hok).symm
    subst hok
    set out := errs.enum.map (fun p =>
      match lookupIdx
          (errCodesAssign
            (insertionSortBy (fun a b => strLeB a.2.name b.2.name) errs.enum) M)
          p.1 with
      | some c => { p.2 with code := c }
      | none => p.2) with hout
    have permS := perm_insertionSortBy (fun a b => strLeB a.2.name b.2.name) errs.enum
    have pairS := pairwise_insertionSortBy (fun a b => strLeB a.2.name b.2.name)
      (fun a b => strLeB_total a.2.name b.2.name)
      (fun a b c => strLeB_trans a.2.name b.2.name c.2.name) errs.enum
    have permSnd :
        ((insertionSortBy (fun a b => strLeB a.2.name b.2.name) errs.enum).map
          (fun p => p.2)).Perm errs := by
      have hp2 := permS.map (fun p : Nat × CustomError => p.2)
      rwa [List.enum_map_snd] at hp2
    have keysS :
        ((insertionSortBy (fun a b => strLeB a.2.name b.2.name) errs.enum).map
          Prod.fst).Nodup := by
      have hp1 := permS.map Prod.fst
      rw [List.enum_map_fst] at hp1
      exact hp1.nodup_iff.mpr (List.nodup_range _)
    obtain ⟨hM0, hMle, hMcases⟩ := errCodesScan_ok_bounds _ _ _ _ hscan
    have hMmax : M = maxExplicitCode errs := by
      apply le_antisymm
      · rcases hMcases with hc | ⟨e, he, hez, hec⟩
        · exact hc ▸ maxExplicitCode_nonneg errs
        · calc M = e.code := hec.symm
            _ ≤ maxExplicitCode errs :=
              maxExplicitCode_mem_le errs 0 e (permSnd.mem_iff.mp he) hez
      · rcases maxExplicitCode_cases errs 0 with hc | ⟨e, he, hez, hec⟩
        · have hh : maxExplicitCode errs = 0 := hc
          rw [hh]; exact hM0
        · have hh : maxExplicitCode errs = e.code := hec
          rw [hh]; exact hMle e (permSnd.mem_iff.mpr he) hez
    have h63 : (2 : Int) ^ 63 = 9223372036854775808 := by norm_num
    have hZform : (errs.filter (fun e => e.code = 0)).length
        = (errs.enum.filter (fun p : Nat × CustomError => p.2.code = 0)).length := by
      conv_lhs => rw [← List.enum_map_snd errs]
      rw [List.filter_map, List.length_map]
      rfl
    have hZlen :
        ((insertionSortBy (fun a b => strLeB a.2.name b.2.name) errs.enum).filter
          (fun p => p.2.code = 0)).length
          = (errs.filter (fun e => e.code = 0)).length := by
      have hpf := (permS.filter (fun p : Nat × CustomError => p.2.code = 0)).length_eq
      rw [hpf, hZform]
    have hA : errCodesAssign
          (insertionSortBy (fun a b => strLeB a.2.name b.2.name) errs.enum) M =
        mapIdxI (fun k p => (p.1, M + (k : Int) + 1))
          ((insertionSortBy (fun a b => strLeB a.2.name b.2.name) errs.enum).filter
            (fun p => p.2.code = 0)) := by
      apply errCodesAssign_eq _ _ hM0
      have hc1 : (((insertionSortBy (fun a b => strLeB a.2.name b.2.name)
            errs.enum).filter (fun p => p.2.code = 0)).length : Int)
          = ((errs.filter (fun e => e.code = 0)).length : Int) := by
        exact_mod_cast hZlen
      rw [h63] at hov ⊢
      omega
    have keysZ :
        (((insertionSortBy (fun a b => strLeB a.2.name b.2.name) errs.enum).filter
          (fun p => p.2.code = 0)).map Prod.fst).Nodup :=
      List.Nodup.sublist ((List.filter_sublist _).map Prod.fst) keysS
    have keysR :
        ((errCodesAssign
          (insertionSortBy (fun a b => strLeB a.2.name b.2.name) errs.enum) M).map
          Prod.fst).Nodup := by
      rw [hA, map_fst_mapIdxI _ _ (fun k p => rfl)]
      exact keysZ
    have pairZ :=
      List.Pairwise.filter (R := fun x y : Nat × CustomError => strLeB x.2.name y.2.name = true)
        (fun p => p.2.code = 0) pairS
    have memZ : ∀ x : Nat × CustomError,
        x ∈ (insertionSortBy (fun a b => strLeB a.2.name b.2.name) errs.enum).filter
            (fun p => p.2.code = 0) ↔
          x ∈ errs.enum ∧ x.2.code = 0 := by
      intro x
      rw [List.mem_filter, permS.mem_iff]
      simp
    have hdesc : ∀ (i : Nat) (hi : i < errs.length),
        ((errs.get ⟨i, hi⟩).code ≠ 0 →
          lookupIdx (errCodesAssign
            (insertionSortBy (fun a b => strLeB a.2.name b.2.name) errs.enum) M) i
            = none) ∧
        ((errs.get ⟨i, hi⟩).code = 0 →
          ∃ k, ∃ hk : k <
              ((insertionSortBy (fun a b => strLeB a.2.name b.2.name) errs.enum).filter
                (fun p => p.2.code = 0)).length,
            ((insertionSortBy (fun a b => strLeB a.2.name b.2.name) errs.enum).filter
              (fun p => p.2.code = 0)).get ⟨k, hk⟩ = (i, errs.get ⟨i, hi⟩) ∧
            lookupIdx (errCodesAssign
              (insertionSortBy (fun a b => strLeB a.2.name b.2.name) errs.enum) M) i
              = some (M + (k : Int) + 1)) := by
      intro i hi
      constructor
      · intro hnz
        apply lookupIdx_eq_none
        intro pr hpr
        rw [hA] at hpr
        rcases mem_mapIdxI hpr with ⟨k, hk, hpr_eq⟩
        intro hfst
        have hzk1 : (((insertionSortBy (fun a b => strLeB a.2.name b.2.name)
            errs.enum).filter (fun p => p.2.code = 0)).get ⟨k, hk⟩).1 = i := by
          rw [hpr_eq] at hfst
          exact hfst
        have hmemZget := List.get_mem
          ((insertionSortBy (fun a b => strLeB a.2.name b.2.name) errs.enum).filter
            (fun p => p.2.code = 0)) k hk
        rcases (memZ _).mp hmemZget with ⟨henm, hz0⟩
        have henm' : ((((insertionSortBy (fun a b => strLeB a.2.name b.2.name)
              errs.enum).filter (fun p => p.2.code = 0)).get ⟨k, hk⟩).1,
            (((insertionSortBy (fun a b => strLeB a.2.name b.2.name)
              errs.enum).filter (fun p => p.2.code = 0)).get ⟨k, hk⟩).2) ∈ errs.enum := by
          simpa using henm
        rw [hzk1] at henm'
        have hsome := List.mk_mem_enum_iff_getElem?.mp henm'
        rw [List.getElem?_eq_getElem hi] at hsome
        have hval2 : (((insertionSortBy (fun a b => strLeB a.2.name b.2.name)
            errs.enum).filter (fun p => p.2.code = 0)).get ⟨k, hk⟩).2
            = errs.get ⟨i, hi⟩ := (Option.some.inj hsome).symm
        rw [hval2] at hz0
        exact hnz hz0
      · intro hz
        have hmem_enum : (i, errs.get ⟨i, hi⟩) ∈ errs.enum :=
          List.mk_mem_enum_iff_getElem?.mpr (by simp [List.getElem?_eq_getElem hi])
        have hmemZ2 : (i, errs.get ⟨i, hi⟩) ∈
            (insertionSortBy (fun a b => strLeB a.2.name b.2.name) errs.enum).filter
              (fun p => p.2.code = 0) := (memZ _).mpr ⟨hmem_enum, hz⟩
        rcases List.mem_iff_get.mp hmemZ2 with ⟨⟨k, hk⟩, hget⟩
        refine ⟨k, hk, hget, ?_⟩
        apply lookupIdx_eq_some keysR
        rw [hA]
        have hkR : k < (mapIdxI (fun k p => (p.1, M + (k : Int) + 1))
            ((insertionSortBy (fun a b => strLeB a.2.name b.2.name) errs.enum).filter
              (fun p => p.2.code = 0))).length := by
          rw [length_mapIdxI]; exact hk
        have hgm := get_mapIdxI _ (fun k p => (p.1, M + (k : Int) + 1)) k hkR hk
        rw [hget] at hgm
        have hmmem := List.get_mem _ k hkR
        rw [hgm] at hmmem
        exact hmmem
    have houtlen : out.length = errs.length := by
      rw [hout, List.length_map, List.enum_length]
    have hval : ∀ (i : Nat) (hi : i < errs.length) (hi' : i < out.length),
        ((errs.get ⟨i, hi⟩).code ≠ 0 →
          out.get ⟨i, hi'⟩ = errs.get ⟨i, hi⟩) ∧
        ((errs.get ⟨i, hi⟩).code = 0 →
          ∃ k, ∃ hk : k <
              ((insertionSortBy (fun a b => strLeB a.2.name b.2.name) errs.enum).filter
                (fun p => p.2.code = 0)).length,
            ((insertionSortBy (fun a b => strLeB a.2.name b.2.name) errs.enum).filter
              (fun p => p.2.code = 0)).get ⟨k, hk⟩ = (i, errs.get ⟨i, hi⟩) ∧
            out.get ⟨i, hi'⟩ = { errs.get ⟨i, hi⟩ with code := M + (k : Int) + 1 }) := by
      intro i hi hi'
      have him : i < (errs.enum.map (fun p : Nat × CustomError =>
          match lookupIdx
              (errCodesAssign
                (insertionSortBy (fun a b => strLeB a.2.name b.2.name) errs.enum) M)
              p.1 with
          | some c => { p.2 with code := c }
          | none => p.2)).length := by
        rw [List.length_map, List.enum_length]; exact hi
      have hg0 : (errs.enum.map (fun p : Nat × CustomError =>
          match lookupIdx
              (errCodesAssign
                (insertionSortBy (fun a b => strLeB a.2.name b.2.name) errs.enum) M)
              p.1 with
          | some c => { p.2 with code := c }
          | none => p.2)).get ⟨i, him⟩ = (fun p : Nat × CustomError =>
          match lookupIdx
              (errCodesAssign
                (insertionSortBy (fun a b => strLeB a.2.name b.2.name) errs.enum) M)
              p.1 with
          | some c => { p.2 with code := c }
          | none => p.2) (i, errs.get ⟨i, hi⟩) := by
        rw [List.get_eq_getElem, List.getElem_map, List.getElem_enum]
        rfl
      have hg : out.get ⟨i, hi'⟩ = (fun p : Nat × CustomError =>
          match lookupIdx
              (errCodesAssign
                (insertionSortBy (fun a b => strLeB a.2.name b.2.name) errs.enum) M)
              p.1 with
          | some c => { p.2 with code := c }
          | none => p.2) (i, errs.get ⟨i, hi⟩) := hg0
      constructor
      · intro hnz
        rw [hg]
        have hnone := (hdesc i hi).1 hnz
        simp only [hnone]
      · intro hz
        rcases (hdesc i hi).2 hz with ⟨k, hk, hgk, hsome⟩
        refine ⟨k, hk, hgk, ?_⟩
        rw [hg]
        simp only [hsome]
    refine ⟨fun e he hez => maxExplicitCode_mem_le errs 0 e he hez, ?_, ?_, ?_⟩
    · rw [List.forall₂_iff_get]
      refine ⟨houtlen.symm, ?_⟩
      intro i h1 h2
      by_cases hz : (errs.get ⟨i, h1⟩).code = 0
      · rcases (hval i h1 h2).2 hz with ⟨k, hk, hgk, hv⟩
        rw [hv]
        refine ⟨rfl, rfl, rfl, fun hnz => absurd hz hnz, fun _ => ?_⟩
        rw [← hMmax]
        have hk0 : (0 : Int) ≤ (k : Int) := Int.ofNat_nonneg k
        show M < M + (k : Int) + 1
        omega
      · rw [(hval i h1 h2).1 hz]
        exact ⟨rfl, rfl, rfl, fun _ => rfl, fun h0 => absurd h0 hz⟩
    · rw [List.nodup_iff_injective_get]
      intro a b hab
      rcases a with ⟨p, hpm⟩
      rcases b with ⟨q, hqm⟩
      have hp0 : p < out.length := by
        rw [← List.length_map out (fun e => e.code)]; exact hpm
      have hq0 : q < out.length := by
        rw [← List.length_map out (fun e => e.code)]; exact hqm
      have hp1 : p < errs.length := houtlen ▸ hp0
      have hq1 : q < errs.length := houtlen ▸ hq0
      simp only [List.get_eq_getElem, List.getElem_map] at hab
      have hcodes : (out.get ⟨p, hp0⟩).code = (out.get ⟨q, hq0⟩).code := by
        simpa [List.get_eq_getElem] using hab
      apply Fin.ext
      show p = q
      by_contra hpq
      by_cases hzp : (errs.get ⟨p, hp1⟩).code = 0
      · rcases (hval p hp1 hp0).2 hzp with ⟨kp, hkp, hgkp, hvp⟩
        by_cases hzq : (errs.get ⟨q, hq1⟩).code = 0
        · rcases (hval q hq1 hq0).2 hzq with ⟨kq, hkq, hgkq, hvq⟩
          rw [hvp, hvq] at hcodes
          have hck : M + (kp : Int) + 1 = M + (kq : Int) + 1 := hcodes
          have hkk : kp = kq := by
            have : (kp : Int) = (kq : Int) := by omega
            exact_mod_cast this
          subst hkk
          have hpair : (p, errs.get ⟨p, hp1⟩) = (q, errs.get ⟨q, hq1⟩) := by
            rw [← hgkp, ← hgkq]
          exact hpq (congrArg Prod.fst hpair)
        · have hvq := (hval q hq1 hq0).1 hzq
          rw [hvp, hvq] at hcodes
          have hle : (errs.get ⟨q, hq1⟩).code ≤ M :=
            hMmax ▸ maxExplicitCode_mem_le errs 0 _ (List.get_mem _ _ _) hzq
          have hk0 : (0 : Int) ≤ (kp : Int) := Int.ofNat_nonneg kp
          have hcc : M + (kp : Int) + 1 = (errs.get ⟨q, hq1⟩).code := hcodes
          omega
      · have hvp := (hval p hp1 hp0).1 hzp
        by_cases hzq : (errs.get ⟨q, hq1⟩).code = 0
        · rcases (hval q hq1 hq0).2 hzq with ⟨kq, hkq, hgkq, hvq⟩
          rw [hvp, hvq] at hcodes
          have hle : (errs.get ⟨p, hp1⟩).code ≤ M :=
            hMmax ▸ maxExplicitCode_mem_le errs 0 _ (List.get_mem _ _ _) hzp
          have hk0 : (0 : Int) ≤ (kq : Int) := Int.ofNat_nonneg kq
          have hcc : (errs.get ⟨p, hp1⟩).code = M + (kq : Int) + 1 := hcodes
          omega
        · rw [hvp, (hval q hq1 hq0).1 hzq] at hcodes
          obtain ⟨u, hu⟩ := sorted_entry_exists errs p hp1
          obtain ⟨v, hv⟩ := sorted_entry_exists errs q hq1
          have huv : (u : Nat) ≠ (v : Nat) := by
            intro hc
            have hgeq : (insertionSortBy (fun a b => strLeB a.2.name b.2.name)
                  errs.enum).get u
                = (insertionSortBy (fun a b => strLeB a.2.name b.2.name)
                  errs.enum).get v := by
              congr 1
              exact Fin.ext hc
            rw [hu, hv] at hgeq
            exact hpq (congrArg Prod.fst hgeq)
          have hne := errCodesScan_ok_map_ne hscan (u : Nat) (v : Nat) u.isLt v.isLt huv
          rw [hu, hv] at hne
          exact hne hzp hzq hcodes
    · intro p q hp hq hp' hq' hzp hzq hlt
      rcases (hval p hp hp').2 hzp with ⟨kp, hkp, hgkp, hvp⟩
      rcases (hval q hq hq').2 hzq with ⟨kq, hkq, hgkq, hvq⟩
      rw [hvp, hvq]
      show M + (kp : Int) + 1 < M + (kq : Int) + 1
      have hkpq : kp < kq := by
        rcases Nat.lt_trichotomy kp kq with hc | hc | hc
        · exact hc
        · exfalso
          subst hc
          have hpair : (p, errs.get ⟨p, hp⟩) = (q, errs.get ⟨q, hq⟩) := by
            rw [← hgkp, ← hgkq]
          have hpn : (errs.get ⟨p, hp⟩).name = (errs.get ⟨q, hq⟩).name :=
            congrArg (fun x : Nat × CustomError => x.2.name) hpair
          rw [hpn] at hlt
          rw [strLtB_irrefl] at hlt
          exact Bool.false_ne_true hlt
        · exfalso
          have hle := List.pairwise_iff_get.mp pairZ ⟨kq, hkq⟩ ⟨kp, hkp⟩ hc
          rw [hgkp, hgkq] at hle
          have hle2 : strLeB (errs.get ⟨q, hq⟩).name (errs.get ⟨p, hp⟩).name = true := hle
          rw [strLeB] at hle2
          rw [Bool.not_eq_true'] at hle2
          rw [hle2] at hlt
          exact Bool.false_ne_true hlt
      have hki : (kp : Int) < (kq : Int) := by exact_mod_cast hkpq
      omega
  · intro errs p q hp hq hpq hpz hcode
    rcases hscan : errCodesScan
        ((insertionSortBy (fun a b => strLeB a.2.name b.2.name) errs.enum).map
          (fun r => r.2)) [] 0 with msg | M
    · exact ⟨msg, assignErrorCodes_error errs hscan⟩
    · exfalso
      obtain ⟨u, hu⟩ := sorted_entry_exists errs p hp
      obtain ⟨v, hv⟩ := sorted_entry_exists errs q hq
      have huv : (u : Nat) ≠ (v : Nat) := by
        intro hc
        have hgeq : (insertionSortBy (fun a b => strLeB a.2.name b.2.name)
              errs.enum).get u
            = (insertionSortBy (fun a b => strLeB a.2.name b.2.name) errs.enum).get v := by
          congr 1
          exact Fin.ext hc
        rw [hu, hv] at hgeq
        exact hpq (congrArg Prod.fst hgeq)
      have hqz : (errs.get ⟨q, hq⟩).code ≠ 0 := by
        rw [← hcode]; exact hpz
      have hne := errCodesScan_ok_map_ne hscan (u : Nat) (v : Nat) u.isLt v.isLt huv
      rw [hu, hv] at hne
      exact hne hpz hqz hcode

/-- Witness instantiating the C2 theorem at the spec's own example:
errors `A { Msg = "a" }` and `B { Code = 5 Msg = "b" }` yield `A.Code = 6`
and pairwise distinct codes. -/
theorem error_codes_assignment_correct_witness :
    assignErrorCodes
        [⟨"A", 0, some ⟨.constStringDoubleQuote, "a"⟩, []⟩,
         ⟨"B", 5, some ⟨.constStringDoubleQuote, "b"⟩, []⟩]
      = .ok [⟨"A", 6, some ⟨.constStringDoubleQuote, "a"⟩, []⟩,
             ⟨"B", 5, some ⟨.constStringDoubleQuote, "b"⟩, []⟩]
    ∧ (([⟨"A", 6, some ⟨.constStringDoubleQuote, "a"⟩, []⟩,
         ⟨"B", 5, some ⟨.constStringDoubleQuote, "b"⟩, []⟩] :
          List CustomError).map (fun e => e.code)).Nodup := by
  refine ⟨by rfl, ?_⟩
  exact (error_codes_assignment_correct.1
    [⟨"A", 0, some ⟨.constStringDoubleQuote, "a"⟩, []⟩,
     ⟨"B", 5, some ⟨.constStringDoubleQuote, "b"⟩, []⟩]
    [⟨"A", 6, some ⟨.constStringDoubleQuote, "a"⟩, []⟩,
     ⟨"B", 5, some ⟨.constStringDoubleQuote, "b"⟩, []⟩]
    (by rfl) (by decide)).2.2.1

/-! ## Validator idempotence (claim C8) -/

theorem findConstValueF_nonvar :
    ∀ (fuel : Nat) (cm : List Const) (n : String) (v : Value),
      findConstValueF fuel cm n = some (some v) → isVarValue v = false
  | 0, _, _, _, h => by simp [findConstValueF] at h
  | fuel + 1, cm, n, v, h => by
    simp only [findConstValueF] at h
    rcases hf : cm.find? (fun c => c.name = n) with _ | c
    · rw [hf] at h
      simp at h
    · rw [hf] at h
      dsimp only at h
      cases hcv : c.value <;> rw [hcv] at h <;>
        first
          | exact findConstValueF_nonvar fuel cm _ v h
          | (cases Option.some.inj (Option.some.inj h); rfl)

theorem resolveValue_nonvar {fuel : Nat} {cm : List Const} {v v' : Value}
    (h : resolveValue fuel cm v = .ok v') : isVarValue v' = false := by
  cases hv : v <;> rw [hv] at h <;> simp only [resolveValue] at h
  case var n =>
    rcases hf : findConstValueF fuel cm n with _ | ov <;> rw [hf] at h
    · exact VRes.noConfusion h
    · rcases ov with _ | v2
      · exact VRes.noConfusion h
      · cases VRes.ok.inj h
        exact findConstValueF_nonvar fuel cm n _ hf
  all_goals cases VRes.ok.inj h; rfl

theorem resolveValue_id {fuel : Nat} {cm : List Const} {v : Value}
    (h : isVarValue v = false) : resolveValue fuel cm v = .ok v := by
  cases v <;> first | rfl | simp [isVarValue] at h

theorem resolveConst_ok {fuel : Nat} {cm : List Const} {c c' : Const}
    (h : resolveConst fuel cm c = .ok c') :
    c'.name = c.name ∧ isVarValue c'.value = false := by
  unfold resolveConst at h
  rcases hrv : resolveValue fuel cm c.value with v | m | _ <;>
    rw [hrv] at h <;> simp only [VRes.andThen] at h
  · cases VRes.ok.inj h
    exact ⟨rfl, resolveValue_nonvar hrv⟩
  · exact VRes.noConfusion h
  · exact VRes.noConfusion h

theorem resolveConst_id {fuel : Nat} {cm : List Const} {c : Const}
    (h : isVarValue c.value = false) : resolveConst fuel cm c = .ok c := by
  unfold resolveConst
  rw [resolveValue_id h]
  rfl

theorem resolveOpt_ok {fuel : Nat} {cm : List Const} {o o' : HOption}
    (h : resolveOpt fuel cm o = .ok o') :
    o'.name = o.name ∧ isVarValue o'.value = false := by
  unfold resolveOpt at h
  rcases hrv : resolveValue fuel cm o.value with v | m | _ <;>
    rw [hrv] at h <;> simp only [VRes.andThen] at h
  · cases VRes.ok.inj h
    exact ⟨rfl, resolveValue_nonvar hrv⟩
  · exact VRes.noConfusion h
  · exact VRes.noConfusion h

theorem resolveOpt_id {fuel : Nat} {cm : List Const} {o : HOption}
    (h : isVarValue o.value = false) : resolveOpt fuel cm o = .ok o := by
  unfold resolveOpt
  rw [resolveValue_id h]
  rfl

theorem mapVRes_forall₂ {α β : Type} {f : α → VRes β} {P : α → β → Prop} :
    ∀ {l : List α} {l' : List β}, mapVRes f l = .ok l' →
      (∀ a b, f a = .ok b → P a b) → List.Forall₂ P l l' := by
  intro l
  induction l with
  | nil =>
    intro l' h _
    cases VRes.ok.inj h
    exact List.Forall₂.nil
  | cons a rest ih =>
    intro l' h hf
    simp only [mapVRes] at h
    rcases hfa : f a with b | m | _ <;> rw [hfa] at h <;>
      simp only [VRes.andThen] at h
    · rcases hfr : mapVRes f rest with lr | m | _ <;> rw [hfr] at h <;>
        simp only [VRes.andThen] at h
      · cases VRes.ok.inj h
        exact List.Forall₂.cons (hf a b hfa) (ih hfr hf)
      · exact VRes.noConfusion h
      · exact VRes.noConfusion h
    · exact VRes.noConfusion h
    · exact VRes.noConfusion h

theorem mapVRes_id {α : Type} {f : α → VRes α} :
    ∀ {l : List α}, (∀ a ∈ l, f a = .ok a) → mapVRes f l = .ok l := by
  intro l
  induction l with
  | nil => intro _; rfl
  | cons a rest ih =>
    intro h
    simp only [mapVRes, h a (List.mem_cons_self a rest),
      ih (fun x hx => h x (List.mem_cons_of_mem _ hx)), VRes.andThen]

theorem forall₂_map_eq {α β γ : Type} {P : α → β → Prop} {g : α → γ} {g' : β → γ}
    (hg : ∀ a b, P a b → g' b = g a) :
    ∀ {l : List α} {l' : List β}, List.Forall₂ P l l' → l'.map g' = l.map g := by
  intro l l' h
  induction h with
  | nil => rfl
  | cons hab _ ih => simp [hg _ _ hab, ih]

theorem forall₂_mem_right {α β : Type} {P : α → β → Prop} :
    ∀ {l : List α} {l' : List β}, List.Forall₂ P l l' → ∀ b ∈ l', ∃ a ∈ l, P a b := by
  intro l l' h
  induction h with
  | nil => intro b hb; cases hb
  | cons hab _ ih =>
    intro b hb
    rcases List.mem_cons.mp hb with hb | hb
    · exact ⟨_, List.mem_cons_self _ _, hb ▸ hab⟩
    · rcases ih b hb with ⟨a, ha, hP⟩
      exact ⟨a, List.mem_cons_of_mem _ ha, hP⟩

theorem resolveField_ok {fuel : Nat} {cm : List Const} {f f' : Field}
    (h : resolveField fuel cm f = .ok f') :
    f'.name = f.name ∧ f'.type = f.type ∧
      f'.options.list.map (fun o => o.name) = f.options.list.map (fun o => o.name) ∧
      (∀ o ∈ f'.options.list, isVarValue o.value = false) := by
  unfold resolveField at h
  rcases hm : mapVRes (resolveOpt fuel cm) f.options.list with l | m | _ <;>
    rw [hm] at h <;> simp only [VRes.andThen] at h
  · cases VRes.ok.inj h
    have hfa := mapVRes_forall₂ hm (fun o o' ho => resolveOpt_ok ho)
    refine ⟨rfl, rfl, ?_, ?_⟩
    · exact forall₂_map_eq (fun a b hab => hab.1) hfa
    · intro o ho
      rcases forall₂_mem_right hfa o ho with ⟨_, _, hP⟩
      exact hP.2
  · exact VRes.noConfusion h
  · exact VRes.noConfusion h

theorem resolveField_id {fuel : Nat} {cm : List Const} {f : Field}
    (h : ∀ o ∈ f.options.list, isVarValue o.value = false) :
    resolveField fuel cm f = .ok f := by
  unfold resolveField
  rw [mapVRes_id (fun o ho => resolveOpt_id (h o ho))]
  rfl

theorem resolveModel_ok {fuel : Nat} {cm : List Const} {m m' : Model}
    (h : resolveModel fuel cm m = .ok m') :
    m'.name = m.name ∧
      m'.fields.map (fun f => (f.name, f.options.list.map (fun o => o.name)))
        = m.fields.map (fun f => (f.name, f.options.list.map (fun o => o.name))) ∧
      (∀ f ∈ m'.fields, ∀ o ∈ f.options.list, isVarValue o.value = false) := by
  unfold resolveModel at h
  rcases hm : mapVRes (resolveField fuel cm) m.fields with l | msg | _ <;>
    rw [hm] at h <;> simp only [VRes.andThen] at h
  · cases VRes.ok.inj h
    have hfa := mapVRes_forall₂ hm (fun f f' hf => resolveField_ok hf)
    refine ⟨rfl, ?_, ?_⟩
    · exact forall₂_map_eq (fun a b hab => by rw [hab.1, hab.2.2.1]) hfa
    · intro f hf
      rcases forall₂_mem_right hfa f hf with ⟨_, _, hP⟩
      exact hP.2.2.2
  · exact VRes.noConfusion h
  · exact VRes.noConfusion h

theorem resolveModel_id {fuel : Nat} {cm : List Const} {m : Model}
    (h : ∀ f ∈ m.fields, ∀ o ∈ f.options.list, isVarValue o.value = false) :
    resolveModel fuel cm m = .ok m := by
  unfold resolveModel
  rw [mapVRes_id (fun f hf => resolveField_id (h f hf))]
  rfl

theorem resolveMethod_ok {fuel : Nat} {cm : List Const} {m m' : Method}
    (h : resolveMethod fuel cm m = .ok m') :
    m'.name = m.name ∧ m'.args = m.args ∧ m'.returns = m.returns ∧
      m'.options.list.map (fun o => o.name) = m.options.list.map (fun o => o.name) ∧
      (∀ o ∈ m'.options.list, isVarValue o.value = false) := by
  unfold resolveMethod at h
  rcases hm : mapVRes (resolveOpt fuel cm) m.options.list with l | msg | _ <;>
    rw [hm] at h <;> simp only [VRes.andThen] at h
  · cases VRes.ok.inj h
    have hfa := mapVRes_forall₂ hm (fun o o' ho => resolveOpt_ok ho)
    refine ⟨rfl, rfl, rfl, ?_, ?_⟩
    · exact forall₂_map_eq (fun a b hab => hab.1) hfa
    · intro o ho
      rcases forall₂_mem_right hfa o ho with ⟨_, _, hP⟩
      exact hP.2
  · exact VRes.noConfusion h
  · exact VRes.noConfusion h

theorem resolveMethod_id {fuel : Nat} {cm : List Const} {m : Method}
    (h : ∀ o ∈ m.options.list, isVarValue o.value = false) :
    resolveMethod fuel cm m = .ok m := by
  unfold resolveMethod
  rw [mapVRes_id (fun o ho => resolveOpt_id (h o ho))]
  rfl

theorem resolveService_ok {fuel : Nat} {cm : List Const} {s s' : Service}
    (h : resolveService fuel cm s = .ok s') :
    s'.name = s.name ∧ s'.type = s.type ∧
      s'.methods.map (fun m =>
          (m.name, m.args, m.returns, m.options.list.map (fun o => o.name)))
        = s.methods.map (fun m =>
          (m.name, m.args, m.returns, m.options.list.map (fun o => o.name))) ∧
      (∀ m ∈ s'.methods, ∀ o ∈ m.options.list, isVarValue o.value = false) := by
  unfold resolveService at h
  rcases hm : mapVRes (resolveMethod fuel cm) s.methods with l | msg | _ <;>
    rw [hm] at h <;> simp only [VRes.andThen] at h
  · cases VRes.ok.inj h
    have hfa := mapVRes_forall₂ hm (fun m m' hmm => resolveMethod_ok hmm)
    refine ⟨rfl, rfl, ?_, ?_⟩
    · exact forall₂_map_eq (fun a b hab => by
        rw [hab.1, hab.2.1, hab.2.2.1, hab.2.2.2.1]) hfa
    · intro m hm2
      rcases forall₂_mem_right hfa m hm2 with ⟨_, _, hP⟩
      exact hP.2.2.2.2
  · exact VRes.noConfusion h
  · exact VRes.noConfusion h

theorem resolveService_id {fuel : Nat} {cm : List Const} {s : Service}
    (h : ∀ m ∈ s.methods, ∀ o ∈ m.options.list, isVarValue o.value = false) :
    resolveService fuel cm s = .ok s := by
  unfold resolveService
  rw [mapVRes_id (fun m hm => resolveMethod_id (h m hm))]
  rfl

theorem findSome?_ext_factor {α γ β : Type} :
    ∀ (l : List α) (h : α → Option β) (g : α → γ) (F : γ → Option β),
      (∀ a ∈ l, h a = F (g a)) →
      l.findSome? h = (l.map g).findSome? F := by
  intro l
  induction l with
  | nil => intro _ _ _ _; rfl
  | cons a rest ih =>
    intro h g F hp
    simp only [List.map_cons, List.findSome?_cons, hp a (List.mem_cons_self a rest)]
    cases F (g a)
    · exact ih h g F (fun x hx => hp x (List.mem_cons_of_mem _ hx))
    · rfl

theorem foldlM_ext_factor {σ α γ : Type} :
    ∀ (l : List α) (h : σ → α → Except String σ) (g : α → γ)
      (F : σ → γ → Except String σ) (s : σ),
      (∀ a ∈ l, ∀ s, h s a = F s (g a)) →
      l.foldlM h s = (l.map g).foldlM F s := by
  intro l
  induction l with
  | nil => intro _ _ _ _ _; rfl
  | cons a rest ih =>
    intro h g F s hp
    simp only [List.map_cons, List.foldlM_cons, hp a (List.mem_cons_self a rest)]
    cases hfs : F s (g a)
    · rfl
    · exact ih h g F _ (fun x hx => hp x (List.mem_cons_of_mem _ hx))
theorem checkCasing_eq (b b' : Bag)
    (hc : b'.consts.map (fun c => c.name) = b.consts.map (fun c => c.name))
    (he : b'.enums = b.enums)
    (hm : b'.models.map (fun m =>
        (m.name, m.fields.map (fun f => (f.name, f.options.list.map (fun o => o.name)))))
      = b.models.map (fun m =>
        (m.name, m.fields.map (fun f => (f.name, f.options.list.map (fun o => o.name))))))
    (hs : b'.services.map (fun s =>
        (s.name, s.methods.map (fun m =>
          (m.name, m.args, m.returns, m.options.list.map (fun o => o.name)))))
      = b.services.map (fun s =>
        (s.name, s.methods.map (fun m =>
          (m.name, m.args, m.returns, m.options.list.map (fun o => o.name)))))) :
    checkCasing b' = checkCasing b := by
  have e1 : ∀ (L : List Const),
      L.findSome? (fun c =>
        if ¬ isPascal c.name then some "name should be PascalCase" else none)
      = (L.map (fun c => c.name)).findSome? (fun n =>
        if ¬ isPascal n then some "name should be PascalCase" else none) :=
    fun L => findSome?_ext_factor L _ _ _ (fun a _ => rfl)
  have e2 : ∀ (L : List Model),
      L.findSome? (fun m =>
        (if ¬ isPascal m.name then some "name should be PascalCase" else none)
        <|> (m.fields.findSome? fun f =>
          (if ¬ isPascal f.name then some "name should be PascalCase" else none)
          <|> (f.options.list.findSome? fun o =>
            if ¬ isPascal o.name then some "name should be PascalCase" else none)))
      = (L.map (fun m => (m.name, m.fields.map (fun f =>
            (f.name, f.options.list.map (fun o => o.name)))))).findSome? (fun d =>
          (if ¬ isPascal d.1 then some "name should be PascalCase" else none)
          <|> (d.2.findSome? fun fd =>
            (if ¬ isPascal fd.1 then some "name should be PascalCase" else none)
            <|> (fd.2.findSome? fun n =>
              if ¬ isPascal n then some "name should be PascalCase" else none))) := by
    intro L
    apply findSome?_ext_factor
    intro m _
    have ef : m.fields.findSome? (fun f =>
        (if ¬ isPascal f.name then some "name should be PascalCase" else none)
        <|> (f.options.list.findSome? fun o =>
          if ¬ isPascal o.name then some "name should be PascalCase" else none))
        = (m.fields.map (fun f =>
            (f.name, f.options.list.map (fun o => o.name)))).findSome? (fun fd =>
          (if ¬ isPascal fd.1 then some "name should be PascalCase" else none)
          <|> (fd.2.findSome? fun n =>
            if ¬ isPascal n then some "name should be PascalCase" else none)) := by
      apply findSome?_ext_factor
      intro f _
      have eo : f.options.list.findSome? (fun o =>
          if ¬ isPascal o.name then some "name should be PascalCase" else none)
          = (f.options.list.map (fun o => o.name)).findSome? (fun n =>
            if ¬ isPascal n then some "name should be PascalCase" else none) :=
        findSome?_ext_factor _ _ _ _ (fun o _ => rfl)
      rw [eo]
    rw [ef]
  have e3 : ∀ (L : List Service),
      L.findSome? (fun s =>
        (if ¬ isPascal s.name then some "name should be PascalCase" else none)
        <|> (s.methods.findSome? fun m =>
          (if ¬ isPascal m.name then some "name should be PascalCase" else none)
          <|> (m.args.findSome? fun a =>
            if ¬ isCamel a.name then some "name should be camelCase" else none)
          <|> (m.returns.findSome? fun r =>
            if ¬ isCamel r.name then some "name should be camelCase" else none)
          <|> (m.options.list.findSome? fun o =>
            if ¬ isPascal o.name then some "name should be PascalCase" else none)))
      = (L.map (fun s => (s.name, s.methods.map (fun m =>
            (m.name, m.args, m.returns,
              m.options.list.map (fun o => o.name)))))).findSome? (fun sd =>
          (if ¬ isPascal sd.1 then some "name should be PascalCase" else none)
          <|> (sd.2.findSome? fun md =>
            (if ¬ isPascal md.1 then some "name should be PascalCase" else none)
            <|> (md.2.1.findSome? fun a =>
              if ¬ isCamel a.name then some "name should be camelCase" else none)
            <|> (md.2.2.1.findSome? fun r =>
              if ¬ isCamel r.name then some "name should be camelCase" else none)
            <|> (md.2.2.2.findSome? fun n =>
              if ¬ isPascal n then some "name should be PascalCase" else none))) := by
    intro L
    apply findSome?_ext_factor
    intro s _
    have em : s.methods.findSome? (fun m =>
        (if ¬ isPascal m.name then some "name should be PascalCase" else none)
        <|> (m.args.findSome? fun a =>
          if ¬ isCamel a.name then some "name should be camelCase" else none)
        <|> (m.returns.findSome? fun r =>
          if ¬ isCamel r.name then some "name should be camelCase" else none)
        <|> (m.options.list.findSome? fun o =>
          if ¬ isPascal o.name then some "name should be PascalCase" else none))
        = (s.methods.map (fun m => (m.name, m.args, m.returns,
            m.options.list.map (fun o => o.name)))).findSome? (fun md =>
          (if ¬ isPascal md.1 then some "name should be PascalCase" else none)
          <|> (md.2.1.findSome? fun a =>
            if ¬ isCamel a.name then some "name should be camelCase" else none)
          <|> (md.2.2.1.findSome? fun r =>
            if ¬ isCamel r.name then some "name should be camelCase" else none)
          <|> (md.2.2.2.findSome? fun n =>
            if ¬ isPascal n then some "name should be PascalCase" else none)) := by
      apply findSome?_ext_factor
      intro m _
      have eo : m.options.list.findSome? (fun o =>
          if ¬ isPascal o.name then some "name should be PascalCase" else none)
          = (m.options.list.map (fun o => o.name)).findSome? (fun n =>
            if ¬ isPascal n then some "name should be PascalCase" else none) :=
        findSome?_ext_factor _ _ _ _ (fun o _ => rfl)
      rw [eo]
    rw [em]
  unfold checkCasing
  rw [he, e1 b'.consts, e1 b.consts, hc, e2 b'.models, e2 b.models, hm,
    e3 b'.services, e3 b.services, hs]
theorem checkDuplicates_eq (b b' : Bag)
    (hc : b'.consts.map (fun c => c.name) = b.consts.map (fun c => c.name))
    (he : b'.enums = b.enums)
    (hm : b'.models.map (fun m =>
        (m.name, m.fields.map (fun f => (f.name, f.options.list.map (fun o => o.name)))))
      = b.models.map (fun m =>
        (m.name, m.fields.map (fun f => (f.name, f.options.list.map (fun o => o.name))))))
    (hs : b'.services.map (fun s =>
        (s.name, s.methods.map (fun m =>
          (m.name, m.args, m.returns, m.options.list.map (fun o => o.name)))))
      = b.services.map (fun s =>
        (s.name, s.methods.map (fun m =>
          (m.name, m.args, m.returns, m.options.list.map (fun o => o.name)))))) :
    checkDuplicates b' = checkDuplicates b := by
  have eM : ∀ (L : List Model) (s : List String),
      L.foldlM (fun seen (m : Model) => do
        let seen ← dupScan "name is already used" [m.name] seen
        let _ ← m.fields.foldlM (fun fseen (f : Field) => do
          let fseen ← dupScan "field name is already used in the same model" [f.name] fseen
          let _ ← dupScan "option name is already used in the same field"
            (f.options.list.map (fun o => o.name)) []
          pure fseen) ([] : List String)
        pure seen) s
      = (L.map (fun m => (m.name, m.fields.map (fun f =>
          (f.name, f.options.list.map (fun o => o.name)))))).foldlM
          (fun seen (d : String × List (String × List String)) => do
        let seen ← dupScan "name is already used" [d.1] seen
        let _ ← d.2.foldlM (fun fseen (fd : String × List String) => do
          let fseen ← dupScan "field name is already used in the same model" [fd.1] fseen
          let _ ← dupScan "option name is already used in the same field" fd.2 []
          pure fseen) ([] : List String)
        pure seen) s := by
    intro L s
    apply foldlM_ext_factor
    intro m _ seen
    have ef : m.fields.foldlM (fun fseen (f : Field) => do
        let fseen ← dupScan "field name is already used in the same model" [f.name] fseen
        let _ ← dupScan "option name is already used in the same field"
          (f.options.list.map (fun o => o.name)) []
        pure fseen) ([] : List String)
        = (m.fields.map (fun f =>
            (f.name, f.options.list.map (fun o => o.name)))).foldlM
            (fun fseen (fd : String × List String) => do
          let fseen ← dupScan "field name is already used in the same model" [fd.1] fseen
          let _ ← dupScan "option name is already used in the same field" fd.2 []
          pure fseen) ([] : List String) :=
      foldlM_ext_factor _ _ _ _ _ (fun f _ fs => rfl)
    exact congrArg (fun X : Except String (List String) => do
      let seen ← dupScan "name is already used" [m.name] seen
      let _ ← X
      pure seen) ef
  have eS : ∀ (L : List Service) (s : List String),
      L.foldlM (fun seen (sv : Service) => do
        let seen ← dupScan "name is already used" [sv.name] seen
        let _ ← sv.methods.foldlM (fun mseen (m : Method) => do
          let mseen ← dupScan "method name is already used in the same service" [m.name] mseen
          let argNames ← dupArgsScan m.args []
          let _ ← dupRetsScan argNames m.returns []
          let _ ← dupScan "option name is already used in the same method"
            (m.options.list.map (fun o => o.name)) []
          pure mseen) ([] : List String)
        pure seen) s
      = (L.map (fun sv => (sv.name, sv.methods.map (fun m =>
          (m.name, m.args, m.returns,
            m.options.list.map (fun o => o.name)))))).foldlM
          (fun seen (sd : String × List (String × List Arg × List Ret × List String)) => do
        let seen ← dupScan "name is already used" [sd.1] seen
        let _ ← sd.2.foldlM (fun mseen (md : String × List Arg × List Ret × List String) => do
          let mseen ← dupScan "method name is already used in the same service" [md.1] mseen
          let argNames ← dupArgsScan md.2.1 []
          let _ ← dupRetsScan argNames md.2.2.1 []
          let _ ← dupScan "option name is already used in the same method" md.2.2.2 []
          pure mseen) ([] : List String)
        pure seen) s := by
    intro L s
    apply foldlM_ext_factor
    intro sv _ seen
    have em : sv.methods.foldlM (fun mseen (m : Method) => do
        let mseen ← dupScan "method name is already used in the same service" [m.name] mseen
        let argNames ← dupArgsScan m.args []
        let _ ← dupRetsScan argNames m.returns []
        let _ ← dupScan "option name is already used in the same method"
          (m.options.list.map (fun o => o.name)) []
        pure mseen) ([] : List String)
        = (sv.methods.map (fun m => (m.name, m.args, m.returns,
            m.options.list.map (fun o => o.name)))).foldlM
            (fun mseen (md : String × List Arg × List Ret × List String) => do
          let mseen ← dupScan "method name is already used in the same service" [md.1] mseen
          let argNames ← dupArgsScan md.2.1 []
          let _ ← dupRetsScan argNames md.2.2.1 []
          let _ ← dupScan "option name is already used in the same method" md.2.2.2 []
          pure mseen) ([] : List String) :=
      foldlM_ext_factor _ _ _ _ _ (fun m _ ms => rfl)
    exact congrArg (fun X : Except String (List String) => do
      let seen ← dupScan "name is already used" [sv.name] seen
      let _ ← X
      pure seen) em
  unfold checkDuplicates
  rw [he, hc]
  simp only [eM, eS]
  rw [hm, hs]
theorem errCodesAssign_nil_of_nonzero :
    ∀ (L : List (Nat × CustomError)) (m : Int), (∀ p ∈ L, p.2.code ≠ 0) →
      errCodesAssign L m = []
  | [], _, _ => rfl
  | (i, e) :: rest, m, h => by
    simp only [errCodesAssign]
    rw [if_neg (h (i, e) (List.mem_cons_self _ _))]
    exact errCodesAssign_nil_of_nonzero rest m (fun p hp => h p (List.mem_cons_of_mem _ hp))

theorem errCodesScan_ok_of_distinct :
    ∀ (l : List CustomError) (res : List Int) (m : Int),
      (0 : Int) ∉ res →
      (∀ c ∈ res, ∀ e ∈ l, e.code ≠ 0 → e.code ≠ c) →
      (∀ (p q : Nat) (hp : p < l.length) (hq : q < l.length), p ≠ q →
        (l.get ⟨p, hp⟩).code ≠ (l.get ⟨q, hq⟩).code) →
      ∃ M, errCodesScan l res m = .ok M := by
  intro l
  induction l with
  | nil => intro res m _ _ _; exact ⟨m, rfl⟩
  | cons e rest ih =>
    intro res m h0 hres hdist
    have hcont : res.contains e.code = false := by
      cases hcv : res.contains e.code with
      | false => rfl
      | true =>
        exfalso
        have hmem : e.code ∈ res := by simpa using hcv
        by_cases hz : e.code = 0
        · rw [hz] at hmem
          exact h0 hmem
        · exact hres e.code hmem e (List.mem_cons_self _ _) hz rfl
    have hdist2 : ∀ (p q : Nat) (hp : p < rest.length) (hq : q < rest.length), p ≠ q →
        (rest.get ⟨p, hp⟩).code ≠ (rest.get ⟨q, hq⟩).code := by
      intro p q hp hq hpq
      exact hdist (p + 1) (q + 1) (Nat.succ_lt_succ hp) (Nat.succ_lt_succ hq)
        (fun hc => hpq (Nat.succ.inj hc))
    by_cases hz : e.code = 0
    · obtain ⟨M, hM⟩ := ih res m h0
        (fun c hc x hx => hres c hc x (List.mem_cons_of_mem _ hx)) hdist2
      refine ⟨M, ?_⟩
      simp only [errCodesScan]
      rw [if_neg (fun hc => Bool.false_ne_true (hcont ▸ hc)), if_neg (not_not_intro hz)]
      exact hM
    · obtain ⟨M, hM⟩ := ih (e.code :: res) (max m e.code)
        (by
          intro hc
          rcases List.mem_cons.mp hc with hc | hc
          · exact hz hc.symm
          · exact h0 hc)
        (by
          intro c hc x hx hxz
          rcases List.mem_cons.mp hc with hc | hc
          · subst hc
            rcases List.mem_iff_get.mp hx with ⟨⟨k, hk⟩, hgk⟩
            have hd := hdist (k + 1) 0 (Nat.succ_lt_succ hk) (Nat.succ_pos _)
              (Nat.succ_ne_zero k)
            have hd2 : (rest.get ⟨k, hk⟩).code ≠ e.code := hd
            rw [hgk] at hd2
            exact hd2
          · exact hres c hc x (List.mem_cons_of_mem _ hx) hxz)
        hdist2
      refine ⟨M, ?_⟩
      simp only [errCodesScan]
      rw [if_neg (fun hc => Bool.false_ne_true (hcont ▸ hc)), if_pos hz]
      exact hM

theorem assignErrorCodes_ok_props :
    ∀ (errs errs' : List CustomError),
      assignErrorCodes errs = .ok errs' →
      maxExplicitCode errs + errs.length < 2 ^ 63 →
        errs'.length = errs.length ∧
        (∀ (i : Nat) (hi : i < errs'.length), (errs'.get ⟨i, hi⟩).code ≠ 0) ∧
        (∀ (p q : Nat) (hp : p < errs'.length) (hq : q < errs'.length), p ≠ q →
          (errs'.get ⟨p, hp⟩).code ≠ (errs'.get ⟨q, hq⟩).code) := by
  intro errs errs' hok hov
  rcases hscan : errCodesScan
      ((insertionSortBy (fun a b => strLeB a.2.name b.2.name) errs.enum).map
        (fun p => p.2)) [] 0 with msg | M
  · rw [assignErrorCodes_error errs hscan] at hok
    exact Except.noConfusion hok
  rw [assignErrorCodes_ok errs hscan] at hok
  replace hok := (Except.ok.inj hok).symm
  subst hok
  set out := errs.enum.map (fun p =>
    match lookupIdx
        (errCodesAssign
          (insertionSortBy (fun a b => strLeB a.2.name b.2.name) errs.enum) M)
        p.1 with
    | some c => { p.2 with code := c }
    | none => p.2) with hout
  have permS := perm_insertionSortBy (fun a b => strLeB a.2.name b.2.name) errs.enum
  have pairS := pairwise_insertionSortBy (fun a b => strLeB a.2.name b.2.name)
    (fun a b => strLeB_total a.2.name b.2.name)
    (fun a b c => strLeB_trans a.2.name b.2.name c.2.name) errs.enum
  have permSnd :
      ((insertionSortBy (fun a b => strLeB a.2.name b.2.name) errs.enum).map
        (fun p => p.2)).Perm errs := by
    have hp2 := permS.map (fun p : Nat × CustomError => p.2)
    rwa [List.enum_map_snd] at hp2
  have keysS :
      ((insertionSortBy (fun a b => strLeB a.2.name b.2.name) errs.enum).map
        Prod.fst).Nodup := by
    have hp1 := permS.map Prod.fst
    rw [List.enum_map_fst] at hp1
    exact hp1.nodup_iff.mpr (List.nodup_range _)
  obtain ⟨hM0, hMle, hMcases⟩ := errCodesScan_ok_bounds _ _ _ _ hscan
  have hMmax : M = maxExplicitCode errs := by
    apply le_antisymm
    · rcases hMcases with hc | ⟨e, he, hez, hec⟩
      · exact hc ▸ maxExplicitCode_nonneg errs
      · calc M = e.code := hec.symm
          _ ≤ maxExplicitCode errs :=
            maxExplicitCode_mem_le errs 0 e (permSnd.mem_iff.mp he) hez
    · rcases maxExplicitCode_cases errs 0 with hc | ⟨e, he, hez, hec⟩
      · have hh : maxExplicitCode errs = 0 := hc
        rw [hh]; exact hM0
      · have hh : maxExplicitCode errs = e.code := hec
        rw [hh]; exact hMle e (permSnd.mem_iff.mpr he) hez
  have h63 : (2 : Int) ^ 63 = 9223372036854775808 := by norm_num
  have hZlen :
      ((insertionSortBy (fun a b => strLeB a.2.name b.2.name) errs.enum).filter
        (fun p => p.2.code = 0)).length ≤ errs.length := by
    calc ((insertionSortBy (fun a b => strLeB a.2.name b.2.name) errs.enum).filter
          (fun p => p.2.code = 0)).length
        ≤ (insertionSortBy (fun a b => strLeB a.2.name b.2.name) errs.enum).length :=
          List.length_filter_le _ _
      _ = errs.enum.length := permS.length_eq
      _ = errs.length := List.enum_length
  have hA : errCodesAssign
        (insertionSortBy (fun a b => strLeB a.2.name b.2.name) errs.enum) M =
      mapIdxI (fun k p => (p.1, M + (k : Int) + 1))
        ((insertionSortBy (fun a b => strLeB a.2.name b.2.name) errs.enum).filter
          (fun p => p.2.code = 0)) := by
    apply errCodesAssign_eq _ _ hM0
    have hc1 : (((insertionSortBy (fun a b => strLeB a.2.name b.2.name)
          errs.enum).filter (fun p => p.2.code = 0)).length : Int)
        ≤ (errs.length : Int) := by exact_mod_cast hZlen
    rw [h63] at hov ⊢
    omega
  have keysZ :
      (((insertionSortBy (fun a b => strLeB a.2.name b.2.name) errs.enum).filter
        (fun p => p.2.code = 0)).map Prod.fst).Nodup :=
    List.Nodup.sublist ((List.filter_sublist _).map Prod.fst) keysS
  have keysR :
      ((errCodesAssign
        (insertionSortBy (fun a b => strLeB a.2.name b.2.name) errs.enum) M).map
        Prod.fst).Nodup := by
    rw [hA, map_fst_mapIdxI _ _ (fun k p => rfl)]
    exact keysZ
  have pairZ :=
    List.Pairwise.filter (R := fun x y : Nat × CustomError => strLeB x.2.name y.2.name = true)
      (fun p => p.2.code = 0) pairS
  have memZ : ∀ x : Nat × CustomError,
      x ∈ (insertionSortBy (fun a b => strLeB a.2.name b.2.name) errs.enum).filter
          (fun p => p.2.code = 0) ↔
        x ∈ errs.enum ∧ x.2.code = 0 := by
    intro x
    rw [List.mem_filter, permS.mem_iff]
    simp
  have hdesc : ∀ (i : Nat) (hi : i < errs.length),
      ((errs.get ⟨i, hi⟩).code ≠ 0 →
        lookupIdx (errCodesAssign
          (insertionSortBy (fun a b => strLeB a.2.name b.2.name) errs.enum) M) i
          = none) ∧
      ((errs.get ⟨i, hi⟩).code = 0 →
        ∃ k, ∃ hk : k <
            ((insertionSortBy (fun a b => strLeB a.2.name b.2.name) errs.enum).filter
              (fun p => p.2.code = 0)).length,
          ((insertionSortBy (fun a b => strLeB a.2.name b.2.name) errs.enum).filter
            (fun p => p.2.code = 0)).get ⟨k, hk⟩ = (i, errs.get ⟨i, hi⟩) ∧
          lookupIdx (errCodesAssign
            (insertionSortBy (fun a b => strLeB a.2.name b.2.name) errs.enum) M) i
            = some (M + (k : Int) + 1)) := by
    intro i hi
    constructor
    · intro hnz
      apply lookupIdx_eq_none
      intro pr hpr
      rw [hA] at hpr
      rcases mem_mapIdxI hpr with ⟨k, hk, hpr_eq⟩
      intro hfst
      have hzk1 : (((insertionSortBy (fun a b => strLeB a.2.name b.2.name)
          errs.enum).filter (fun p => p.2.code = 0)).get ⟨k, hk⟩).1 = i := by
        rw [hpr_eq] at hfst
        exact hfst
      have hmemZget := List.get_mem
        ((insertionSortBy (fun a b => strLeB a.2.name b.2.name) errs.enum).filter
          (fun p => p.2.code = 0)) k hk
      rcases (memZ _).mp hmemZget with ⟨henm, hz0⟩
      have henm' : ((((insertionSortBy (fun a b => strLeB a.2.name b.2.name)
            errs.enum).filter (fun p => p.2.code = 0)).get ⟨k, hk⟩).1,
          (((insertionSortBy (fun a b => strLeB a.2.name b.2.name)
            errs.enum).filter (fun p => p.2.code = 0)).get ⟨k, hk⟩).2) ∈ errs.enum := by
        simpa using henm
      rw [hzk1] at henm'
      have hsome := List.mk_mem_enum_iff_getElem?.mp henm'
      rw [List.getElem?_eq_getElem hi] at hsome
      have hval2 : (((insertionSortBy (fun a b => strLeB a.2.name b.2.name)
          errs.enum).filter (fun p => p.2.code = 0)).get ⟨k, hk⟩).2
          = errs.get ⟨i, hi⟩ := (Option.some.inj hsome).symm
      rw [hval2] at hz0
      exact hnz hz0
    · intro hz
      have hmem_enum : (i, errs.get ⟨i, hi⟩) ∈ errs.enum :=
        List.mk_mem_enum_iff_getElem?.mpr (by simp [List.getElem?_eq_getElem hi])
      have hmemZ2 : (i, errs.get ⟨i, hi⟩) ∈
          (insertionSortBy (fun a b => strLeB a.2.name b.2.name) errs.enum).filter
            (fun p => p.2.code = 0) := (memZ _).mpr ⟨hmem_enum, hz⟩
      rcases List.mem_iff_get.mp hmemZ2 with ⟨⟨k, hk⟩, hget⟩
      refine ⟨k, hk, hget, ?_⟩
      apply lookupIdx_eq_some keysR
      rw [hA]
      have hkR : k < (mapIdxI (fun k p => (p.1, M + (k : Int) + 1))
          ((insertionSortBy (fun a b => strLeB a.2.name b.2.name) errs.enum).filter
            (fun p => p.2.code = 0))).length := by
        rw [length_mapIdxI]; exact hk
      have hgm := get_mapIdxI _ (fun k p => (p.1, M + (k : Int) + 1)) k hkR hk
      rw [hget] at hgm
      have hmmem := List.get_mem _ k hkR
      rw [hgm] at hmmem
      exact hmmem
  have houtlen : out.length = errs.length := by
    rw [hout, List.length_map, List.enum_length]
  have hval : ∀ (i : Nat) (hi : i < errs.length) (hi' : i < out.length),
      ((errs.get ⟨i, hi⟩).code ≠ 0 →
        out.get ⟨i, hi'⟩ = errs.get ⟨i, hi⟩) ∧
      ((errs.get ⟨i, hi⟩).code = 0 →
        ∃ k, ∃ hk : k <
            ((insertionSortBy (fun a b => strLeB a.2.name b.2.name) errs.enum).filter
              (fun p => p.2.code = 0)).length,
          ((insertionSortBy (fun a b => strLeB a.2.name b.2.name) errs.enum).filter
            (fun p => p.2.code = 0)).get ⟨k, hk⟩ = (i, errs.get ⟨i, hi⟩) ∧
          out.get ⟨i, hi'⟩ = { errs.get ⟨i, hi⟩ with code := M + (k : Int) + 1 }) := by
    intro i hi hi'
    have him : i < (errs.enum.map (fun p : Nat × CustomError =>
        match lookupIdx
            (errCodesAssign
              (insertionSortBy (fun a b => strLeB a.2.name b.2.name) errs.enum) M)
            p.1 with
        | some c => { p.2 with code := c }
        | none => p.2)).length := by
      rw [List.length_map, List.enum_length]; exact hi
    have hg0 : (errs.enum.map (fun p : Nat × CustomError =>
        match lookupIdx
            (errCodesAssign
              (insertionSortBy (fun a b => strLeB a.2.name b.2.name) errs.enum) M)
            p.1 with
        | some c => { p.2 with code := c }
        | none => p.2)).get ⟨i, him⟩ = (fun p : Nat × CustomError =>
        match lookupIdx
            (errCodesAssign
              (insertionSortBy (fun a b => strLeB a.2.name b.2.name) errs.enum) M)
            p.1 with
        | some c => { p.2 with code := c }
        | none => p.2) (i, errs.get ⟨i, hi⟩) := by
      rw [List.get_eq_getElem, List.getElem_map, List.getElem_enum]
      rfl
    have hg : out.get ⟨i, hi'⟩ = (fun p : Nat × CustomError =>
        match lookupIdx
            (errCodesAssign
              (insertionSortBy (fun a b => strLeB a.2.name b.2.name) errs.enum) M)
            p.1 with
        | some c => { p.2 with code := c }
        | none => p.2) (i, errs.get ⟨i, hi⟩) := hg0
    constructor
    · intro hnz
      rw [hg]
      have hnone := (hdesc i hi).1 hnz
      simp only [hnone]
    · intro hz
      rcases (hdesc i hi).2 hz with ⟨k, hk, hgk, hsome⟩
      refine ⟨k, hk, hgk, ?_⟩
      rw [hg]
      simp only [hsome]
  refine ⟨houtlen, ?_, ?_⟩
  · intro i hi'
    have hi : i < errs.length := houtlen ▸ hi'
    by_cases hz : (errs.get ⟨i, hi⟩).code = 0
    · rcases (hval i hi hi').2 hz with ⟨k, hk, hgk, hv⟩
      rw [hv]
      have hk0 : (0 : Int) ≤ (k : Int) := Int.ofNat_nonneg k
      show M + (k : Int) + 1 ≠ 0
      omega
    · rw [(hval i hi hi').1 hz]
      exact hz
  · intro p q hp0 hq0 hpq hcodes
    have hp1 : p < errs.length := houtlen ▸ hp0
    have hq1 : q < errs.length := houtlen ▸ hq0
    by_cases hzp : (errs.get ⟨p, hp1⟩).code = 0
    · rcases (hval p hp1 hp0).2 hzp with ⟨kp, hkp, hgkp, hvp⟩
      by_cases hzq : (errs.get ⟨q, hq1⟩).code = 0
      · rcases (hval q hq1 hq0).2 hzq with ⟨kq, hkq, hgkq, hvq⟩
        rw [hvp, hvq] at hcodes
        have hck : M + (kp : Int) + 1 = M + (kq : Int) + 1 := hcodes
        have hkk : kp = kq := by
          have : (kp : Int) = (kq : Int) := by omega
          exact_mod_cast this
        subst hkk
        have hpair : (p, errs.get ⟨p, hp1⟩) = (q, errs.get ⟨q, hq1⟩) := by
          rw [← hgkp, ← hgkq]
        exact hpq (congrArg Prod.fst hpair)
      · have hvq := (hval q hq1 hq0).1 hzq
        rw [hvp, hvq] at hcodes
        have hle : (errs.get ⟨q, hq1⟩).code ≤ M :=
          hMmax ▸ maxExplicitCode_mem_le errs 0 _ (List.get_mem _ _ _) hzq
        have hk0 : (0 : Int) ≤ (kp : Int) := Int.ofNat_nonneg kp
        have hcc : M + (kp : Int) + 1 = (errs.get ⟨q, hq1⟩).code := hcodes
        omega
    · have hvp := (hval p hp1 hp0).1 hzp
      by_cases hzq : (errs.get ⟨q, hq1⟩).code = 0
      · rcases (hval q hq1 hq0).2 hzq with ⟨kq, hkq, hgkq, hvq⟩
        rw [hvp, hvq] at hcodes
        have hle : (errs.get ⟨p, hp1⟩).code ≤ M :=
          hMmax ▸ maxExplicitCode_mem_le errs 0 _ (List.get_mem _ _ _) hzp
        have hk0 : (0 : Int) ≤ (kq : Int) := Int.ofNat_nonneg kq
        have hcc : (errs.get ⟨p, hp1⟩).code = M + (kq : Int) + 1 := hcodes
        omega
      · rw [hvp, (hval q hq1 hq0).1 hzq] at hcodes
        obtain ⟨u, hu⟩ := sorted_entry_exists errs p hp1
        obtain ⟨v, hv⟩ := sorted_entry_exists errs q hq1
        have huv : (u : Nat) ≠ (v : Nat) := by
          intro hc
          have hgeq : (insertionSortBy (fun a b => strLeB a.2.name b.2.name)
                errs.enum).get u
              = (insertionSortBy (fun a b => strLeB a.2.name b.2.name)
                errs.enum).get v := by
            congr 1
            exact Fin.ext hc
          rw [hu, hv] at hgeq
          exact hpq (congrArg Prod.fst hgeq)
        have hne := errCodesScan_ok_map_ne hscan (u : Nat) (v : Nat) u.isLt v.isLt huv
        rw [hu, hv] at hne
        exact hne hzp hzq hcodes
theorem assignErrorCodes_id (errs : List CustomError)
    (hnz : ∀ (i : Nat) (hi : i < errs.length), (errs.get ⟨i, hi⟩).code ≠ 0)
    (hdist : ∀ (p q : Nat) (hp : p < errs.length) (hq : q < errs.length), p ≠ q →
      (errs.get ⟨p, hp⟩).code ≠ (errs.get ⟨q, hq⟩).code) :
    assignErrorCodes errs = .ok errs := by
  have hperm := perm_insertionSortBy (fun a b => strLeB a.2.name b.2.name) errs.enum
  have keysS : ((insertionSortBy (fun a b => strLeB a.2.name b.2.name)
      errs.enum).map Prod.fst).Nodup := by
    have hp1 := hperm.map Prod.fst
    rw [List.enum_map_fst] at hp1
    exact hp1.nodup_iff.mpr (List.nodup_range _)
  have hentry : ∀ (u : Nat)
      (hu : u < (insertionSortBy (fun a b => strLeB a.2.name b.2.name) errs.enum).length),
      ∃ (i : Nat) (hi : i < errs.length),
        (insertionSortBy (fun a b => strLeB a.2.name b.2.name) errs.enum).get ⟨u, hu⟩
          = (i, errs.get ⟨i, hi⟩) := by
    intro u hu
    have hmem : (insertionSortBy (fun a b => strLeB a.2.name b.2.name)
        errs.enum).get ⟨u, hu⟩ ∈
        insertionSortBy (fun a b => strLeB a.2.name b.2.name) errs.enum :=
      List.get_mem _ _ _
    have hmem2 := hperm.mem_iff.mp hmem
    rcases hpr : (insertionSortBy (fun a b => strLeB a.2.name b.2.name)
        errs.enum).get ⟨u, hu⟩ with ⟨i, e⟩
    rw [hpr] at hmem2
    have hsome := List.mk_mem_enum_iff_getElem?.mp hmem2
    have hi : i < errs.length := by
      by_contra hni
      rw [List.getElem?_eq_none (le_of_not_lt hni)] at hsome
      exact Option.noConfusion hsome
    rw [List.getElem?_eq_getElem hi] at hsome
    have he : e = errs.get ⟨i, hi⟩ := (Option.some.inj hsome).symm
    exact ⟨i, hi, by rw [hpr, he]⟩
  have hsnz : ∀ p ∈ insertionSortBy (fun a b => strLeB a.2.name b.2.name) errs.enum,
      p.2.code ≠ 0 := by
    intro p hp
    rcases List.mem_iff_get.mp hp with ⟨⟨u, hu⟩, hgu⟩
    rcases hentry u hu with ⟨i, hi, hei⟩
    rw [hgu] at hei
    rw [hei]
    exact hnz i hi
  have hdistS : ∀ (p q : Nat)
      (hp : p < ((insertionSortBy (fun a b : Nat × CustomError => strLeB a.2.name b.2.name)
        errs.enum).map (fun r : Nat × CustomError => r.2)).length)
      (hq : q < ((insertionSortBy (fun a b : Nat × CustomError => strLeB a.2.name b.2.name)
        errs.enum).map (fun r : Nat × CustomError => r.2)).length), p ≠ q →
      (((insertionSortBy (fun a b : Nat × CustomError => strLeB a.2.name b.2.name)
        errs.enum).map (fun r : Nat × CustomError => r.2)).get ⟨p, hp⟩).code ≠
      (((insertionSortBy (fun a b : Nat × CustomError => strLeB a.2.name b.2.name)
        errs.enum).map (fun r : Nat × CustomError => r.2)).get ⟨q, hq⟩).code := by
    intro p q hp hq hpq
    have hpS : p < (insertionSortBy (fun a b => strLeB a.2.name b.2.name)
        errs.enum).length := by
      rw [List.length_map] at hp
      exact hp
    have hqS : q < (insertionSortBy (fun a b => strLeB a.2.name b.2.name)
        errs.enum).length := by
      rw [List.length_map] at hq
      exact hq
    have hgp : ((insertionSortBy (fun a b => strLeB a.2.name b.2.name)
        errs.enum).map (fun r => r.2)).get ⟨p, hp⟩
        = ((insertionSortBy (fun a b => strLeB a.2.name b.2.name)
          errs.enum).get ⟨p, hpS⟩).2 := by
      simp [List.get_eq_getElem, List.getElem_map]
    have hgq : ((insertionSortBy (fun a b => strLeB a.2.name b.2.name)
        errs.enum).map (fun r => r.2)).get ⟨q, hq⟩
        = ((insertionSortBy (fun a b => strLeB a.2.name b.2.name)
          errs.enum).get ⟨q, hqS⟩).2 := by
      simp [List.get_eq_getElem, List.getElem_map]
    rcases hentry p hpS with ⟨i, hi, hepi⟩
    rcases hentry q hqS with ⟨j, hj, heqj⟩
    have hij : i ≠ j := by
      intro hc
      subst hc
      apply hpq
      have hinj := List.nodup_iff_injective_get.mp keysS
      have hpm : p < ((insertionSortBy (fun a b => strLeB a.2.name b.2.name)
          errs.enum).map Prod.fst).length := by
        rw [List.length_map]
        exact hpS
      have hqm : q < ((insertionSortBy (fun a b => strLeB a.2.name b.2.name)
          errs.enum).map Prod.fst).length := by
        rw [List.length_map]
        exact hqS
      have hfeq : ((insertionSortBy (fun a b => strLeB a.2.name b.2.name)
          errs.enum).map Prod.fst).get ⟨p, hpm⟩
          = ((insertionSortBy (fun a b => strLeB a.2.name b.2.name)
            errs.enum).map Prod.fst).get ⟨q, hqm⟩ := by
        have hfp : ((insertionSortBy (fun a b => strLeB a.2.name b.2.name)
            errs.enum).map Prod.fst).get ⟨p, hpm⟩
            = ((insertionSortBy (fun a b => strLeB a.2.name b.2.name)
              errs.enum).get ⟨p, hpS⟩).1 := by
          simp [List.get_eq_getElem, List.getElem_map]
        have hfq : ((insertionSortBy (fun a b => strLeB a.2.name b.2.name)
            errs.enum).map Prod.fst).get ⟨q, hqm⟩
            = ((insertionSortBy (fun a b => strLeB a.2.name b.2.name)
              errs.enum).get ⟨q, hqS⟩).1 := by
          simp [List.get_eq_getElem, List.getElem_map]
        rw [hfp, hfq, hepi, heqj]
      have := hinj hfeq
      exact congrArg Fin.val this
    rw [hgp, hgq, hepi, heqj]
    exact hdist i j hi hj hij
  obtain ⟨M, hscan⟩ := errCodesScan_ok_of_distinct
    ((insertionSortBy (fun a b => strLeB a.2.name b.2.name) errs.enum).map
      (fun p => p.2)) [] 0
    (by simp)
    (by intro c hc; cases hc)
    hdistS
  rw [assignErrorCodes_ok errs hscan]
  have hasg : errCodesAssign
      (insertionSortBy (fun a b => strLeB a.2.name b.2.name) errs.enum) M = [] :=
    errCodesAssign_nil_of_nonzero _ M hsnz
  rw [hasg]
  have hfun : (fun p : Nat × CustomError =>
      match lookupIdx ([] : List (Nat × Int)) p.1 with
      | some c => { p.2 with code := c }
      | none => p.2) = fun p : Nat × CustomError => p.2 := by
    funext p
    rfl
  rw [hfun, List.enum_map_snd]
/-- **C8 (amended).** A successful validation is idempotent: a second run
of the validator on the produced bag succeeds with the bag unchanged, for
any recursion budget, provided the custom-error codes do not overflow
(the maximal explicit code plus the number of errors stays below 2^63);
the counterexample shows the proviso is needed. -/
theorem validate_idempotent :
    ∀ (fuel : Nat) (b b' : Bag),
      ValidateBag fuel b = .ok b' →
      maxExplicitCode b.errors + b.errors.length < 2 ^ 63 →
      ∀ fuel2 : Nat, ValidateBag fuel2 b' = .ok b' := by
  intro fuel b b' hok hov fuel2
  unfold ValidateBag at hok
  dsimp only at hok
  rcases hcas : checkCasing b with _ | e
  · rw [hcas] at hok
    dsimp only [VRes.andThen] at hok
    rcases hdup : checkDuplicates b with msg | u
    · rw [hdup] at hok
      exact VRes.noConfusion hok
    · rw [hdup] at hok
      dsimp only [VRes.andThen] at hok
      rcases hrc : mapVRes (resolveConst fuel b.consts) b.consts with consts1 | msg | _
      · rw [hrc] at hok
        dsimp only [VRes.andThen] at hok
        rcases hrm : mapVRes (resolveModel fuel b.consts) b.models with models1 | msg | _
        · rw [hrm] at hok
          dsimp only [VRes.andThen] at hok
          rcases hrs : mapVRes (resolveService fuel b.consts) b.services with services1 | msg | _
          · rw [hrs] at hok
            dsimp only [VRes.andThen] at hok
            rcases hty : checkTypes (models1.map (fun m => m.name) ++ b.enums.map (fun e => e.name)) models1 services1 with _ | e
            · rw [hty] at hok
              dsimp only [VRes.andThen] at hok
              rcases hass : assignErrorCodes b.errors with msg | errors1
              · rw [hass] at hok
                exact VRes.noConfusion hok
              · rw [hass] at hok
                dsimp only [VRes.andThen] at hok
                rcases hrpc : checkRpcStream services1 with _ | e
                · rw [hrpc] at hok
                  dsimp only [VRes.andThen] at hok
                  rcases hbyt : checkModelByteArrays models1 with _ | e
                  · rw [hbyt] at hok
                    dsimp only [VRes.andThen] at hok
                    rcases hhtp : checkHttpStreams services1 with _ | e
                    · rw [hhtp] at hok
                      dsimp only [VRes.andThen] at hok
                      have hfin : VRes.ok (⟨consts1, b.enums, models1, services1, errors1⟩ : Bag) = VRes.ok b' := hok
                      have hb2 : b' = ⟨consts1, b.enums, models1, services1, errors1⟩ := (VRes.ok.inj hfin).symm
                      subst hb2
                      have hfc := mapVRes_forall₂ hrc (fun a c h => resolveConst_ok h)
                      have hcn : consts1.map (fun c => c.name) = b.consts.map (fun c => c.name) :=
                        forall₂_map_eq (fun a c h => h.1) hfc
                      have hcnv : ∀ c ∈ consts1, isVarValue c.value = false := by
                        intro c hc
                        rcases forall₂_mem_right hfc c hc with ⟨a, ha, hP⟩
                        exact hP.2
                      have hfm := mapVRes_forall₂ hrm (fun a m h => resolveModel_ok h)
                      have hmn : models1.map (fun m => (m.name, m.fields.map (fun f =>
                            (f.name, f.options.list.map (fun o => o.name)))))
                          = b.models.map (fun m => (m.name, m.fields.map (fun f =>
                            (f.name, f.options.list.map (fun o => o.name))))) :=
                        forall₂_map_eq (fun a m h => by rw [h.1, h.2.1]) hfm
                      have hmnv : ∀ m ∈ models1, ∀ f ∈ m.fields, ∀ o ∈ f.options.list,
                          isVarValue o.value = false := by
                        intro m hm
                        rcases forall₂_mem_right hfm m hm with ⟨a, ha, hP⟩
                        exact hP.2.2
                      have hfs := mapVRes_forall₂ hrs (fun a s h => resolveService_ok h)
                      have hsn : services1.map (fun s => (s.name, s.methods.map (fun m =>
                            (m.name, m.args, m.returns, m.options.list.map (fun o => o.name)))))
                          = b.services.map (fun s => (s.name, s.methods.map (fun m =>
                            (m.name, m.args, m.returns, m.options.list.map (fun o => o.name))))) :=
                        forall₂_map_eq (fun a s h => by rw [h.1, h.2.2.1]) hfs
                      have hsnv : ∀ s ∈ services1, ∀ m ∈ s.methods, ∀ o ∈ m.options.list,
                          isVarValue o.value = false := by
                        intro s hsv
                        rcases forall₂_mem_right hfs s hsv with ⟨a, ha, hP⟩
                        exact hP.2.2.2
                      have hprops := assignErrorCodes_ok_props b.errors errors1 hass hov
                      have hcc2 : checkCasing (⟨consts1, b.enums, models1, services1, errors1⟩ : Bag) = none := by
                        rw [checkCasing_eq b ⟨consts1, b.enums, models1, services1, errors1⟩ hcn rfl hmn hsn]
                        exact hcas
                      have hdd2 : checkDuplicates (⟨consts1, b.enums, models1, services1, errors1⟩ : Bag) = .ok u := by
                        rw [checkDuplicates_eq b ⟨consts1, b.enums, models1, services1, errors1⟩ hcn rfl hmn hsn]
                        exact hdup
                      have hrc2 : mapVRes (resolveConst fuel2 consts1) consts1 = .ok consts1 :=
                        mapVRes_id (fun c hc => resolveConst_id (hcnv c hc))
                      have hrm2 : mapVRes (resolveModel fuel2 consts1) models1 = .ok models1 :=
                        mapVRes_id (fun m hm => resolveModel_id (hmnv m hm))
                      have hrs2 : mapVRes (resolveService fuel2 consts1) services1 = .ok services1 :=
                        mapVRes_id (fun s hs => resolveService_id (hsnv s hs))
                      have hasg2 : assignErrorCodes errors1 = .ok errors1 :=
                        assignErrorCodes_id errors1 hprops.2.1 hprops.2.2
                      simp only [ValidateBag, hcc2, hdd2, hrc2, hrm2, hrs2, VRes.andThen, hty, hasg2,
                        hrpc, hbyt, hhtp]
                    · rw [hhtp] at hok
                      exact VRes.noConfusion hok
                  · rw [hbyt] at hok
                    exact VRes.noConfusion hok
                · rw [hrpc] at hok
                  exact VRes.noConfusion hok
            · rw [hty] at hok
              exact VRes.noConfusion hok
          · rw [hrs] at hok
            exact VRes.noConfusion hok
          · rw [hrs] at hok
            exact VRes.noConfusion hok
        · rw [hrm] at hok
          exact VRes.noConfusion hok
        · rw [hrm] at hok
          exact VRes.noConfusion hok
      · rw [hrc] at hok
        exact VRes.noConfusion hok
      · rw [hrc] at hok
        exact VRes.noConfusion hok
  · rw [hcas] at hok
    exact VRes.noConfusion hok
/-- Witness instantiating the C8 theorem: validating a bag with errors
`A { Msg = "a" }` and `B { Code = 5 Msg = "b" }` assigns `A.Code = 6`, and a
second validation run leaves the bag unchanged. -/
theorem validate_idempotent_witness :
    ValidateBag 1 (⟨[], [], [], [],
        [⟨"A", 0, some ⟨.constStringDoubleQuote, "a"⟩, []⟩,
         ⟨"B", 5, some ⟨.constStringDoubleQuote, "b"⟩, []⟩]⟩ : Bag)
      = .ok ⟨[], [], [], [],
        [⟨"A", 6, some ⟨.constStringDoubleQuote, "a"⟩, []⟩,
         ⟨"B", 5, some ⟨.constStringDoubleQuote, "b"⟩, []⟩]⟩
    ∧ ValidateBag 1 (⟨[], [], [], [],
        [⟨"A", 6, some ⟨.constStringDoubleQuote, "a"⟩, []⟩,
         ⟨"B", 5, some ⟨.constStringDoubleQuote, "b"⟩, []⟩]⟩ : Bag)
      = .ok ⟨[], [], [], [],
        [⟨"A", 6, some ⟨.constStringDoubleQuote, "a"⟩, []⟩,
         ⟨"B", 5, some ⟨.constStringDoubleQuote, "b"⟩, []⟩]⟩ := by
  refine ⟨by decide, ?_⟩
  exact validate_idempotent 1
    ⟨[], [], [], [],
      [⟨"A", 0, some ⟨.constStringDoubleQuote, "a"⟩, []⟩,
       ⟨"B", 5, some ⟨.constStringDoubleQuote, "b"⟩, []⟩]⟩
    ⟨[], [], [], [],
      [⟨"A", 6, some ⟨.constStringDoubleQuote, "a"⟩, []⟩,
       ⟨"B", 5, some ⟨.constStringDoubleQuote, "b"⟩, []⟩]⟩
    (by decide) (by decide) 1

/-- Counterexample to the unconditional C8 claim: with an explicit code at
the `int64` maximum the auto-assignment wraps to the minimum and collides
with another explicitly coded error, so the first validation succeeds but
a second run of the validator on its output fails. -/
theorem validate_not_idempotent_counterexample :
    ValidateBag 1 (⟨[], [], [], [],
        [⟨"A", 9223372036854775807, some ⟨.constStringDoubleQuote, "a"⟩, []⟩,
         ⟨"B", 0, some ⟨.constStringDoubleQuote, "b"⟩, []⟩,
         ⟨"D", -9223372036854775808, some ⟨.constStringDoubleQuote, "d"⟩, []⟩]⟩ : Bag)
      = .ok ⟨[], [], [], [],
        [⟨"A", 9223372036854775807, some ⟨.constStringDoubleQuote, "a"⟩, []⟩,
         ⟨"B", -9223372036854775808, some ⟨.constStringDoubleQuote, "b"⟩, []⟩,
         ⟨"D", -9223372036854775808, some ⟨.constStringDoubleQuote, "d"⟩, []⟩]⟩
    ∧ ValidateBag 1 (⟨[], [], [], [],
        [⟨"A", 9223372036854775807, some ⟨.constStringDoubleQuote, "a"⟩, []⟩,
         ⟨"B", -9223372036854775808, some ⟨.constStringDoubleQuote, "b"⟩, []⟩,
         ⟨"D", -9223372036854775808, some ⟨.constStringDoubleQuote, "d"⟩, []⟩]⟩ : Bag)
      = .err "code is already used" := by
  exact ⟨by decide, by decide⟩

end Hexe
